import Mathlib

/-!
Shallow embedding of the cmaze repository core (src/cmaze.c, src/cmaze.h):
the grid/cell data model, maze generation (maze_create), the solver
strategies (BFS, DFS, A*, wall-following) and the solution-path
reconstruction, together with the start/end placement API and the public
cell-type accessor.  Machine integers are modelled as Int (the C code never
overflows in the modelled ranges), the C random() stream is an explicit
function argument, loops that the C code runs unboundedly are given fuel,
and the asynchronous solver_cancel flag is an explicit boolean schedule
indexed by the loop iteration counter.
-/

/-- CellType from src/cmaze.h: CELL_TYPE_EMPTY = 0, WALL, END, START,
PATH_HEAD, PATH_VISITED, PATH_SOLUTION. -/
inductive CellType where
  | empty
  | wall
  | endCell
  | startCell
  | pathHead
  | pathVisited
  | pathSolution
deriving DecidableEq, Repr

/-- Numeric value of each CellType enumerator as laid out in src/cmaze.h. -/
def cellTypeCode : CellType → Nat
  | .empty => 0
  | .wall => 1
  | .endCell => 2
  | .startCell => 3
  | .pathHead => 4
  | .pathVisited => 5
  | .pathSolution => 6

/-- SolverAlgorithm from src/cmaze.h. -/
inductive SolverAlgorithm where
  | bfs
  | dfs
  | aStar
  | alwaysTurnLeft
  | alwaysTurnRight
deriving DecidableEq, Repr

/-- struct Cell from src/cmaze.c.  The parent pointer of a board cell is
modelled as the coordinates of the parent cell inside the same board. -/
structure Cell where
  row : Int
  col : Int
  value : Int
  heuristic : Int
  type : CellType
  parent : Option (Int × Int)
deriving DecidableEq, Repr

/-- struct Maze from src/cmaze.c.  The board is the row-major cell array;
start_cell and end_cell are pointers into the board, modelled by their
coordinates.  Fields that only matter for rendering or timing
(anim_speed, solve_time, the GLib thread handle and callback) are not part
of the model; the solver_cancel flag is passed to the solvers as an
explicit schedule. -/
structure Maze where
  num_rows : Int
  num_cols : Int
  board : List Cell
  start_cell : Int × Int
  end_cell : Int × Int
  difficult : Bool
  solver_running : Bool
  solver_algorithm : SolverAlgorithm
  path_len : Int
deriving DecidableEq, Repr

/-- maze_get_cell: bounds-checked lookup into the row-major board. -/
def maze_get_cell (m : Maze) (row col : Int) : Option Cell :=
  if row < 0 ∨ row ≥ m.num_rows ∨ col < 0 ∨ col ≥ m.num_cols then none
  else m.board.get? (row * m.num_cols + col).toNat

/-- Board update through a cell pointer obtained from maze_get_cell: apply
f to the cell at (row, col); a miss (out of range, which never happens when
the C code writes through a valid pointer) leaves the board unchanged. -/
def maze_mod_cell (m : Maze) (row col : Int) (f : Cell → Cell) : Maze :=
  if row < 0 ∨ row ≥ m.num_rows ∨ col < 0 ∨ col ≥ m.num_cols then m
  else
    match m.board.get? (row * m.num_cols + col).toNat with
    | none => m
    | some c => { m with board := m.board.set (row * m.num_cols + col).toNat (f c) }

/-- cell_is_wall from src/cmaze.c: true also for out-of-range coordinates. -/
def cell_is_wall (m : Maze) (row col : Int) : Bool :=
  match maze_get_cell m row col with
  | some cell => cell.type = CellType.wall
  | none => true

/-- cell_distance: Manhattan distance between two coordinate pairs. -/
def cell_distance (p q : Int × Int) : Int :=
  (p.1 - q.1).natAbs + (p.2 - q.2).natAbs

/-- maze_cell_is_perimeter from src/cmaze.c. -/
def maze_cell_is_perimeter (m : Maze) (row col : Int) : Bool :=
  row = 0 ∨ col = 0 ∨ row ≥ m.num_rows - 1 ∨ col ≥ m.num_cols - 1

/-- maze_cell_reset from src/cmaze.c, acting on the cell at the given
coordinates (a NULL pointer, i.e. a lookup miss, is a no-op). -/
def maze_cell_reset (m : Maze) (pos : Int × Int) : Maze :=
  match maze_get_cell m pos.1 pos.2 with
  | none => m
  | some _ =>
    if maze_cell_is_perimeter m pos.1 pos.2 then
      maze_mod_cell m pos.1 pos.2 (fun c => { c with type := CellType.wall })
    else
      maze_mod_cell m pos.1 pos.2
        (fun c => if c.type ≠ CellType.wall then { c with type := CellType.empty } else c)

/-- The four orthogonal neighbour offsets in the order used by
maze_get_cell_for_start_or_end, maze_solve_a_star, maze_solve_dfs and
maze_solve_bfs: up, right, down, left. -/
def neighboursNESW : List (Int × Int) := [(-1, 0), (0, 1), (1, 0), (0, -1)]

/-- maze_get_cell_for_start_or_end from src/cmaze.c: returns the target
cell coordinates when the placement is allowed, none otherwise. -/
def maze_get_cell_for_start_or_end (m : Maze) (row col : Int) : Option (Int × Int) :=
  if m.solver_running then none
  else
    match maze_get_cell m row col with
    | none => none
    | some cell =>
      if cell.type = CellType.wall then
        if ¬ maze_cell_is_perimeter m row col then none
        else if neighboursNESW.any (fun n =>
            match maze_get_cell m (row + n.1) (col + n.2) with
            | none => false
            | some n_cell => n_cell.type ≠ CellType.wall) then
          some (row, col)
        else none
      else some (row, col)

/-- maze_set_end_cell from src/cmaze.c: returns the C result code (0 on
success, -1 on failure) together with the resulting maze state. -/
def maze_set_end_cell (m : Maze) (row col : Int) : Int × Maze :=
  match maze_get_cell_for_start_or_end m row col with
  | none => (-1, m)
  | some pos =>
    let m1 := maze_cell_reset m m.end_cell
    let m2 := maze_mod_cell m1 pos.1 pos.2 (fun c => { c with type := CellType.endCell })
    (0, { m2 with end_cell := pos })

/-- maze_set_start_cell from src/cmaze.c. -/
def maze_set_start_cell (m : Maze) (row col : Int) : Int × Maze :=
  match maze_get_cell_for_start_or_end m row col with
  | none => (-1, m)
  | some pos =>
    let m1 := maze_cell_reset m m.start_cell
    let m2 := maze_mod_cell m1 pos.1 pos.2 (fun c => { c with type := CellType.startCell })
    (0, { m2 with start_cell := pos })

/-- maze_get_cell_type from src/cmaze.c: a lookup miss returns 0, which is
CELL_TYPE_EMPTY. -/
def maze_get_cell_type (m : Maze) (row col : Int) : CellType :=
  match maze_get_cell m row col with
  | some cell => cell.type
  | none => CellType.empty

/-- Dimension clamping at the top of maze_create: values below the minimum
become the minimum, values above the maximum become the maximum, and
in-range even values are bumped to the next odd value. -/
def clampDim (lo hi n : Int) : Int :=
  if n < lo then lo
  else if n > hi then hi
  else if n % 2 = 0 then n + 1
  else n

/-- MAZE_MIN_ROWS / MAZE_MIN_COLS from src/cmaze.h. -/
def MAZE_MIN : Int := 21

/-- MAZE_MAX_ROWS / MAZE_MAX_COLS from src/cmaze.h. -/
def MAZE_MAX : Int := 499

/-- The four 2-cell-distant neighbour offsets used by the carving loop in
maze_create, in the order up, right, down, left. -/
def off2 : Nat → Int × Int
  | 0 => (-2, 0)
  | 1 => (0, 2)
  | 2 => (2, 0)
  | _ => (0, -2)

/-- The four wall offsets used by the carving loop in maze_create. -/
def off1 : Nat → Int × Int
  | 0 => (-1, 0)
  | 1 => (0, 1)
  | 2 => (1, 0)
  | _ => (0, -1)

/-- Cell written by the initialization loop of maze_create for row-major
index i: row and column are recorded in the cell and the type is Empty
exactly when both coordinates are odd. -/
def initCell (num_cols : Int) (i : Nat) : Cell :=
  { row := (i : Int) / num_cols
    col := (i : Int) % num_cols
    value := 0
    heuristic := 0
    type := if (i : Int) / num_cols % 2 = 1 ∧ (i : Int) % num_cols % 2 = 1 then
              CellType.empty
            else CellType.wall
    parent := none }

/-- Board produced by the memset plus initialization loop of maze_create. -/
def init_board (num_rows num_cols : Int) : List Cell :=
  (List.range (num_rows * num_cols).toNat).map (initCell num_cols)

/-- Seed coordinate computation in maze_create:
(random() % (n - 2)) / 2 * 2 + 1. -/
def seedCoord (x : Nat) (n : Int) : Int :=
  ((x % (n - 2).toNat) / 2 * 2 + 1 : Nat)

/-- Inner scan of one carving iteration: index of the first direction,
starting from the random rotation r, whose 2-distant neighbour exists and
is not yet visited (value different from 1). -/
def carveFind (m : Maze) (row col : Int) (r : Nat) : Option Nat :=
  (List.range 4).find? (fun i =>
    match maze_get_cell m (row + (off2 ((i + r) % 4)).1) (col + (off2 ((i + r) % 4)).2) with
    | none => false
    | some n_cell => n_cell.value ≠ 1)

/-- The carving loop of maze_create: repeatedly look at the top of the
stack, carve towards the first unvisited 2-distant neighbour in randomly
rotated order (marking both the neighbour and the wall cell in between),
and pop the cell when no such neighbour is left.  Returns the updated maze
and the next random-stream index; none when the fuel runs out. -/
def carve_loop (rng : Nat → Nat) (fuel k : Nat) (m : Maze) (stack : List (Int × Int)) :
    Option (Maze × Nat) :=
  match fuel with
  | 0 => none
  | fuel + 1 =>
    match stack with
    | [] => some (m, k)
    | (row, col) :: rest =>
      let r := rng k % 4
      match carveFind m row col r with
      | none => carve_loop rng fuel (k + 1) m rest
      | some i =>
        let d2 := off2 ((i + r) % 4)
        let d1 := off1 ((i + r) % 4)
        let m1 := maze_mod_cell m (row + d2.1) (col + d2.2) (fun c => { c with value := 1 })
        let m2 := maze_mod_cell m1 (row + d1.1) (col + d1.2)
          (fun c => { c with value := 1, type := CellType.empty })
        carve_loop rng fuel (k + 1) m2 ((row + d2.1, col + d2.2) :: (row, col) :: rest)

/-- Search of the difficult pass in maze_create: draw random interior
coordinates until they name a wall cell whose orthogonal wall neighbours
are exactly the two vertical or the two horizontal ones. -/
def difficultFind (rng : Nat → Nat) (fuel k : Nat) (m : Maze) : Option ((Int × Int) × Nat) :=
  match fuel with
  | 0 => none
  | fuel + 1 =>
    let row : Int := ((rng k % (m.num_rows - 2).toNat : Nat) : Int) + 1
    let col : Int := ((rng (k + 1) % (m.num_cols - 2).toNat : Nat) : Int) + 1
    if ¬ cell_is_wall m row col then difficultFind rng fuel (k + 2) m
    else
      let r1 : Nat := (cell_is_wall m (row - 1) col).toNat +
                      (cell_is_wall m (row + 1) col).toNat
      if r1 = 1 then difficultFind rng fuel (k + 2) m
      else
        let r2 : Nat := r1 + (cell_is_wall m row (col - 1)).toNat +
                        (cell_is_wall m row (col + 1)).toNat
        if r2 = 2 then some ((row, col), k + 2) else difficultFind rng fuel (k + 2) m

/-- The difficult pass of maze_create: clear count mid-corridor walls. -/
def difficult_loop (rng : Nat → Nat) (fuel k : Nat) (count : Nat) (m : Maze) :
    Option (Maze × Nat) :=
  match count with
  | 0 => some (m, k)
  | count + 1 =>
    match difficultFind rng fuel k m with
    | none => none
    | some (pos, kn) =>
      difficult_loop rng fuel kn count
        (maze_mod_cell m pos.1 pos.2 (fun c => { c with type := CellType.empty }))

/-- Error outcomes of maze_create.  The C function reports every failure
as -1; the embedding distinguishes the three return sites.  fuelOut is an
artifact of embedding the unbounded C loops with fuel. -/
inductive CreateErr where
  | solverRunning
  | badSeed
  | fuelOut
deriving DecidableEq, Repr

/-- Defensive seed check of maze_create: return the randomly chosen
carving seed cell, failing when the lookup misses or when the cell is a
wall, as in the C code: if (!cell || cell_is_wall(maze, row, col))
return -1. -/
def seed_cell_check (m : Maze) (row col : Int) : Except CreateErr Cell :=
  match maze_get_cell m row col with
  | none => Except.error CreateErr.badSeed
  | some cell =>
    if cell.type = CellType.wall then Except.error CreateErr.badSeed else Except.ok cell

/-- maze_create from src/cmaze.c: clamp the dimensions, initialize the
board with the odd/odd parity pattern, pick a random seed cell (failing if
it is a wall), carve with the randomized iterative depth-first loop, place
start_cell at (1, 0) and end_cell at (num_rows - 2, num_cols - 1), and
optionally run the difficult pass. -/
def maze_create (m : Maze) (req_rows req_cols : Int) (difficult : Bool)
    (rng : Nat → Nat) (fuel : Nat) : Except CreateErr Maze :=
  if m.solver_running then .error .solverRunning
  else
    let num_rows := clampDim MAZE_MIN MAZE_MAX req_rows
    let num_cols := clampDim MAZE_MIN MAZE_MAX req_cols
    let m1 : Maze := { m with
      num_rows := num_rows
      num_cols := num_cols
      difficult := difficult
      board := init_board num_rows num_cols }
    let row := seedCoord (rng 0) num_rows
    let col := seedCoord (rng 1) num_cols
    match seed_cell_check m1 row col with
    | .error e => .error e
    | .ok _ =>
        let m2 := maze_mod_cell m1 row col (fun c => { c with value := 1 })
        match carve_loop rng fuel 2 m2 [(row, col)] with
        | none => .error .fuelOut
        | some res =>
          let m4 : Maze := { res.1 with start_cell := (1, 0) }
          let m5 := maze_mod_cell m4 1 0 (fun c => { c with type := CellType.startCell })
          let m6 : Maze := { m5 with end_cell := (num_rows - 2, num_cols - 1) }
          let m7 := maze_mod_cell m6 (num_rows - 2) (num_cols - 1)
            (fun c => { c with type := CellType.endCell })
          if ¬ difficult then .ok m7
          else
            match difficult_loop rng fuel res.2 (max num_rows num_cols).toNat m7 with
            | none => .error .fuelOut
            | some res7 => .ok res7.1

/-- _maze_clear_board from src/cmaze.c: reset value, heuristic and parent
of every cell, turn every non-wall cell back to Empty, then re-mark the
start and end cells. -/
def maze_clear_board_unlocked (m : Maze) : Maze :=
  let m1 : Maze := { m with board := m.board.map (fun c =>
    { c with value := 0, heuristic := 0, parent := none,
             type := if c.type ≠ CellType.wall then CellType.empty else c.type }) }
  let m2 := maze_mod_cell m1 m.start_cell.1 m.start_cell.2
    (fun c => { c with type := CellType.startCell })
  maze_mod_cell m2 m.end_cell.1 m.end_cell.2 (fun c => { c with type := CellType.endCell })

/-- Value field of the board cell at the given coordinates (0 on a lookup
miss, which the C code never performs). -/
def cell_value (m : Maze) (row col : Int) : Int :=
  match maze_get_cell m row col with
  | some cl => cl.value
  | none => 0

/-- Parent field of the board cell at the given coordinates. -/
def cell_parent (m : Maze) (row col : Int) : Option (Int × Int) :=
  match maze_get_cell m row col with
  | some cl => cl.parent
  | none => none

/-- Result of one solver function: ok models the C return value 0, err
models -1 (cancellation), stuck models the NULL-pointer dereference the
wall follower would perform on a cell with four wall neighbours, and
fuelOut is the artifact of embedding unbounded C loops with fuel. -/
inductive SolveRes where
  | ok (m : Maze)
  | err (m : Maze)
  | stuck
  | fuelOut
deriving DecidableEq, Repr

/-- Outcome of the BFS and DFS main loops: done carries the maze at the
normal loop exit together with the next iteration index, cancelled carries
the maze unchanged since the cancel check that fired. -/
inductive LoopOut where
  | done (m : Maze) (k : Nat)
  | cancelled (m : Maze)
  | fuelOut
deriving DecidableEq, Repr

/-- The four neighbour offsets of maze_set_solution_path, in the order
left, up, right, down. -/
def solPathOffs : List (Int × Int) := [(0, -1), (-1, 0), (0, 1), (1, 0)]

/-- One neighbour scan of maze_set_solution_path: starting from the
current cell's value as the running minimum, keep the position of the last
neighbour that is present, is not a wall, and has a non-zero value
strictly below the running minimum; return the current position when no
such neighbour exists. -/
def solPathPick (m : Maze) (row col : Int) (v : Int) : Int × Int :=
  (solPathOffs.foldl (fun acc d =>
    match maze_get_cell m (row + d.1) (col + d.2) with
    | none => acc
    | some n_cell =>
      if n_cell.type = CellType.wall then acc
      else if n_cell.value ≠ 0 ∧ n_cell.value < acc.1 then
        (n_cell.value, (row + d.1, col + d.2))
      else acc) (v, (row, col))).2

/-- Loop of maze_set_solution_path with cancel schedule c and iteration
counter k: walk from the current cell towards start_cell through
ever-lower values, marking PathSolution cells and counting path_len; on
the normal exit restore the start and end cell types.  none models fuel
exhaustion. -/
def sol_path_loop (c : Nat → Bool) (fuel k : Nat) (m : Maze) (cell : Int × Int) :
    Option Maze :=
  match fuel with
  | 0 => none
  | fuel + 1 =>
    if cell = m.start_cell then
      let m1 := maze_mod_cell m m.start_cell.1 m.start_cell.2
        (fun cl => { cl with type := CellType.startCell })
      some (maze_mod_cell m1 m1.end_cell.1 m1.end_cell.2
        (fun cl => { cl with type := CellType.endCell }))
    else if c k then some m
    else
      let m1 : Maze := { m with path_len := m.path_len + 1 }
      let m2 := maze_mod_cell m1 cell.1 cell.2
        (fun cl => { cl with type := CellType.pathSolution })
      sol_path_loop c fuel (k + 1) m2 (solPathPick m2 cell.1 cell.2 (cell_value m2 cell.1 cell.2))

/-- maze_set_solution_path from src/cmaze.c: start from end_cell with
path_len 1 and walk the value gradient down to start_cell. -/
def maze_set_solution_path (c : Nat → Bool) (fuel k : Nat) (m : Maze) : Option Maze :=
  sol_path_loop c fuel k { m with path_len := 1 } m.end_cell

/-- Main loop of maze_solve_bfs: pop the queue head, stop when it is
end_cell, otherwise mark it PathVisited and enqueue every neighbour that
is present, is not a wall and has value 0, giving it value one more than
the popped cell and type PathHead. -/
def bfs_loop (c : Nat → Bool) (fuel k : Nat) (m : Maze) (queue : List (Int × Int)) :
    LoopOut :=
  match fuel with
  | 0 => .fuelOut
  | fuel + 1 =>
    match queue with
    | [] => .done m k
    | cell :: rest =>
      if c k then .cancelled m
      else if cell = m.end_cell then .done m k
      else
        let m1 := maze_mod_cell m cell.1 cell.2
          (fun cl => { cl with type := CellType.pathVisited })
        let st := neighboursNESW.foldl (fun (acc : Maze × List (Int × Int)) d =>
          match maze_get_cell acc.1 (cell.1 + d.1) (cell.2 + d.2) with
          | none => acc
          | some n_cell =>
            if n_cell.type = CellType.wall ∨ n_cell.value ≠ 0 then acc
            else
              (maze_mod_cell acc.1 (cell.1 + d.1) (cell.2 + d.2)
                 (fun cl => { cl with value := cell_value acc.1 cell.1 cell.2 + 1,
                                      type := CellType.pathHead }),
               acc.2 ++ [(cell.1 + d.1, cell.2 + d.2)])) (m1, rest)
        bfs_loop c fuel (k + 1) st.1 st.2

/-- maze_solve_bfs from src/cmaze.c: seed start_cell with value 1, run the
queue loop, then reconstruct the path with maze_set_solution_path. -/
def maze_solve_bfs (c : Nat → Bool) (fuel pfuel : Nat) (m : Maze) : SolveRes :=
  let m0 := maze_mod_cell m m.start_cell.1 m.start_cell.2 (fun cl => { cl with value := 1 })
  match bfs_loop c fuel 0 m0 [m0.start_cell] with
  | .done m1 k =>
    match maze_set_solution_path c pfuel k m1 with
    | some m2 => .ok m2
    | none => .fuelOut
  | .cancelled m1 => .err m1
  | .fuelOut => .fuelOut

/-- Main loop of maze_solve_dfs: pop the stack head; a cell that already
has a value is skipped; otherwise it receives its parent's value plus one
(1 for the parentless start cell) and type PathHead, the loop stops when
it is end_cell, and every present non-wall neighbour is re-parented to it,
marked PathVisited and pushed. -/
def dfs_loop (c : Nat → Bool) (fuel k : Nat) (m : Maze) (stack : List (Int × Int)) :
    LoopOut :=
  match fuel with
  | 0 => .fuelOut
  | fuel + 1 =>
    match stack with
    | [] => .done m k
    | cell :: rest =>
      if c k then .cancelled m
      else if cell_value m cell.1 cell.2 ≠ 0 then dfs_loop c fuel (k + 1) m rest
      else
        let pv := match cell_parent m cell.1 cell.2 with
                  | some p => cell_value m p.1 p.2 + 1
                  | none => 1
        let m1 := maze_mod_cell m cell.1 cell.2
          (fun cl => { cl with value := pv, type := CellType.pathHead })
        if cell = m1.end_cell then .done m1 (k + 1)
        else
          let st := neighboursNESW.foldl (fun (acc : Maze × List (Int × Int)) d =>
            match maze_get_cell acc.1 (cell.1 + d.1) (cell.2 + d.2) with
            | none => acc
            | some n_cell =>
              if n_cell.type = CellType.wall then acc
              else
                (maze_mod_cell acc.1 (cell.1 + d.1) (cell.2 + d.2)
                   (fun cl => { cl with parent := some cell, type := CellType.pathVisited }),
                 (cell.1 + d.1, cell.2 + d.2) :: acc.2)) (m1, rest)
          dfs_loop c fuel (k + 1) st.1 st.2

/-- maze_solve_dfs from src/cmaze.c. -/
def maze_solve_dfs (c : Nat → Bool) (fuel pfuel : Nat) (m : Maze) : SolveRes :=
  match dfs_loop c fuel 0 m [m.start_cell] with
  | .done m1 k =>
    match maze_set_solution_path c pfuel k m1 with
    | some m2 => .ok m2
    | none => .fuelOut
  | .cancelled m1 => .err m1
  | .fuelOut => .fuelOut

/-- Heap-allocated struct Cell as used by maze_solve_a_star: the open and
closed lists hold copies of coordinates with search costs, chained by
parent pointers; root models a NULL parent. -/
inductive ACell where
  | root (row col value heuristic : Int)
  | child (row col value heuristic : Int) (parent : ACell)
deriving DecidableEq, Repr

/-- Row coordinate of an A* list cell. -/
def ACell.row : ACell → Int
  | .root r _ _ _ => r
  | .child r _ _ _ _ => r

/-- Column coordinate of an A* list cell. -/
def ACell.col : ACell → Int
  | .root _ c _ _ => c
  | .child _ c _ _ _ => c

/-- Value (g-cost) of an A* list cell. -/
def ACell.value : ACell → Int
  | .root _ _ v _ => v
  | .child _ _ v _ _ => v

/-- Heuristic (f-cost) of an A* list cell. -/
def ACell.heuristic : ACell → Int
  | .root _ _ _ h => h
  | .child _ _ _ h _ => h

/-- Lookup of g_list_find_custom with cell_cmp_lower_value: is there an
entry in the open list with the same coordinates and a strictly lower
value than the candidate? -/
def open_has_lower_value (openList : List ACell) (n_cell : ACell) : Bool :=
  openList.any (fun e =>
    e.row == n_cell.row && e.col == n_cell.col && decide (e.value < n_cell.value))

/-- Lookup of g_list_find_custom with cell_cmp: is there an entry in the
closed list with the given coordinates? -/
def closed_has_cell (closedList : List ACell) (row col : Int) : Bool :=
  closedList.any (fun e => e.row == row && e.col == col)

/-- Insertion of g_list_insert_sorted with cell_cmp_heuristic: the new
cell goes in front of the first entry whose heuristic it does not
exceed. -/
def insert_by_heuristic (n_cell : ACell) : List ACell → List ACell
  | [] => [n_cell]
  | e :: rest =>
    if n_cell.heuristic ≤ e.heuristic then n_cell :: e :: rest
    else e :: insert_by_heuristic n_cell rest

/-- Processing of one neighbour offset during the A* expansion of the
popped cell cur over the state (maze, open list): bounds check, wall
check, closed-list check, then the open-list lookup through
cell_cmp_lower_value deciding between sorted insertion (also marking the
board cell PathHead) and discarding the candidate. -/
def a_star_neighbour (cur : ACell) (d : Int × Int) (closedList : List ACell)
    (st : Maze × List ACell) : Maze × List ACell :=
  let m := st.1
  let n_row := cur.row + d.1
  let n_col := cur.col + d.2
  if n_row < 0 ∨ n_row ≥ m.num_rows ∨ n_col < 0 ∨ n_col ≥ m.num_cols then st
  else if cell_is_wall m n_row n_col then st
  else if closed_has_cell closedList n_row n_col then st
  else
    let n_cell := ACell.child n_row n_col (cur.value + 1)
      (cur.value + 1 + cell_distance (n_row, n_col) m.end_cell) cur
    if open_has_lower_value st.2 n_cell then st
    else
      (maze_mod_cell m n_row n_col (fun cl => { cl with type := CellType.pathHead }),
       insert_by_heuristic n_cell st.2)

/-- Outcome of the A* main loop: done carries the maze at the loop exit
together with the cell variable (the last popped cell, or the end cell on
the break) and the next iteration index. -/
inductive AStarOut where
  | done (m : Maze) (cur : ACell) (k : Nat)
  | cancelled (m : Maze)
  | fuelOut
deriving DecidableEq, Repr

/-- Main loop of maze_solve_a_star: pop the head of the heuristic-sorted
open list, prepend it to the closed list, mark it PathVisited, stop when
it is end_cell, otherwise process the four neighbours. -/
def a_star_loop (c : Nat → Bool) (fuel k : Nat) (m : Maze) (cur : ACell)
    (openList closedList : List ACell) : AStarOut :=
  match fuel with
  | 0 => .fuelOut
  | fuel + 1 =>
    match openList with
    | [] => .done m cur k
    | cell :: rest =>
      if c k then .cancelled m
      else
        let closed2 := cell :: closedList
        let m1 := maze_mod_cell m cell.row cell.col
          (fun cl => { cl with type := CellType.pathVisited })
        if cell.row = m1.end_cell.1 ∧ cell.col = m1.end_cell.2 then .done m1 cell k
        else
          let st := neighboursNESW.foldl
            (fun st d => a_star_neighbour cell d closed2 st) (m1, rest)
          a_star_loop c fuel (k + 1) st.1 cell st.2 closed2

/-- Path reconstruction of maze_solve_a_star: walk the parent chain from
the final cell, marking each position PathSolution and counting
path_len. -/
def a_star_mark (cell : ACell) (m : Maze) : Maze :=
  match cell with
  | .root r cl _ _ =>
    let m1 := maze_mod_cell m r cl (fun x => { x with type := CellType.pathSolution })
    { m1 with path_len := m1.path_len + 1 }
  | .child r cl _ _ p =>
    let m1 := maze_mod_cell m r cl (fun x => { x with type := CellType.pathSolution })
    a_star_mark p { m1 with path_len := m1.path_len + 1 }

/-- maze_solve_a_star from src/cmaze.c: seed the open list with a copy of
start_cell (value 1, heuristic the Manhattan distance to end_cell), run
the loop, then walk the parent chain of the final cell setting path_len
and restore the start and end cell types. -/
def maze_solve_a_star (c : Nat → Bool) (fuel : Nat) (m : Maze) : SolveRes :=
  let start := ACell.root m.start_cell.1 m.start_cell.2 1 (cell_distance m.start_cell m.end_cell)
  match a_star_loop c fuel 0 m start [start] [] with
  | .cancelled m1 => .err m1
  | .fuelOut => .fuelOut
  | .done m1 cur _ =>
    let m2 := a_star_mark cur { m1 with path_len := 0 }
    let m3 := maze_mod_cell m2 m2.start_cell.1 m2.start_cell.2
      (fun x => { x with type := CellType.startCell })
    let m4 := maze_mod_cell m3 m3.end_cell.1 m3.end_cell.2
      (fun x => { x with type := CellType.endCell })
    .ok m4

/-- left_neighbours of maze_solve_always_turn. -/
def leftOff : Nat → Int × Int
  | 0 => (0, -1)
  | 1 => (-1, 0)
  | 2 => (0, 1)
  | _ => (1, 0)

/-- right_neighbours of maze_solve_always_turn. -/
def rightOff : Nat → Int × Int
  | 0 => (0, 1)
  | 1 => (-1, 0)
  | 2 => (0, -1)
  | _ => (1, 0)

/-- Scan of one wall-follower iteration: index of the first direction,
starting from the current orientation, whose neighbour is present and not
a wall. -/
def turnFind (m : Maze) (offs : Nat → Int × Int) (orientation : Nat) (row col : Int) :
    Option Nat :=
  (List.range 4).find? (fun i =>
    let d := offs ((orientation + i) % 4)
    match maze_get_cell m (row + d.1) (col + d.2) with
    | none => false
    | some n_cell => n_cell.type ≠ CellType.wall)

/-- Outcome of the wall-follower main loop: done carries the maze, the
running value counter, the head-cell queue and the next iteration index;
stuck models the NULL dereference after a scan where all four neighbours
are walls. -/
inductive TurnOut where
  | done (m : Maze) (value : Int) (heads : List (Int × Int)) (k : Nat)
  | cancelled (m : Maze)
  | stuck
  | fuelOut
deriving DecidableEq, Repr

/-- Main loop of maze_solve_always_turn: walk the corridor keeping one
hand on the wall; each visited cell is marked PathHead and numbered, the
trailing window of 50 head cells is maintained in a queue whose evicted
cells are downgraded to PathVisited when they no longer appear in it. -/
def turn_loop (c : Nat → Bool) (offs : Nat → Int × Int) (fuel k : Nat) (m : Maze)
    (cur : Int × Int) (orientation : Nat) (value : Int) (heads : List (Int × Int)) :
    TurnOut :=
  match fuel with
  | 0 => .fuelOut
  | fuel + 1 =>
    if cur = m.end_cell then .done m value heads k
    else if c k then .cancelled m
    else
      let m1 := maze_mod_cell m cur.1 cur.2
        (fun cl => { cl with type := CellType.pathHead, value := value })
      let heads1 := heads ++ [cur]
      let st :=
        if heads1.length > 50 then
          match heads1 with
          | [] => (m1, heads1)
          | h :: t =>
            if t.contains h then (m1, t)
            else (maze_mod_cell m1 h.1 h.2
              (fun cl => { cl with type := CellType.pathVisited }), t)
        else (m1, heads1)
      match turnFind st.1 offs orientation cur.1 cur.2 with
      | none => .stuck
      | some i =>
        let d := offs ((orientation + i) % 4)
        turn_loop c offs fuel (k + 1) st.1 (cur.1 + d.1, cur.2 + d.2)
          ((orientation + i + 3) % 4) (value + 1) st.2

/-- maze_solve_always_turn from src/cmaze.c: start at start_cell facing
east, walk with the configured hand on the wall until end_cell, number
the last cell, downgrade the remaining head cells to PathVisited and
reconstruct with maze_set_solution_path. -/
def maze_solve_always_turn (c : Nat → Bool) (fuel pfuel : Nat) (m : Maze) : SolveRes :=
  let offs := if m.solver_algorithm = SolverAlgorithm.alwaysTurnLeft then leftOff else rightOff
  match turn_loop c offs fuel 0 m m.start_cell 1 1 [] with
  | .cancelled m1 => .err m1
  | .stuck => .stuck
  | .fuelOut => .fuelOut
  | .done m1 value heads k =>
    let m2 := maze_mod_cell m1 m1.end_cell.1 m1.end_cell.2
      (fun cl => { cl with value := value })
    let m3 := heads.foldl (fun mm h => maze_mod_cell mm h.1 h.2
      (fun cl => { cl with type := CellType.pathVisited })) m2
    match maze_set_solution_path c pfuel k m3 with
    | some m4 => .ok m4
    | none => .fuelOut

/-- maze_solve from src/cmaze.c: clear the board, dispatch on the selected
algorithm and reset solver_running when the strategy returns.  The wall
timing of the C function is not modelled. -/
def maze_solve (c : Nat → Bool) (fuel pfuel : Nat) (m : Maze) : SolveRes :=
  let m0 := maze_clear_board_unlocked m
  let res := match m.solver_algorithm with
    | .aStar => maze_solve_a_star c fuel m0
    | .alwaysTurnLeft | .alwaysTurnRight => maze_solve_always_turn c fuel pfuel m0
    | .dfs => maze_solve_dfs c fuel pfuel m0
    | .bfs => maze_solve_bfs c fuel pfuel m0
  match res with
  | .ok m1 => .ok { m1 with solver_running := false }
  | .err m1 => .err { m1 with solver_running := false }
  | other => other

/-- Cancel schedule of a run during which the cancel flag is never set. -/
def neverCancel : Nat → Bool := fun _ => false

/-- Cell constructor used to spell out small example boards. -/
def mkCell (r c : Int) (t : CellType) : Cell :=
  { row := r, col := c, value := 0, heuristic := 0, type := t, parent := none }

/-- Small example maze, 3 rows by 5 columns: the interior is empty at
(1, 1) and (1, 3) and walled at (1, 2); every other cell is a perimeter
wall.  Start is (1, 1), end is (1, 3). -/
def mazeB : Maze :=
  { num_rows := 3
    num_cols := 5
    board :=
      [mkCell 0 0 .wall, mkCell 0 1 .wall, mkCell 0 2 .wall, mkCell 0 3 .wall,
       mkCell 0 4 .wall,
       mkCell 1 0 .wall, mkCell 1 1 .startCell, mkCell 1 2 .wall,
       mkCell 1 3 .endCell, mkCell 1 4 .wall,
       mkCell 2 0 .wall, mkCell 2 1 .wall, mkCell 2 2 .wall, mkCell 2 3 .wall,
       mkCell 2 4 .wall]
    start_cell := (1, 1)
    end_cell := (1, 3)
    difficult := false
    solver_running := false
    solver_algorithm := SolverAlgorithm.bfs
    path_len := 0 }

/-- C10: for every out-of-range (row, col) the public accessor
maze_get_cell_type returns CELL_TYPE_EMPTY, whose numeric code is 0, so
the result is the same as for a genuine in-bounds Empty cell and a caller
cannot distinguish the two; the accessor is a total function and never
faults. -/
theorem c10_get_cell_type_oob (m : Maze) (row col : Int)
    (h : row < 0 ∨ row ≥ m.num_rows ∨ col < 0 ∨ col ≥ m.num_cols) :
    maze_get_cell_type m row col = CellType.empty ∧
    cellTypeCode (maze_get_cell_type m row col) = 0 ∧
    ∀ r c cell, maze_get_cell m r c = some cell → cell.type = CellType.empty →
      maze_get_cell_type m r c = maze_get_cell_type m row col := by
  have hg : maze_get_cell m row col = none := by
    unfold maze_get_cell
    exact if_pos h
  refine ⟨?_, ?_, ?_⟩
  · unfold maze_get_cell_type
    rw [hg]
  · unfold maze_get_cell_type
    rw [hg]
    rfl
  · intro r c cell hget htype
    unfold maze_get_cell_type
    rw [hg, hget]
    exact htype

/-- Witness for c10_get_cell_type_oob at the concrete maze mazeB and the
out-of-range query (-1, 7). -/
theorem c10_get_cell_type_oob_witness :
    maze_get_cell_type mazeB (-1) 7 = CellType.empty ∧
    cellTypeCode (maze_get_cell_type mazeB (-1) 7) = 0 ∧
    ∀ r c cell, maze_get_cell mazeB r c = some cell → cell.type = CellType.empty →
      maze_get_cell_type mazeB r c = maze_get_cell_type mazeB (-1) 7 :=
  c10_get_cell_type_oob mazeB (-1) 7 (by decide)

/-- Frame facts preserved by every board update: dimensions, the start and
end references, and the board length. -/
def SameFrame (m m' : Maze) : Prop :=
  m'.num_rows = m.num_rows ∧ m'.num_cols = m.num_cols ∧
  m'.start_cell = m.start_cell ∧ m'.end_cell = m.end_cell ∧
  m'.board.length = m.board.length

theorem sameFrame_refl (m : Maze) : SameFrame m m :=
  ⟨rfl, rfl, rfl, rfl, rfl⟩

theorem sameFrame_trans {m1 m2 m3 : Maze} (h1 : SameFrame m1 m2) (h2 : SameFrame m2 m3) :
    SameFrame m1 m3 := by
  obtain ⟨a1, b1, c1, d1, e1⟩ := h1
  obtain ⟨a2, b2, c2, d2, e2⟩ := h2
  exact ⟨a2.trans a1, b2.trans b1, c2.trans c1, d2.trans d1, e2.trans e1⟩

theorem maze_mod_cell_frame (m : Maze) (row col : Int) (f : Cell → Cell) :
    SameFrame m (maze_mod_cell m row col f) := by
  unfold maze_mod_cell
  split
  · exact sameFrame_refl m
  · split
    · exact sameFrame_refl m
    · exact ⟨rfl, rfl, rfl, rfl, List.length_set _ _ _⟩

theorem carve_loop_frame (rng : Nat → Nat) :
    ∀ fuel k m stack m' k', carve_loop rng fuel k m stack = some (m', k') → SameFrame m m' := by
  intro fuel
  induction fuel with
  | zero =>
    intro k m stack m' k' h
    simp only [carve_loop] at h
    exact absurd h (by simp)
  | succ fuel ih =>
    intro k m stack m' k' h
    cases stack with
    | nil =>
      simp only [carve_loop, Option.some.injEq, Prod.mk.injEq] at h
      obtain ⟨rfl, rfl⟩ := h
      exact sameFrame_refl _
    | cons head rest =>
      obtain ⟨row, col⟩ := head
      simp only [carve_loop] at h
      split at h
      · exact ih _ _ _ _ _ h
      · exact sameFrame_trans
          (sameFrame_trans (maze_mod_cell_frame _ _ _ _) (maze_mod_cell_frame _ _ _ _))
          (ih _ _ _ _ _ h)

theorem difficult_loop_frame (rng : Nat → Nat) (fuel : Nat) :
    ∀ count k m m' k', difficult_loop rng fuel k count m = some (m', k') → SameFrame m m' := by
  intro count
  induction count with
  | zero =>
    intro k m m' k' h
    simp only [difficult_loop, Option.some.injEq, Prod.mk.injEq] at h
    obtain ⟨rfl, rfl⟩ := h
    exact sameFrame_refl _
  | succ count ih =>
    intro k m m' k' h
    simp only [difficult_loop] at h
    split at h
    · simp at h
    · exact sameFrame_trans (maze_mod_cell_frame _ _ _ _) (ih _ _ _ _ h)

theorem maze_get_cell_some_bounds {m : Maze} {r c : Int} {cl : Cell}
    (h : maze_get_cell m r c = some cl) :
    0 ≤ r ∧ r < m.num_rows ∧ 0 ≤ c ∧ c < m.num_cols := by
  unfold maze_get_cell at h
  split at h
  · exact absurd h (by simp)
  · next hcond => push_neg at hcond; omega

theorem maze_get_cell_some_get {m : Maze} {r c : Int} {cl : Cell}
    (h : maze_get_cell m r c = some cl) :
    m.board.get? (r * m.num_cols + c).toNat = some cl := by
  unfold maze_get_cell at h
  split at h
  · exact absurd h (by simp)
  · exact h

theorem board_index_inj {cols r1 c1 r2 c2 : Int}
    (hr1 : 0 ≤ r1) (hc1 : 0 ≤ c1) (hc1u : c1 < cols)
    (hr2 : 0 ≤ r2) (hc2 : 0 ≤ c2) (hc2u : c2 < cols)
    (heq : (r1 * cols + c1).toNat = (r2 * cols + c2).toNat) : r1 = r2 ∧ c1 = c2 := by
  have hcols : 0 < cols := lt_of_le_of_lt hc1 hc1u
  have e1 : (0 : Int) ≤ r1 * cols + c1 := by positivity
  have e2 : (0 : Int) ≤ r2 * cols + c2 := by positivity
  have heq2 : r1 * cols + c1 = r2 * cols + c2 := by omega
  have hm : ∀ r c : Int, 0 ≤ c → c < cols → (c + cols * r) % cols = c := by
    intro r c h1 h2
    rw [Int.add_mul_emod_self_left]
    exact Int.emod_eq_of_lt h1 h2
  have hd : ∀ r c : Int, 0 ≤ c → c < cols → (c + cols * r) / cols = r := by
    intro r c h1 h2
    rw [Int.add_mul_ediv_left c r (by omega : cols ≠ 0),
        Int.ediv_eq_zero_of_lt h1 h2]
    omega
  have heq3 : c1 + cols * r1 = c2 + cols * r2 := by linear_combination heq2
  constructor
  · have d1 := hd r1 c1 hc1 hc1u
    have d2 := hd r2 c2 hc2 hc2u
    rw [heq3] at d1
    omega
  · have m1 := hm r1 c1 hc1 hc1u
    have m2 := hm r2 c2 hc2 hc2u
    rw [heq3] at m1
    omega

theorem maze_mod_cell_get_self {m : Maze} {r c : Int} {cl : Cell} (f : Cell → Cell)
    (h : maze_get_cell m r c = some cl) :
    maze_get_cell (maze_mod_cell m r c f) r c = some (f cl) := by
  obtain ⟨h1, h2, h3, h4⟩ := maze_get_cell_some_bounds h
  have hg := maze_get_cell_some_get h
  have hlt : (r * m.num_cols + c).toNat < m.board.length :=
    (List.get?_eq_some.mp hg).1
  unfold maze_mod_cell
  rw [if_neg (by omega), hg]
  unfold maze_get_cell
  rw [if_neg (by simp; omega)]
  simp only
  exact List.get?_set_eq_of_lt _ hlt

theorem maze_mod_cell_get_ne {m : Maze} {r c r' c' : Int} {cl : Cell} (f : Cell → Cell)
    (h : maze_get_cell m r' c' = some cl) (hne : (r', c') ≠ (r, c)) :
    maze_get_cell (maze_mod_cell m r c f) r' c' = some cl := by
  obtain ⟨h1, h2, h3, h4⟩ := maze_get_cell_some_bounds h
  have hg := maze_get_cell_some_get h
  unfold maze_mod_cell
  split
  · exact h
  · split
    · exact h
    · next cll hcl =>
      unfold maze_get_cell
      rw [if_neg (by simp; omega)]
      simp only
      have hbr : ¬ (r < 0 ∨ r ≥ m.num_rows ∨ c < 0 ∨ c ≥ m.num_cols) := by assumption
      push_neg at hbr
      have hidx : (r' * m.num_cols + c').toNat ≠ (r * m.num_cols + c).toNat := by
        intro hcontra
        obtain ⟨hr, hc⟩ :=
          board_index_inj h1 h3 h4 (by omega) (by omega) (by omega) hcontra
        exact hne (by rw [Prod.mk.injEq]; exact ⟨hr, hc⟩)
      rw [List.get?_set_ne _ _ (fun hx => hidx hx.symm)]
      exact hg

theorem maze_mod_cell_num_rows (m : Maze) (r c : Int) (f : Cell → Cell) :
    (maze_mod_cell m r c f).num_rows = m.num_rows := (maze_mod_cell_frame m r c f).1

theorem maze_mod_cell_num_cols (m : Maze) (r c : Int) (f : Cell → Cell) :
    (maze_mod_cell m r c f).num_cols = m.num_cols := (maze_mod_cell_frame m r c f).2.1

theorem maze_mod_cell_start (m : Maze) (r c : Int) (f : Cell → Cell) :
    (maze_mod_cell m r c f).start_cell = m.start_cell := (maze_mod_cell_frame m r c f).2.2.1

theorem maze_mod_cell_end (m : Maze) (r c : Int) (f : Cell → Cell) :
    (maze_mod_cell m r c f).end_cell = m.end_cell := (maze_mod_cell_frame m r c f).2.2.2.1

theorem maze_mod_cell_len (m : Maze) (r c : Int) (f : Cell → Cell) :
    (maze_mod_cell m r c f).board.length = m.board.length :=
  (maze_mod_cell_frame m r c f).2.2.2.2

theorem init_board_length (nr nc : Int) :
    (init_board nr nc).length = (nr * nc).toNat := by
  unfold init_board
  rw [List.length_map, List.length_range]

theorem maze_create_ok_shape {m : Maze} {rr rc : Int} {d : Bool} {rng : Nat → Nat}
    {fuel : Nat} {m' : Maze} (h : maze_create m rr rc d rng fuel = .ok m') :
    m'.num_rows = clampDim MAZE_MIN MAZE_MAX rr ∧
    m'.num_cols = clampDim MAZE_MIN MAZE_MAX rc ∧
    m'.start_cell = (1, 0) ∧
    m'.end_cell = (m'.num_rows - 2, m'.num_cols - 1) ∧
    m'.board.length = (m'.num_rows * m'.num_cols).toNat := by
  simp only [maze_create] at h
  split at h
  · exact absurd h (by simp)
  split at h
  · exact absurd h (by simp)
  split at h
  · exact absurd h (by simp)
  next res heq =>
  have hframe3 := carve_loop_frame rng fuel _ _ _ res.1 res.2 heq
  obtain ⟨e1, e2, _, _, e5⟩ := hframe3
  simp only [maze_mod_cell_num_rows, maze_mod_cell_num_cols, maze_mod_cell_len] at e1 e2 e5
  split at h
  · injection h with h
    subst h
    simp only [maze_mod_cell_num_rows, maze_mod_cell_num_cols, maze_mod_cell_start,
      maze_mod_cell_end, maze_mod_cell_len, e1, e2, e5, init_board_length]
    exact ⟨trivial, trivial, trivial, trivial, trivial⟩
  · split at h
    · exact absurd h (by simp)
    next res7 heq7 =>
    injection h with h
    subst h
    have hframe7 := difficult_loop_frame rng fuel _ _ _ res7.1 res7.2 heq7
    obtain ⟨f1, f2, f3, f4, f5⟩ := hframe7
    simp only [maze_mod_cell_num_rows, maze_mod_cell_num_cols, maze_mod_cell_start,
      maze_mod_cell_end, maze_mod_cell_len] at f1 f2 f3 f4 f5
    simp only [f1, f2, f3, f4, f5, e1, e2, e5, init_board_length]
    exact ⟨trivial, trivial, trivial, trivial, trivial⟩

theorem clampDim_spec (n : Int) :
    clampDim MAZE_MIN MAZE_MAX n % 2 = 1 ∧
    21 ≤ clampDim MAZE_MIN MAZE_MAX n ∧ clampDim MAZE_MIN MAZE_MAX n ≤ 499 ∧
    (n < 21 → clampDim MAZE_MIN MAZE_MAX n = 21) ∧
    (n > 499 → clampDim MAZE_MIN MAZE_MAX n = 499) ∧
    (21 ≤ n → n ≤ 499 → n % 2 = 0 → clampDim MAZE_MIN MAZE_MAX n = n + 1) := by
  unfold clampDim MAZE_MIN MAZE_MAX
  split_ifs <;> omega

theorem maze_get_cell_of_lt {m : Maze} {r c : Int}
    (hb : m.board.length = (m.num_rows * m.num_cols).toNat)
    (h1 : 0 ≤ r) (h2 : r < m.num_rows) (h3 : 0 ≤ c) (h4 : c < m.num_cols) :
    ∃ cl, maze_get_cell m r c = some cl := by
  unfold maze_get_cell
  rw [if_neg (by omega)]
  have hcols : 0 < m.num_cols := by omega
  have hmul : r * m.num_cols ≤ (m.num_rows - 1) * m.num_cols :=
    mul_le_mul_of_nonneg_right (by omega) (le_of_lt hcols)
  have hlt : r * m.num_cols + c < m.num_rows * m.num_cols := by
    have : (m.num_rows - 1) * m.num_cols = m.num_rows * m.num_cols - m.num_cols := by ring
    omega
  have hnn : (0 : Int) ≤ r * m.num_cols + c := by positivity
  have : (r * m.num_cols + c).toNat < m.board.length := by
    rw [hb]; omega
  exact ⟨_, List.get?_eq_get this⟩

theorem difficultFind_wall (rng : Nat → Nat) :
    ∀ fuel k m pos kn, difficultFind rng fuel k m = some (pos, kn) →
    cell_is_wall m pos.1 pos.2 = true := by
  intro fuel
  induction fuel with
  | zero =>
    intro k m pos kn h
    simp only [difficultFind] at h
    exact absurd h (by simp)
  | succ fuel ih =>
    intro k m pos kn h
    simp only [difficultFind] at h
    split at h
    · exact ih _ _ _ _ h
    · split at h
      · exact ih _ _ _ _ h
      · split at h
        · simp only [Option.some.injEq, Prod.mk.injEq] at h
          obtain ⟨rfl, rfl⟩ := h
          next hw _ _ => simpa using hw
        · exact ih _ _ _ _ h

theorem difficult_loop_preserves_nonwall (rng : Nat → Nat) (fuel : Nat) :
    ∀ count k m m' k', difficult_loop rng fuel k count m = some (m', k') →
    ∀ r c cl, maze_get_cell m r c = some cl → cl.type ≠ CellType.wall →
    maze_get_cell m' r c = some cl := by
  intro count
  induction count with
  | zero =>
    intro k m m' k' h r c cl hg ht
    simp only [difficult_loop, Option.some.injEq, Prod.mk.injEq] at h
    obtain ⟨rfl, rfl⟩ := h
    exact hg
  | succ count ih =>
    intro k m m' k' h r c cl hg ht
    simp only [difficult_loop] at h
    split at h
    · simp at h
    · next pos kn hfind =>
      have hw := difficultFind_wall rng fuel _ _ pos kn hfind
      refine ih _ _ _ _ h r c cl ?_ ht
      have hne : (r, c) ≠ (pos.1, pos.2) := by
        intro hcontra
        rw [Prod.mk.injEq] at hcontra
        obtain ⟨rfl, rfl⟩ := hcontra
        unfold cell_is_wall at hw
        rw [hg] at hw
        simp at hw
        exact ht hw
      exact maze_mod_cell_get_ne _ hg hne

theorem maze_get_cell_set_start (m : Maze) (s : Int × Int) (r c : Int) :
    maze_get_cell { m with start_cell := s } r c = maze_get_cell m r c := rfl

theorem maze_get_cell_set_end (m : Maze) (e : Int × Int) (r c : Int) :
    maze_get_cell { m with end_cell := e } r c = maze_get_cell m r c := rfl

theorem maze_get_cell_type_eq {m : Maze} {r c : Int} {cl : Cell}
    (h : maze_get_cell m r c = some cl) : maze_get_cell_type m r c = cl.type := by
  unfold maze_get_cell_type
  rw [h]

/-- Property holding of the resulting maze whenever maze_create succeeds. -/
def onCreateOk (e : Except CreateErr Maze) (P : Maze → Prop) : Prop :=
  match e with
  | .ok m => P m
  | .error _ => True

/-- C5 (amended): after every successful maze_create, start_cell is the
cell at grid position (1, 0) and is typed Start, and end_cell is the cell
at grid position (num_rows - 2, num_cols - 1) — one column further right
than the (num_rows - 2, num_cols - 2) stated in the specification — and is
typed End, regardless of the cells' prior types. -/
theorem c5_start_end_placement (m : Maze) (rr rc : Int) (d : Bool) (rng : Nat → Nat)
    (fuel : Nat) :
    onCreateOk (maze_create m rr rc d rng fuel) (fun m' =>
      m'.start_cell = (1, 0) ∧
      m'.end_cell = (m'.num_rows - 2, m'.num_cols - 1) ∧
      maze_get_cell_type m' 1 0 = CellType.startCell ∧
      maze_get_cell_type m' (m'.num_rows - 2) (m'.num_cols - 1) = CellType.endCell) := by
  unfold onCreateOk
  split
  · next m' heq =>
    obtain ⟨h1, h2, h3, h4, h5⟩ := maze_create_ok_shape heq
    obtain ⟨a1, a2, a3, -, -, -⟩ := clampDim_spec rr
    obtain ⟨b1, b2, b3, -, -, -⟩ := clampDim_spec rc
    simp only [maze_create] at heq
    split at heq
    · exact absurd heq (by simp)
    split at heq
    · exact absurd heq (by simp)
    split at heq
    · exact absurd heq (by simp)
    next res hcarve =>
    have hfr := carve_loop_frame rng fuel _ _ _ res.1 res.2 hcarve
    obtain ⟨e1, e2, -, -, e5⟩ := hfr
    simp only [maze_mod_cell_num_rows, maze_mod_cell_num_cols, maze_mod_cell_len] at e1 e2 e5
    rw [init_board_length] at e5
    have hb3 : res.1.board.length = (res.1.num_rows * res.1.num_cols).toNat := by
      rw [e1, e2, e5]
    obtain ⟨c3, hget3⟩ := maze_get_cell_of_lt hb3 (by omega)
      (by omega : (1:Int) < res.1.num_rows) (by omega) (by omega : (0:Int) < res.1.num_cols)
    have hget4 := hget3
    rw [← maze_get_cell_set_start res.1 (1, 0) 1 0] at hget4
    have hget5 := maze_mod_cell_get_self (fun c => { c with type := CellType.startCell }) hget4
    have hb5 : (maze_mod_cell { res.1 with start_cell := ((1:Int), (0:Int)) } 1 0
        (fun c => { c with type := CellType.startCell })).board.length =
        ((maze_mod_cell { res.1 with start_cell := ((1:Int), (0:Int)) } 1 0
        (fun c => { c with type := CellType.startCell })).num_rows *
        (maze_mod_cell { res.1 with start_cell := ((1:Int), (0:Int)) } 1 0
        (fun c => { c with type := CellType.startCell })).num_cols).toNat := by
      rw [maze_mod_cell_len, maze_mod_cell_num_rows, maze_mod_cell_num_cols]
      exact hb3
    obtain ⟨c6, hget6⟩ := maze_get_cell_of_lt
      (r := clampDim MAZE_MIN MAZE_MAX rr - 2) (c := clampDim MAZE_MIN MAZE_MAX rc - 1) hb5
      (by omega)
      (by rw [maze_mod_cell_num_rows]; simp only []; omega)
      (by omega)
      (by rw [maze_mod_cell_num_cols]; simp only []; omega)
    rw [← maze_get_cell_set_end _ (clampDim MAZE_MIN MAZE_MAX rr - 2,
      clampDim MAZE_MIN MAZE_MAX rc - 1) _ _] at hget5 hget6
    have hget7s := maze_mod_cell_get_ne
      (r := clampDim MAZE_MIN MAZE_MAX rr - 2) (c := clampDim MAZE_MIN MAZE_MAX rc - 1)
      (fun c => { c with type := CellType.endCell }) hget5
      (by intro hx; rw [Prod.mk.injEq] at hx; omega)
    have hget7e := maze_mod_cell_get_self (fun c => { c with type := CellType.endCell }) hget6
    split at heq
    · injection heq with heq
      subst heq
      refine ⟨h3, h4, ?_, ?_⟩
      · exact maze_get_cell_type_eq hget7s
      · rw [h1, h2]
        exact maze_get_cell_type_eq hget7e
    · split at heq
      · exact absurd heq (by simp)
      next res7 hdiff =>
      injection heq with heq
      subst heq
      have hpresS := difficult_loop_preserves_nonwall rng fuel _ _ _ res7.1 res7.2 hdiff
        1 0 _ hget7s (by simp)
      have hpresE := difficult_loop_preserves_nonwall rng fuel _ _ _ res7.1 res7.2 hdiff
        _ _ _ hget7e (by simp)
      refine ⟨h3, h4, ?_, ?_⟩
      · exact maze_get_cell_type_eq hpresS
      · rw [h1, h2]
        exact maze_get_cell_type_eq hpresE
  · trivial

def mazeZero : Maze :=
  { num_rows := 0, num_cols := 0, board := [], start_cell := (0, 0), end_cell := (0, 0),
    difficult := false, solver_running := false, solver_algorithm := .bfs, path_len := 0 }

def rngZero : Nat → Nat := fun _ => 0

set_option maxRecDepth 40000 in
/-- C5 counterexample: a concrete successful maze_create call (requested
1 by 1, clamped to 21 by 21, with the all-zeros random stream) places
end_cell at (19, 20), which is not the grid position
(num_rows - 2, num_cols - 2) = (19, 19) stated in the claim. -/
theorem c5_end_cell_position_counterexample :
    (maze_create mazeZero 1 1 false rngZero 600).toOption.map
      (fun m' => (m'.num_rows, m'.num_cols, m'.end_cell)) = some (21, 21, (19, 20)) ∧
    ((19 : Int), (20 : Int)) ≠ ((21 : Int) - 2, (21 : Int) - 2) := by
  constructor
  · decide
  · decide

/-- C7: maze_create clamps the requested dimensions — a value below 21
becomes 21, a value above 499 becomes 499, and an in-range even value is
bumped to the next odd value — so after every successful creation
num_rows and num_cols are odd and lie in [21, 499]; in particular a
requested 1 becomes 21 and a requested 10000 becomes 499. -/
theorem c7_create_clamps (m : Maze) (rr rc : Int) (d : Bool) (rng : Nat → Nat)
    (fuel : Nat) :
    onCreateOk (maze_create m rr rc d rng fuel) (fun m' =>
      m'.num_rows = clampDim MAZE_MIN MAZE_MAX rr ∧
      m'.num_cols = clampDim MAZE_MIN MAZE_MAX rc ∧
      m'.num_rows % 2 = 1 ∧ m'.num_cols % 2 = 1 ∧
      21 ≤ m'.num_rows ∧ m'.num_rows ≤ 499 ∧ 21 ≤ m'.num_cols ∧ m'.num_cols ≤ 499 ∧
      (rr < 21 → m'.num_rows = 21) ∧ (rr > 499 → m'.num_rows = 499) ∧
      (21 ≤ rr → rr ≤ 499 → rr % 2 = 0 → m'.num_rows = rr + 1) ∧
      (rc < 21 → m'.num_cols = 21) ∧ (rc > 499 → m'.num_cols = 499) ∧
      (21 ≤ rc → rc ≤ 499 → rc % 2 = 0 → m'.num_cols = rc + 1)) ∧
    clampDim MAZE_MIN MAZE_MAX 1 = 21 ∧ clampDim MAZE_MIN MAZE_MAX 10000 = 499 := by
  refine ⟨?_, by decide, by decide⟩
  unfold onCreateOk
  split
  · next m' heq =>
    obtain ⟨h1, h2, -, -, -⟩ := maze_create_ok_shape heq
    obtain ⟨a1, a2, a3, a4, a5, a6⟩ := clampDim_spec rr
    obtain ⟨b1, b2, b3, b4, b5, b6⟩ := clampDim_spec rc
    rw [h1, h2]
    exact ⟨rfl, rfl, a1, b1, a2, a3, b2, b3, a4, a5, a6, b4, b5, b6⟩
  · trivial

theorem row_major_div {cols r c : Int} (hc0 : 0 ≤ c) (hcu : c < cols) :
    (r * cols + c) / cols = r := by
  have hcols : 0 < cols := lt_of_le_of_lt hc0 hcu
  have h : r * cols + c = c + cols * r := by ring
  rw [h, Int.add_mul_ediv_left c r (by omega : cols ≠ 0),
      Int.ediv_eq_zero_of_lt hc0 hcu]
  omega

theorem row_major_mod {cols r c : Int} (hc0 : 0 ≤ c) (hcu : c < cols) :
    (r * cols + c) % cols = c := by
  have h : r * cols + c = c + cols * r := by ring
  rw [h, Int.add_mul_emod_self_left]
  exact Int.emod_eq_of_lt hc0 hcu

theorem init_board_get {nr nc r c : Int} (hr0 : 0 ≤ r) (hr : r < nr)
    (hc0 : 0 ≤ c) (hc : c < nc) :
    (init_board nr nc).get? (r * nc + c).toNat = some (initCell nc (r * nc + c).toNat) := by
  have hcols : 0 < nc := lt_of_le_of_lt hc0 hc
  have hmul : r * nc ≤ (nr - 1) * nc := mul_le_mul_of_nonneg_right (by omega) (le_of_lt hcols)
  have hx : (nr - 1) * nc = nr * nc - nc := by ring
  have hnn : (0 : Int) ≤ r * nc + c := by positivity
  have hlt : (r * nc + c).toNat < (nr * nc).toNat := by omega
  unfold init_board
  rw [List.get?_map, List.get?_range hlt]
  rfl

theorem initCell_type_empty {nc r c : Int} (hc0 : 0 ≤ c) (hcu : c < nc)
    (hr0 : 0 ≤ r) (hro : r % 2 = 1) (hco : c % 2 = 1) :
    (initCell nc (r * nc + c).toNat).type = CellType.empty := by
  have hcols : 0 < nc := lt_of_le_of_lt hc0 hcu
  have hcast : (((r * nc + c).toNat : Int)) = r * nc + c :=
    Int.toNat_of_nonneg (by positivity)
  unfold initCell
  simp only [hcast, row_major_div hc0 hcu, row_major_mod hc0 hcu]
  rw [if_pos ⟨hro, hco⟩]

theorem seedCoord_spec (x : Nat) {n : Int} (h21 : 21 ≤ n) (hodd : n % 2 = 1) :
    seedCoord x n % 2 = 1 ∧ 1 ≤ seedCoord x n ∧ seedCoord x n ≤ n - 2 := by
  unfold seedCoord
  have htpos : 0 < (n - 2).toNat := by omega
  have hy : x % (n - 2).toNat < (n - 2).toNat := Nat.mod_lt _ htpos
  have hy2 : x % (n - 2).toNat / 2 * 2 ≤ x % (n - 2).toNat := by omega
  push_cast
  omega

theorem seed_cell_check_ok (m1 : Maze) (x y : Nat)
    (hb : m1.board = init_board m1.num_rows m1.num_cols)
    (hR : 21 ≤ m1.num_rows) (hRodd : m1.num_rows % 2 = 1)
    (hC : 21 ≤ m1.num_cols) (hCodd : m1.num_cols % 2 = 1) :
    seed_cell_check m1 (seedCoord x m1.num_rows) (seedCoord y m1.num_cols) =
      Except.ok (initCell m1.num_cols
        (seedCoord x m1.num_rows * m1.num_cols + seedCoord y m1.num_cols).toNat) := by
  obtain ⟨s1, s2, s3⟩ := seedCoord_spec x hR hRodd
  obtain ⟨t1, t2, t3⟩ := seedCoord_spec y hC hCodd
  unfold seed_cell_check maze_get_cell
  rw [if_neg (by omega), hb,
      init_board_get (by omega) (by omega : seedCoord x m1.num_rows < m1.num_rows)
        (by omega) (by omega : seedCoord y m1.num_cols < m1.num_cols)]
  simp only
  rw [if_neg (by
    rw [initCell_type_empty (by omega) (by omega : seedCoord y m1.num_cols < m1.num_cols)
      (by omega) s1 t1]
    simp)]

/-- C9: maze_create fails with the badSeed error exactly when the chosen
carving seed cell is missing or is a wall, and this branch is unreachable:
for clamped odd dimensions in range, the seed row and column computed as
(random() % (n-2)) / 2 * 2 + 1 are always odd and lie in [1, n-2], so the
seed cell of the freshly initialized board is always Empty and maze_create
never returns the badSeed error. -/
theorem c9_bad_seed_unreachable :
    (∀ m row col, (maze_get_cell m row col = none ∨ cell_is_wall m row col = true) →
       seed_cell_check m row col = Except.error CreateErr.badSeed) ∧
    (∀ x : Nat, ∀ n : Int, 21 ≤ n → n % 2 = 1 →
       seedCoord x n % 2 = 1 ∧ 1 ≤ seedCoord x n ∧ seedCoord x n ≤ n - 2) ∧
    (∀ m rr rc d rng fuel, maze_create m rr rc d rng fuel ≠ Except.error CreateErr.badSeed) := by
  refine ⟨?_, fun x n h1 h2 => seedCoord_spec x h1 h2, ?_⟩
  · intro m row col h
    unfold seed_cell_check
    rcases h with h | h
    · rw [h]
    · unfold cell_is_wall at h
      split at h
      · next cl hg =>
        have hw : cl.type = CellType.wall := of_decide_eq_true h
        rw [hg]
        simp [hw]
      · next hg =>
        rw [hg]
  · intro m rr rc d rng fuel hbad
    obtain ⟨a1, a2, -, -, -, -⟩ := clampDim_spec rr
    obtain ⟨b1, b2, -, -, -, -⟩ := clampDim_spec rc
    simp only [maze_create] at hbad
    split at hbad
    · simp at hbad
    split at hbad
    · next e hseed =>
      have hok := seed_cell_check_ok
        { m with
          num_rows := clampDim MAZE_MIN MAZE_MAX rr
          num_cols := clampDim MAZE_MIN MAZE_MAX rc
          difficult := d
          board := init_board (clampDim MAZE_MIN MAZE_MAX rr) (clampDim MAZE_MIN MAZE_MAX rc) }
        (rng 0) (rng 1) rfl a2 a1 b2 b1
      rw [hok] at hseed
      exact absurd hseed (by simp)
    split at hbad
    · simp at hbad
    split at hbad
    · simp at hbad
    split at hbad
    · simp at hbad
    · simp at hbad

/-- Witness for c9_bad_seed_unreachable: the defensive check rejects the
perimeter wall (0, 0) of mazeB, the seed coordinates are odd and in range
for n = 21, and a concrete maze_create call is not a badSeed error. -/
theorem c9_bad_seed_unreachable_witness :
    seed_cell_check mazeB 0 0 = Except.error CreateErr.badSeed ∧
    (seedCoord 5 21 % 2 = 1 ∧ 1 ≤ seedCoord 5 21 ∧ seedCoord 5 21 ≤ 21 - 2) ∧
    maze_create mazeZero 1 1 false rngZero 600 ≠ Except.error CreateErr.badSeed :=
  ⟨c9_bad_seed_unreachable.1 mazeB 0 0 (Or.inr (by decide)),
   c9_bad_seed_unreachable.2.1 5 21 (by decide) (by decide),
   c9_bad_seed_unreachable.2.2 mazeZero 1 1 false rngZero 600⟩

theorem fse_none_running {m : Maze} {row col : Int} (h : m.solver_running = true) :
    maze_get_cell_for_start_or_end m row col = none := by
  unfold maze_get_cell_for_start_or_end
  rw [if_pos h]

theorem fse_none_miss {m : Maze} {row col : Int} (h : maze_get_cell m row col = none) :
    maze_get_cell_for_start_or_end m row col = none := by
  unfold maze_get_cell_for_start_or_end
  split
  · rfl
  · rw [h]

theorem fse_none_interior_wall {m : Maze} {row col : Int} {cl : Cell}
    (hg : maze_get_cell m row col = some cl) (hw : cl.type = CellType.wall)
    (hp : maze_cell_is_perimeter m row col = false) :
    maze_get_cell_for_start_or_end m row col = none := by
  unfold maze_get_cell_for_start_or_end
  split
  · rfl
  · rw [hg]
    simp only
    rw [if_pos hw]
    rw [if_pos (show ¬(maze_cell_is_perimeter m row col = true) by simp [hp])]

theorem fse_none_isolated {m : Maze} {row col : Int} {cl : Cell}
    (hg : maze_get_cell m row col = some cl) (hw : cl.type = CellType.wall)
    (hp : maze_cell_is_perimeter m row col = true)
    (hiso : ∀ d ∈ neighboursNESW, cell_is_wall m (row + d.1) (col + d.2) = true) :
    maze_get_cell_for_start_or_end m row col = none := by
  unfold maze_get_cell_for_start_or_end
  split
  · rfl
  · rw [hg]
    simp only
    rw [if_pos hw]
    apply if_neg
    simp only [List.any_eq_true, not_exists]
    intro a b
    obtain ⟨hmem, hpred⟩ := b
    have hwall := hiso a hmem
    unfold cell_is_wall at hwall
    cases hng : maze_get_cell m (row + a.1) (col + a.2) with
    | none =>
      rw [hng] at hpred
      simp at hpred
    | some ncl =>
      rw [hng] at hwall hpred
      simp only [decide_eq_true_eq] at hwall hpred
      exact hpred hwall

theorem fse_some_perimeter {m : Maze} {row col : Int} {cl : Cell}
    (hrun : m.solver_running = false)
    (hg : maze_get_cell m row col = some cl) (hw : cl.type = CellType.wall)
    (hp : maze_cell_is_perimeter m row col = true)
    {d : Int × Int} (hd : d ∈ neighboursNESW)
    (hnw : cell_is_wall m (row + d.1) (col + d.2) = false) :
    maze_get_cell_for_start_or_end m row col = some (row, col) := by
  unfold maze_get_cell_for_start_or_end
  rw [if_neg (show ¬(m.solver_running = true) by simp [hrun]), hg]
  simp only
  rw [if_pos hw]
  rw [if_neg (show ¬¬(maze_cell_is_perimeter m row col = true) by simp [hp])]
  apply if_pos
  simp only [List.any_eq_true]
  refine ⟨d, hd, ?_⟩
  unfold cell_is_wall at hnw
  cases hng : maze_get_cell m (row + d.1) (col + d.2) with
  | none =>
    rw [hng] at hnw
    simp at hnw
  | some ncl =>
    rw [hng] at hnw
    simp only [hng]
    simpa using hnw

theorem set_cells_fail {m : Maze} {row col : Int}
    (h : maze_get_cell_for_start_or_end m row col = none) :
    maze_set_end_cell m row col = (-1, m) ∧ maze_set_start_cell m row col = (-1, m) := by
  unfold maze_set_end_cell maze_set_start_cell
  rw [h]
  exact ⟨rfl, rfl⟩

theorem set_cells_succeed {m : Maze} {row col : Int} {pos : Int × Int}
    (h : maze_get_cell_for_start_or_end m row col = some pos) :
    (maze_set_end_cell m row col).1 = 0 ∧ (maze_set_start_cell m row col).1 = 0 := by
  unfold maze_set_end_cell maze_set_start_cell
  rw [h]
  exact ⟨rfl, rfl⟩

/-- C6: maze_set_end_cell and symmetrically maze_set_start_cell return -1
and leave the maze — every cell and the start_cell and end_cell
references — unchanged when a solve is running, when the target
coordinates are out of range, when the target is an interior (non
perimeter) wall cell, or when the target is a perimeter wall cell none of
whose four orthogonal neighbours is non-wall; a perimeter wall cell with
at least one non-wall orthogonal neighbour is accepted (return value 0). -/
theorem c6_set_start_end_rejections (m : Maze) (row col : Int) :
    (m.solver_running = true →
      maze_set_end_cell m row col = (-1, m) ∧ maze_set_start_cell m row col = (-1, m)) ∧
    ((row < 0 ∨ row ≥ m.num_rows ∨ col < 0 ∨ col ≥ m.num_cols) →
      maze_set_end_cell m row col = (-1, m) ∧ maze_set_start_cell m row col = (-1, m)) ∧
    (∀ cl, maze_get_cell m row col = some cl → cl.type = CellType.wall →
      maze_cell_is_perimeter m row col = false →
      maze_set_end_cell m row col = (-1, m) ∧ maze_set_start_cell m row col = (-1, m)) ∧
    (∀ cl, maze_get_cell m row col = some cl → cl.type = CellType.wall →
      maze_cell_is_perimeter m row col = true →
      (∀ d ∈ neighboursNESW, cell_is_wall m (row + d.1) (col + d.2) = true) →
      maze_set_end_cell m row col = (-1, m) ∧ maze_set_start_cell m row col = (-1, m)) ∧
    (∀ cl d, m.solver_running = false → maze_get_cell m row col = some cl →
      cl.type = CellType.wall → maze_cell_is_perimeter m row col = true →
      d ∈ neighboursNESW → cell_is_wall m (row + d.1) (col + d.2) = false →
      (maze_set_end_cell m row col).1 = 0 ∧ (maze_set_start_cell m row col).1 = 0) := by
  refine ⟨?_, ?_, ?_, ?_, ?_⟩
  · intro h
    exact set_cells_fail (fse_none_running h)
  · intro h
    refine set_cells_fail (fse_none_miss ?_)
    unfold maze_get_cell
    exact if_pos h
  · intro cl hg hw hp
    exact set_cells_fail (fse_none_interior_wall hg hw hp)
  · intro cl hg hw hp hiso
    exact set_cells_fail (fse_none_isolated hg hw hp hiso)
  · intro cl d hrun hg hw hp hd hnw
    exact set_cells_succeed (fse_some_perimeter hrun hg hw hp hd hnw)

/-- Witness for c6_set_start_end_rejections on the concrete maze mazeB:
rejection while running, rejection out of range, rejection on the interior
wall (1, 2), rejection on the isolated perimeter corner (0, 0), and
acceptance on the perimeter wall (1, 0) next to the open cell (1, 1). -/
theorem c6_set_start_end_rejections_witness :
    (maze_set_end_cell { mazeB with solver_running := true } 1 1 =
      (-1, { mazeB with solver_running := true })) ∧
    (maze_set_end_cell mazeB (-3) 99 = (-1, mazeB)) ∧
    (maze_set_end_cell mazeB 1 2 = (-1, mazeB) ∧ maze_set_start_cell mazeB 1 2 = (-1, mazeB)) ∧
    (maze_set_end_cell mazeB 0 0 = (-1, mazeB)) ∧
    (maze_set_end_cell mazeB 1 0).1 = 0 ∧ (maze_set_start_cell mazeB 1 0).1 = 0 := by
  refine ⟨?_, ?_, ?_, ?_, ?_, ?_⟩
  · exact ((c6_set_start_end_rejections { mazeB with solver_running := true } 1 1).1
      (by decide)).1
  · exact ((c6_set_start_end_rejections mazeB (-3) 99).2.1 (by decide)).1
  · exact (c6_set_start_end_rejections mazeB 1 2).2.2.1 (mkCell 1 2 .wall) (by decide)
      (by decide) (by decide)
  · exact ((c6_set_start_end_rejections mazeB 0 0).2.2.2.1 (mkCell 0 0 .wall) (by decide)
      (by decide) (by decide) (by decide)).1
  · exact ((c6_set_start_end_rejections mazeB 1 0).2.2.2.2 (mkCell 1 0 .wall) (0, 1)
      (by decide) (by decide) (by decide) (by decide) (by decide) (by decide)).1
  · exact ((c6_set_start_end_rejections mazeB 1 0).2.2.2.2 (mkCell 1 0 .wall) (0, 1)
      (by decide) (by decide) (by decide) (by decide) (by decide) (by decide)).2

theorem insert_by_heuristic_mem (x : ACell) :
    ∀ (l : List ACell) (a : ACell), a ∈ insert_by_heuristic x l ↔ a = x ∨ a ∈ l := by
  intro l
  induction l with
  | nil => intro a; simp [insert_by_heuristic]
  | cons e rest ih =>
    intro a
    unfold insert_by_heuristic
    split
    · simp
    · simp only [List.mem_cons, ih a]
      tauto

theorem insert_by_heuristic_sorted (x : ACell) :
    ∀ l : List ACell, l.Pairwise (fun a b => a.heuristic ≤ b.heuristic) →
    (insert_by_heuristic x l).Pairwise (fun a b => a.heuristic ≤ b.heuristic) := by
  intro l
  induction l with
  | nil =>
    intro h
    simp [insert_by_heuristic]
  | cons e rest ih =>
    intro h
    rw [List.pairwise_cons] at h
    obtain ⟨he, hrest⟩ := h
    unfold insert_by_heuristic
    split
    · next hxe =>
      rw [List.pairwise_cons]
      refine ⟨?_, List.pairwise_cons.mpr ⟨he, hrest⟩⟩
      intro a ha
      rcases List.mem_cons.mp ha with rfl | ha
      · exact hxe
      · exact le_trans hxe (he a ha)
    · next hxe =>
      rw [List.pairwise_cons]
      refine ⟨?_, ih hrest⟩
      intro a ha
      rcases (insert_by_heuristic_mem x rest a).mp ha with rfl | ha
      · omega
      · exact he a ha

theorem open_has_lower_value_iff (openList : List ACell) (n_cell : ACell) :
    open_has_lower_value openList n_cell = true ↔
    ∃ e ∈ openList, e.row = n_cell.row ∧ e.col = n_cell.col ∧ e.value < n_cell.value := by
  unfold open_has_lower_value
  rw [List.any_eq_true]
  constructor
  · rintro ⟨e, he, hp⟩
    simp only [Bool.and_eq_true, beq_iff_eq, decide_eq_true_eq] at hp
    exact ⟨e, he, hp.1.1, hp.1.2, hp.2⟩
  · rintro ⟨e, he, h1, h2, h3⟩
    refine ⟨e, he, ?_⟩
    simp only [Bool.and_eq_true, beq_iff_eq, decide_eq_true_eq]
    exact ⟨⟨h1, h2⟩, h3⟩

theorem ACell.row_child (r c v h : Int) (p : ACell) : (ACell.child r c v h p).row = r := rfl

theorem ACell.col_child (r c v h : Int) (p : ACell) : (ACell.child r c v h p).col = c := rfl

theorem ACell.value_child (r c v h : Int) (p : ACell) : (ACell.child r c v h p).value = v := rfl

theorem ACell.heuristic_child (r c v h : Int) (p : ACell) :
    (ACell.child r c v h p).heuristic = h := rfl

theorem ACell.row_root (r c v h : Int) : (ACell.root r c v h).row = r := rfl

theorem ACell.col_root (r c v h : Int) : (ACell.root r c v h).col = c := rfl

theorem ACell.value_root (r c v h : Int) : (ACell.root r c v h).value = v := rfl

theorem ACell.heuristic_root (r c v h : Int) : (ACell.root r c v h).heuristic = h := rfl

/-- Small example maze with a fully open 3 by 3 board. -/
def mazeC : Maze :=
  { num_rows := 3
    num_cols := 3
    board :=
      [mkCell 0 0 .empty, mkCell 0 1 .empty, mkCell 0 2 .empty,
       mkCell 1 0 .empty, mkCell 1 1 .empty, mkCell 1 2 .empty,
       mkCell 2 0 .empty, mkCell 2 1 .empty, mkCell 2 2 .empty]
    start_cell := (0, 0)
    end_cell := (2, 2)
    difficult := false
    solver_running := false
    solver_algorithm := SolverAlgorithm.aStar
    path_len := 0 }

/-- C4 (amended): in the A* solver, an in-bounds non-wall neighbour
candidate that is not in the closed list is inserted into the
heuristic-sorted open list if and only if no entry with the same
coordinates and a STRICTLY lower value already exists in the open list —
an entry with an equal value does not prevent insertion, unlike the
equal-or-lower rule stated in the specification — and otherwise the
candidate is discarded; the insertion keeps the open list sorted by
heuristic. -/
theorem c4_open_insert_strictly_lower (cur : ACell) (d : Int × Int)
    (closedList : List ACell) (m : Maze) (openList : List ACell)
    (hb : ¬(cur.row + d.1 < 0 ∨ cur.row + d.1 ≥ m.num_rows ∨
            cur.col + d.2 < 0 ∨ cur.col + d.2 ≥ m.num_cols))
    (hw : cell_is_wall m (cur.row + d.1) (cur.col + d.2) = false)
    (hc : closed_has_cell closedList (cur.row + d.1) (cur.col + d.2) = false) :
    ((¬ ∃ e ∈ openList, e.row = cur.row + d.1 ∧ e.col = cur.col + d.2 ∧
         e.value < cur.value + 1) →
       a_star_neighbour cur d closedList (m, openList) =
         (maze_mod_cell m (cur.row + d.1) (cur.col + d.2)
            (fun cl => { cl with type := CellType.pathHead }),
          insert_by_heuristic (ACell.child (cur.row + d.1) (cur.col + d.2) (cur.value + 1)
            (cur.value + 1 + cell_distance (cur.row + d.1, cur.col + d.2) m.end_cell) cur)
            openList)) ∧
    ((∃ e ∈ openList, e.row = cur.row + d.1 ∧ e.col = cur.col + d.2 ∧
         e.value < cur.value + 1) →
       a_star_neighbour cur d closedList (m, openList) = (m, openList)) ∧
    (∀ x : ACell, ∀ l : List ACell, l.Pairwise (fun a b => a.heuristic ≤ b.heuristic) →
       (insert_by_heuristic x l).Pairwise (fun a b => a.heuristic ≤ b.heuristic)) := by
  have hiff := open_has_lower_value_iff openList
    (ACell.child (cur.row + d.1) (cur.col + d.2) (cur.value + 1)
      (cur.value + 1 + cell_distance (cur.row + d.1, cur.col + d.2) m.end_cell) cur)
  simp only [ACell.row_child, ACell.col_child, ACell.value_child] at hiff
  refine ⟨?_, ?_, fun x l h => insert_by_heuristic_sorted x l h⟩
  · intro hno
    unfold a_star_neighbour
    simp only
    rw [if_neg hb]
    rw [if_neg (show ¬(cell_is_wall m (cur.row + d.1) (cur.col + d.2) = true) by simp [hw])]
    rw [if_neg (show ¬(closed_has_cell closedList (cur.row + d.1) (cur.col + d.2) = true)
      by simp [hc])]
    rw [if_neg (show ¬(open_has_lower_value openList _ = true) from
      fun hx => hno (hiff.mp hx))]
  · intro hyes
    unfold a_star_neighbour
    simp only
    rw [if_neg hb]
    rw [if_neg (show ¬(cell_is_wall m (cur.row + d.1) (cur.col + d.2) = true) by simp [hw])]
    rw [if_neg (show ¬(closed_has_cell closedList (cur.row + d.1) (cur.col + d.2) = true)
      by simp [hc])]
    rw [if_pos (hiff.mpr hyes)]

/-- C4 counterexample: with the open list holding an entry at the same
coordinates (1, 2) with value 4, equal to the candidate's value 4, the
code still inserts the candidate (the open list grows to two entries),
whereas the claim's equal-or-lower rule says it must be discarded. -/
theorem c4_equal_value_inserted_counterexample :
    (a_star_neighbour (ACell.root 1 1 3 99) (0, 1) []
       (mazeC, [ACell.root 1 2 4 99])).2.length = 2 ∧
    (∃ e ∈ [ACell.root 1 2 4 99],
       e.row = (ACell.root 1 1 3 99).row + 0 ∧
       e.col = (ACell.root 1 1 3 99).col + 1 ∧
       e.value ≤ (ACell.root 1 1 3 99).value + 1) := by
  exact ⟨by decide, by decide⟩

/-- Witness for c4_open_insert_strictly_lower: with an open-list entry at
the candidate's coordinates holding the strictly lower value 2, the
candidate is discarded and the state is unchanged. -/
theorem c4_open_insert_strictly_lower_witness :
    a_star_neighbour (ACell.root 1 1 3 99) (0, 1) []
      (mazeC, [ACell.root 1 2 2 99]) = (mazeC, [ACell.root 1 2 2 99]) :=
  (c4_open_insert_strictly_lower (ACell.root 1 1 3 99) (0, 1) [] mazeC
    [ACell.root 1 2 2 99] (by decide) (by decide) (by decide)).2.1 (by decide)

theorem maze_mod_cell_get_none {m : Maze} {r c r' c' : Int} (f : Cell → Cell)
    (h : maze_get_cell m r' c' = none) :
    maze_get_cell (maze_mod_cell m r c f) r' c' = none := by
  unfold maze_mod_cell
  split
  · exact h
  · split
    · exact h
    · unfold maze_get_cell at h ⊢
      simp only
      split at h
      · rw [if_pos (by assumption)]
      · rw [if_neg (by assumption)]
        rw [List.get?_eq_none] at h ⊢
        rw [List.length_set]
        exact h

/-- No orthogonal neighbour of (r, c) is present, non-wall, and carries a
non-zero value strictly below v: the condition under which the
maze_set_solution_path scan makes no progress. -/
def NoDownhill (m : Maze) (r c v : Int) : Prop :=
  ∀ d ∈ solPathOffs, ∀ ncl, maze_get_cell m (r + d.1) (c + d.2) = some ncl →
    ncl.type ≠ CellType.wall → ¬(ncl.value ≠ 0 ∧ ncl.value < v)

theorem solPathPick_stuck {m : Maze} {r c v : Int} (h : NoDownhill m r c v) :
    solPathPick m r c v = (r, c) := by
  have hgen : ∀ l : List (Int × Int),
      (∀ d ∈ l, ∀ ncl, maze_get_cell m (r + d.1) (c + d.2) = some ncl →
        ncl.type ≠ CellType.wall → ¬(ncl.value ≠ 0 ∧ ncl.value < v)) →
      (l.foldl (fun acc d =>
        match maze_get_cell m (r + d.1) (c + d.2) with
        | none => acc
        | some n_cell =>
          if n_cell.type = CellType.wall then acc
          else if n_cell.value ≠ 0 ∧ n_cell.value < acc.1 then
            (n_cell.value, (r + d.1, c + d.2))
          else acc) (v, (r, c))) = (v, (r, c)) := by
    intro l
    induction l with
    | nil => intro hl; rfl
    | cons d rest ih =>
      intro hl
      have hstep : (match maze_get_cell m (r + d.1) (c + d.2) with
          | none => ((v, (r, c)) : Int × (Int × Int))
          | some n_cell =>
            if n_cell.type = CellType.wall then (v, (r, c))
            else if n_cell.value ≠ 0 ∧ n_cell.value < v then
              (n_cell.value, (r + d.1, c + d.2))
            else (v, (r, c))) = (v, (r, c)) := by
        cases hg : maze_get_cell m (r + d.1) (c + d.2) with
        | none => rfl
        | some ncl =>
          simp only
          by_cases hw : ncl.type = CellType.wall
          · rw [if_pos hw]
          · rw [if_neg hw, if_neg (hl d (List.mem_cons_self d rest) ncl hg hw)]
      simp only [List.foldl_cons]
      rw [hstep]
      exact ih (fun e he ncl hg hw => hl e (List.mem_cons_of_mem d he) ncl hg hw)
  unfold solPathPick
  rw [hgen solPathOffs h]

theorem maze_mod_cell_get_other {m : Maze} {r c r' c' : Int} (f : Cell → Cell)
    (hne : ((r', c') : Int × Int) ≠ (r, c)) :
    maze_get_cell (maze_mod_cell m r c f) r' c' = maze_get_cell m r' c' := by
  cases hg : maze_get_cell m r' c' with
  | none => exact maze_mod_cell_get_none f hg
  | some cl => exact maze_mod_cell_get_ne f hg hne

theorem cell_value_mod {m : Maze} {r c r' c' : Int} (f : Cell → Cell)
    (hf : ∀ cl, (f cl).value = cl.value) :
    cell_value (maze_mod_cell m r c f) r' c' = cell_value m r' c' := by
  unfold cell_value
  cases hg : maze_get_cell m r' c' with
  | none => rw [maze_mod_cell_get_none f hg]
  | some cl =>
    by_cases hne : ((r', c') : Int × Int) = (r, c)
    · rw [Prod.mk.injEq] at hne
      obtain ⟨rfl, rfl⟩ := hne
      rw [maze_mod_cell_get_self f hg]
      exact hf cl
    · rw [maze_mod_cell_get_ne f hg hne]

theorem noDownhill_mod {m : Maze} {r c v : Int} (f : Cell → Cell)
    (h : NoDownhill m r c v) : NoDownhill (maze_mod_cell m r c f) r c v := by
  intro d hd ncl hg hw
  have hne : ((r + d.1, c + d.2) : Int × Int) ≠ (r, c) := by
    fin_cases hd <;> (intro hcon; rw [Prod.mk.injEq] at hcon; simp at hcon)
  rw [maze_mod_cell_get_other f hne] at hg
  exact h d hd ncl hg hw

theorem sol_path_stuck_none (c : Nat → Bool) (hc : ∀ j, c j = false) :
    ∀ fuel k (m : Maze) (cell : Int × Int), cell ≠ m.start_cell →
      NoDownhill m cell.1 cell.2 (cell_value m cell.1 cell.2) →
      sol_path_loop c fuel k m cell = none := by
  intro fuel
  induction fuel with
  | zero => intro k m cell _ _; rfl
  | succ fuel ih =>
    intro k m cell hne hnd
    rw [sol_path_loop, if_neg hne, hc k]
    simp only [Bool.false_eq_true, if_false]
    have hfv : ∀ cl : Cell, ((fun cl : Cell => { cl with type := CellType.pathSolution }) cl).value
        = cl.value := fun _ => rfl
    have hv : cell_value (maze_mod_cell { m with path_len := m.path_len + 1 } cell.1 cell.2
        (fun cl => { cl with type := CellType.pathSolution })) cell.1 cell.2
        = cell_value m cell.1 cell.2 := cell_value_mod _ hfv
    have hnd2 : NoDownhill (maze_mod_cell { m with path_len := m.path_len + 1 } cell.1 cell.2
        (fun cl => { cl with type := CellType.pathSolution })) cell.1 cell.2
        (cell_value m cell.1 cell.2) := noDownhill_mod _ hnd
    have hpick : solPathPick (maze_mod_cell { m with path_len := m.path_len + 1 } cell.1 cell.2
        (fun cl => { cl with type := CellType.pathSolution })) cell.1 cell.2
        (cell_value (maze_mod_cell { m with path_len := m.path_len + 1 } cell.1 cell.2
          (fun cl => { cl with type := CellType.pathSolution })) cell.1 cell.2)
        = cell := by
      rw [hv]
      exact solPathPick_stuck hnd2
    show sol_path_loop c fuel (k + 1) _ _ = none
    rw [hpick]
    refine ih (k + 1) _ cell ?_ ?_
    · rw [maze_mod_cell_start]
      exact hne
    · rw [hv]
      exact hnd2

theorem noDownhill_of_values {m : Maze} {r c : Int} (v : Int)
    (h : ∀ d ∈ solPathOffs, cell_value m (r + d.1) (c + d.2) = 0) :
    NoDownhill m r c v := by
  intro d hd ncl hg _
  have hv := h d hd
  unfold cell_value at hv
  rw [hg] at hv
  simp only at hv
  omega

/-- C3 (amended): in maze_set_solution_path, whenever the current cell is
not start_cell, the cancel flag is never set, and the current cell has no
orthogonal non-wall neighbour whose value is non-zero and strictly below
the current cell's value, the neighbour scan selects the current cell
again and the extraction loop never terminates: it exhausts any amount of
fuel without returning, so no truncated path_len is ever reported. -/
theorem c3_stuck_extraction_never_terminates (c : Nat → Bool) (m : Maze)
    (cell : Int × Int) (hc : ∀ j, c j = false) (hne : cell ≠ m.start_cell)
    (hnd : NoDownhill m cell.1 cell.2 (cell_value m cell.1 cell.2)) :
    ∀ fuel k, sol_path_loop c fuel k m cell = none :=
  fun fuel k => sol_path_stuck_none c hc fuel k m cell hne hnd

theorem c3_stuck_extraction_never_terminates_witness :
    ((1, 3) : Int × Int) ≠ mazeB.start_cell ∧
      sol_path_loop neverCancel 500 0 mazeB (1, 3) = none :=
  ⟨by decide,
    c3_stuck_extraction_never_terminates neverCancel mazeB (1, 3)
      (fun _ => rfl) (by decide)
      (noDownhill_of_values _ (by decide)) 500 0⟩

/-- C3 counterexample to the original claim: in mazeB the end cell (1, 3)
has no orthogonal non-wall neighbour with a non-zero value below its own,
yet path extraction does not stop there: maze_set_solution_path spins on
that cell forever, returning for no amount of fuel, and never reports any
path_len. -/
theorem c3_extraction_stops_counterexample :
    NoDownhill mazeB mazeB.end_cell.1 mazeB.end_cell.2
      (cell_value mazeB mazeB.end_cell.1 mazeB.end_cell.2) ∧
      ∀ fuel k, maze_set_solution_path neverCancel fuel k mazeB = none := by
  refine ⟨noDownhill_of_values _ ?_, fun fuel k => ?_⟩
  · decide
  · exact sol_path_stuck_none neverCancel (fun _ => rfl) fuel k _ _ (by decide)
      (noDownhill_of_values _ (by decide))

/-- Board state after maze_solve_bfs exhausts its queue on mazeB: the
start cell got value 1 and was marked visited, everything else is
unchanged, and end_cell was never reached. -/
def mazeBafter : Maze :=
  match bfs_loop neverCancel 2 0
      (maze_mod_cell (maze_clear_board_unlocked mazeB) 1 1
        (fun cl => { cl with value := 1 }))
      [(1, 1)] with
  | .done m _ => m
  | _ => mazeB

/-- C2: on mazeB the BFS queue empties without reaching end_cell, and
maze_solve does not return normally with path_len 0: the unconditional
call to maze_set_solution_path spins on the end cell, so for every fuel
bound the run only ever ends by fuel exhaustion. -/
theorem c2_frontier_exhausted_diverges :
    ∀ fuel pfuel, maze_solve neverCancel fuel pfuel mazeB = SolveRes.fuelOut := by
  intro fuel pfuel
  match fuel with
  | 0 => rfl
  | 1 => rfl
  | n + 2 =>
    have hsp : maze_set_solution_path neverCancel pfuel 1 mazeBafter = none :=
      sol_path_stuck_none neverCancel (fun _ => rfl) pfuel 1 _ _ (by decide)
        (noDownhill_of_values _ (by decide))
    show (match (match maze_set_solution_path neverCancel pfuel 1 mazeBafter with
        | some m2 => SolveRes.ok m2
        | none => SolveRes.fuelOut) with
      | SolveRes.ok m1 => SolveRes.ok { m1 with solver_running := false }
      | SolveRes.err m1 => SolveRes.err { m1 with solver_running := false }
      | other => other) = SolveRes.fuelOut
    rw [hsp]

/-- C8: every strategy loop checks the cancel flag once per
frontier-pop iteration.  When the flag reads true at an iteration whose
frontier is non-empty (for the wall followers: whose current cell is not
yet end_cell), the loop returns cancelled immediately with the board
exactly as it was at the check, so no further iteration runs and no
PathSolution cell is ever marked after cancellation; each solver turns
the cancelled loop outcome into an error result, and maze_solve
surfaces it as an error with solver_running cleared. -/
theorem c8_cancel_aborts :
    (∀ (c : Nat → Bool) (k fuel : Nat) (m : Maze) (cell : Int × Int)
        (rest : List (Int × Int)), c k = true →
      bfs_loop c (fuel + 1) k m (cell :: rest) = LoopOut.cancelled m) ∧
    (∀ (c : Nat → Bool) (k fuel : Nat) (m : Maze) (cell : Int × Int)
        (rest : List (Int × Int)), c k = true →
      dfs_loop c (fuel + 1) k m (cell :: rest) = LoopOut.cancelled m) ∧
    (∀ (c : Nat → Bool) (k fuel : Nat) (m : Maze) (cur cell : ACell)
        (rest closedList : List ACell), c k = true →
      a_star_loop c (fuel + 1) k m cur (cell :: rest) closedList = AStarOut.cancelled m) ∧
    (∀ (c : Nat → Bool) (offs : Nat → Int × Int) (k fuel : Nat) (m : Maze)
        (cur : Int × Int) (orientation : Nat) (value : Int)
        (heads : List (Int × Int)), cur ≠ m.end_cell → c k = true →
      turn_loop c offs (fuel + 1) k m cur orientation value heads = TurnOut.cancelled m) ∧
    (∀ (c : Nat → Bool) (fuel pfuel : Nat) (m m1 : Maze),
      bfs_loop c fuel 0
          (maze_mod_cell m m.start_cell.1 m.start_cell.2 (fun cl => { cl with value := 1 }))
          [(maze_mod_cell m m.start_cell.1 m.start_cell.2
            (fun cl => { cl with value := 1 })).start_cell] = LoopOut.cancelled m1 →
      maze_solve_bfs c fuel pfuel m = SolveRes.err m1) ∧
    (∀ (c : Nat → Bool) (fuel pfuel : Nat) (m m1 : Maze),
      dfs_loop c fuel 0 m [m.start_cell] = LoopOut.cancelled m1 →
      maze_solve_dfs c fuel pfuel m = SolveRes.err m1) ∧
    (∀ (c : Nat → Bool) (fuel : Nat) (m m1 : Maze),
      a_star_loop c fuel 0 m
          (ACell.root m.start_cell.1 m.start_cell.2 1 (cell_distance m.start_cell m.end_cell))
          [ACell.root m.start_cell.1 m.start_cell.2 1 (cell_distance m.start_cell m.end_cell)]
          [] = AStarOut.cancelled m1 →
      maze_solve_a_star c fuel m = SolveRes.err m1) ∧
    (∀ (c : Nat → Bool) (fuel pfuel : Nat) (m m1 : Maze),
      turn_loop c (if m.solver_algorithm = SolverAlgorithm.alwaysTurnLeft then leftOff
          else rightOff) fuel 0 m m.start_cell 1 1 [] = TurnOut.cancelled m1 →
      maze_solve_always_turn c fuel pfuel m = SolveRes.err m1) ∧
    (∀ (c : Nat → Bool) (fuel pfuel : Nat) (m m1 : Maze),
      maze_solve_dfs c fuel pfuel (maze_clear_board_unlocked m) = SolveRes.err m1 →
      m.solver_algorithm = SolverAlgorithm.dfs →
      maze_solve c fuel pfuel m = SolveRes.err { m1 with solver_running := false }) := by
  refine ⟨?_, ?_, ?_, ?_, ?_, ?_, ?_, ?_, ?_⟩
  · intro c k fuel m cell rest hck
    simp only [bfs_loop]
    rw [hck]
    simp
  · intro c k fuel m cell rest hck
    simp only [dfs_loop]
    rw [hck]
    simp
  · intro c k fuel m cur cell rest closedList hck
    simp only [a_star_loop]
    rw [hck]
    simp
  · intro c offs k fuel m cur orientation value heads hend hck
    simp only [turn_loop]
    rw [if_neg hend, hck]
    simp
  · intro c fuel pfuel m m1 h
    simp only [maze_solve_bfs]
    rw [h]
  · intro c fuel pfuel m m1 h
    simp only [maze_solve_dfs]
    rw [h]
  · intro c fuel m m1 h
    simp only [maze_solve_a_star]
    rw [h]
  · intro c fuel pfuel m m1 h
    simp only [maze_solve_always_turn]
    rw [h]
  · intro c fuel pfuel m m1 h halg
    simp only [maze_solve, halg]
    rw [h]

theorem c8_cancel_aborts_witness :
    bfs_loop (fun _ => true) 1 0 mazeB [(1, 1)] = LoopOut.cancelled mazeB ∧
    turn_loop (fun _ => true) leftOff 1 0 mazeB (1, 1) 1 1 [] = TurnOut.cancelled mazeB :=
  ⟨c8_cancel_aborts.1 _ 0 0 mazeB (1, 1) [] rfl,
   c8_cancel_aborts.2.2.2.1 _ leftOff 0 0 mazeB (1, 1) 1 1 [] (by decide) rfl⟩

/-- A non-wall board cell: cell_is_wall is true for out-of-range
coordinates, so openness also means being on the board. -/
def cellOpen (m : Maze) (p : Int × Int) : Bool :=
  !(cell_is_wall m p.1 p.2)

/-- Orthogonal grid adjacency, through the solver neighbour offsets. -/
def adjacent (p q : Int × Int) : Prop :=
  ∃ d ∈ neighboursNESW, q = (p.1 + d.1, p.2 + d.2)

/-- Unweighted walks across open cells: Walk m p q n is a chain of n
orthogonal steps from p to q staying on non-wall board cells.  A shortest
such walk visits n + 1 cells, counting both endpoints. -/
inductive Walk (m : Maze) : (Int × Int) → (Int × Int) → Nat → Prop where
  | nil (p : Int × Int) (hp : cellOpen m p = true) : Walk m p p 0
  | cons (p q r : Int × Int) (n : Nat) (hp : cellOpen m p = true)
      (hadj : adjacent p q) (hw : Walk m q r n) : Walk m p r (n + 1)

/-- n is the number of steps of a shortest walk from p to q. -/
def IsMinWalk (m : Maze) (p q : Int × Int) (n : Nat) : Prop :=
  Walk m p q n ∧ ∀ j, Walk m p q j → n ≤ j

theorem walk_src_open {m : Maze} {p q : Int × Int} {n : Nat} (h : Walk m p q n) :
    cellOpen m p = true := by
  cases h with
  | nil _ hp => exact hp
  | cons _ _ _ _ hp _ _ => exact hp

theorem walk_dst_open {m : Maze} {p q : Int × Int} {n : Nat} (h : Walk m p q n) :
    cellOpen m q = true := by
  induction h with
  | nil _ hp => exact hp
  | cons _ _ _ _ _ _ _ ih => exact ih

theorem walk_zero {m : Maze} {p q : Int × Int} (h : Walk m p q 0) : p = q := by
  cases h; rfl

theorem walk_append {m : Maze} {p q r : Int × Int} {n k : Nat}
    (h1 : Walk m p q n) (h2 : Walk m q r k) : Walk m p r (n + k) := by
  induction h1 with
  | nil _ _ => simpa using h2
  | cons a b c j hp hadj _ ih =>
    have := Walk.cons a b r (j + k) hp hadj (ih h2)
    simpa [Nat.add_right_comm] using this

theorem walk_snoc {m : Maze} {p q r : Int × Int} {n : Nat}
    (h : Walk m p q n) (hadj : adjacent q r) (hr : cellOpen m r = true) :
    Walk m p r (n + 1) :=
  walk_append h (Walk.cons q r r 0 (walk_dst_open h) hadj (Walk.nil r hr))

theorem walk_decompose {m : Maze} {p r : Int × Int} {n : Nat}
    (h : Walk m p r (n + 1)) :
    ∃ q, adjacent p q ∧ Walk m q r n := by
  cases h with
  | cons _ q _ _ _ hadj hw => exact ⟨q, hadj, hw⟩

theorem exists_minWalk {m : Maze} {p q : Int × Int} {n : Nat} (hw : Walk m p q n) :
    ∃ k, IsMinWalk m p q k := by
  classical
  have hex : ∃ j, Walk m p q j := ⟨n, hw⟩
  exact ⟨Nat.find hex, Nat.find_spec hex, fun j hj => Nat.find_min' hex hj⟩

theorem isMinWalk_unique {m : Maze} {p q : Int × Int} {n k : Nat}
    (h1 : IsMinWalk m p q n) (h2 : IsMinWalk m p q k) : n = k :=
  Nat.le_antisymm (h1.2 k h2.1) (h2.2 n h1.1)

theorem isMinWalk_zero {m : Maze} {p q : Int × Int} (h : IsMinWalk m p q 0) :
    p = q := walk_zero h.1

theorem isMinWalk_self {m : Maze} {p : Int × Int} (hp : cellOpen m p = true) :
    IsMinWalk m p p 0 := ⟨Walk.nil p hp, fun j _ => Nat.zero_le j⟩

theorem adjacent_dist {p q : Int × Int} (h : adjacent p q) :
    cell_distance p q = 1 := by
  obtain ⟨d, hd, rfl⟩ := h
  fin_cases hd <;> simp [cell_distance]

theorem cell_distance_triangle (a b c : Int × Int) :
    cell_distance a c ≤ cell_distance a b + cell_distance b c := by
  unfold cell_distance
  omega

theorem cell_distance_self (a : Int × Int) : cell_distance a a = 0 := by
  unfold cell_distance
  omega

theorem cell_distance_nonneg (a b : Int × Int) : 0 ≤ cell_distance a b := by
  unfold cell_distance
  omega

theorem walk_manhattan_le {m : Maze} {p q : Int × Int} {n : Nat}
    (h : Walk m p q n) : cell_distance p q ≤ (n : Int) := by
  induction h with
  | nil a _ => simp [cell_distance_self]
  | cons a b c j _ hadj _ ih =>
    have h1 := cell_distance_triangle a b c
    have h2 := adjacent_dist hadj
    push_cast
    omega

theorem cellOpen_iff (m : Maze) (p : Int × Int) :
    cellOpen m p = true ↔
    ∃ cl, maze_get_cell m p.1 p.2 = some cl ∧ cl.type ≠ CellType.wall := by
  unfold cellOpen cell_is_wall
  cases hg : maze_get_cell m p.1 p.2 with
  | none => simp
  | some cl => simp [hg]

theorem cell_value_ne_zero {m : Maze} {p : Int × Int}
    (h : cell_value m p.1 p.2 ≠ 0) :
    ∃ cl, maze_get_cell m p.1 p.2 = some cl ∧ cl.value = cell_value m p.1 p.2 := by
  unfold cell_value at h ⊢
  cases hg : maze_get_cell m p.1 p.2 with
  | none => rw [hg] at h; simp at h
  | some cl => exact ⟨cl, rfl, rfl⟩

theorem maze_mod_cell_miss {m : Maze} {r c : Int} (f : Cell → Cell)
    (h : maze_get_cell m r c = none) : maze_mod_cell m r c f = m := by
  unfold maze_get_cell at h
  unfold maze_mod_cell
  split
  · rfl
  · next hb =>
    rw [if_neg hb] at h
    rw [h]

theorem cellOpen_mod {m : Maze} {r c : Int} (f : Cell → Cell)
    (hopen : cellOpen m (r, c) = true)
    (hf : ∀ cl, (f cl).type ≠ CellType.wall) (q : Int × Int) :
    cellOpen (maze_mod_cell m r c f) q = cellOpen m q := by
  by_cases hq : q = (r, c)
  · subst hq
    obtain ⟨cl, hget, _⟩ := (cellOpen_iff m (r, c)).mp hopen
    rw [hopen]
    rw [cellOpen_iff]
    exact ⟨f cl, maze_mod_cell_get_self f hget, hf cl⟩
  · unfold cellOpen cell_is_wall
    rw [maze_mod_cell_get_other f hq]

/-- Number of board cells still carrying value 0: the BFS termination
measure decreases when a cell is assigned a non-zero value. -/
def zeroCount (m : Maze) : Nat :=
  (m.board.filter (fun cl => cl.value == 0)).length

theorem filter_length_set {α : Type} (p : α → Bool) :
    ∀ (l : List α) (i : Nat) (a x : α), l.get? i = some a →
    ((l.set i x).filter p).length + (if p a then 1 else 0) =
      (l.filter p).length + (if p x then 1 else 0) := by
  intro l
  induction l with
  | nil => intro i a x h; simp at h
  | cons b rest ih =>
    intro i a x h
    cases i with
    | zero =>
      simp only [List.get?] at h
      injection h with hb
      subst hb
      simp only [List.set, List.filter_cons]
      by_cases hpb : p b <;> by_cases hpx : p x <;>
        simp [hpb, hpx]
    | succ i =>
      simp only [List.get?] at h
      have hih := ih i a x h
      simp only [List.set, List.filter_cons]
      by_cases hpb : p b
      · rw [if_pos hpb, if_pos hpb]
        simp only [List.length_cons]
        omega
      · rw [if_neg hpb, if_neg hpb]
        omega

theorem zeroCount_mod {m : Maze} {r c : Int} {cl : Cell} (f : Cell → Cell)
    (hget : maze_get_cell m r c = some cl) :
    zeroCount (maze_mod_cell m r c f) + (if cl.value = 0 then 1 else 0) =
      zeroCount m + (if (f cl).value = 0 then 1 else 0) := by
  obtain ⟨h1, h2, h3, h4⟩ := maze_get_cell_some_bounds hget
  have hg := maze_get_cell_some_get hget
  unfold maze_mod_cell
  rw [if_neg (by omega), hg]
  unfold zeroCount
  simp only
  have := filter_length_set (fun x => x.value == 0) m.board
    (r * m.num_cols + c).toNat cl (f cl) hg
  by_cases hv : cl.value = 0 <;> by_cases hfv : (f cl).value = 0 <;>
    simp [hv, hfv] at this ⊢ <;> omega

theorem zeroCount_mod_value_eq {m : Maze} {r c : Int} (f : Cell → Cell)
    (hf : ∀ cl, (f cl).value = cl.value) :
    zeroCount (maze_mod_cell m r c f) = zeroCount m := by
  cases hget : maze_get_cell m r c with
  | none => rw [maze_mod_cell_miss f hget]
  | some cl =>
    have := zeroCount_mod f hget
    rw [hf cl] at this
    omega

theorem zeroCount_mod_assign {m : Maze} {r c : Int} {cl : Cell} (f : Cell → Cell)
    (hget : maze_get_cell m r c = some cl) (hv : cl.value = 0)
    (hfv : (f cl).value ≠ 0) :
    zeroCount (maze_mod_cell m r c f) + 1 = zeroCount m := by
  have := zeroCount_mod f hget
  rw [if_pos hv, if_neg hfv] at this
  omega

/-- One neighbour-offset step of the BFS expansion of the popped cell:
skip a missing, wall or already-valued neighbour, otherwise give it the
popped cell's value plus one, mark it PathHead and append it to the
queue. -/
def bfsStep (cell : Int × Int) (acc : Maze × List (Int × Int)) (d : Int × Int) :
    Maze × List (Int × Int) :=
  match maze_get_cell acc.1 (cell.1 + d.1) (cell.2 + d.2) with
  | none => acc
  | some n_cell =>
    if n_cell.type = CellType.wall ∨ n_cell.value ≠ 0 then acc
    else
      (maze_mod_cell acc.1 (cell.1 + d.1) (cell.2 + d.2)
         (fun cl => { cl with value := cell_value acc.1 cell.1 cell.2 + 1,
                              type := CellType.pathHead }),
       acc.2 ++ [(cell.1 + d.1, cell.2 + d.2)])

/-- Whole BFS expansion of a popped cell: mark it PathVisited and fold
bfsStep over the four neighbour offsets. -/
def bfsExpand (m : Maze) (cell : Int × Int) (rest : List (Int × Int)) :
    Maze × List (Int × Int) :=
  neighboursNESW.foldl (bfsStep cell)
    (maze_mod_cell m cell.1 cell.2 (fun cl => { cl with type := CellType.pathVisited }), rest)

theorem bfs_loop_succ (c : Nat → Bool) (fuel k : Nat) (m : Maze)
    (cell : Int × Int) (rest : List (Int × Int)) :
    bfs_loop c (fuel + 1) k m (cell :: rest) =
      if c k then .cancelled m
      else if cell = m.end_cell then .done m k
      else bfs_loop c fuel (k + 1) (bfsExpand m cell rest).1 (bfsExpand m cell rest).2 := rfl

/-- Relation between the state before and after folding bfsStep over a
list of offsets: the queue grows by exactly the fresh neighbours (open,
still unvalued) reachable through the processed offsets, each assigned
the popped cell's value plus one; every other value, all wall structure
and the frame are untouched, and zeroCount drops by one per fresh
cell. -/
def BfsFoldRel (cell : Int × Int) (offs : List (Int × Int))
    (acc st : Maze × List (Int × Int)) : Prop :=
  ∃ fr : List (Int × Int),
    st.2 = acc.2 ++ fr ∧
    (∀ q ∈ fr, (∃ d ∈ offs, q = (cell.1 + d.1, cell.2 + d.2)) ∧ q ≠ cell ∧
      cellOpen acc.1 q = true ∧ cell_value acc.1 q.1 q.2 = 0 ∧
      cell_value st.1 q.1 q.2 = cell_value acc.1 cell.1 cell.2 + 1) ∧
    (∀ d ∈ offs, cellOpen acc.1 (cell.1 + d.1, cell.2 + d.2) = true →
      cell_value acc.1 (cell.1 + d.1) (cell.2 + d.2) = 0 →
      (cell.1 + d.1, cell.2 + d.2) ∈ fr) ∧
    (∀ q : Int × Int, q ∉ fr → cell_value st.1 q.1 q.2 = cell_value acc.1 q.1 q.2) ∧
    (∀ q : Int × Int, cellOpen st.1 q = cellOpen acc.1 q) ∧
    SameFrame acc.1 st.1 ∧
    zeroCount st.1 + fr.length = zeroCount acc.1

theorem neighboursNESW_ne_zero {d : Int × Int} (hd : d ∈ neighboursNESW) :
    ¬(d.1 = 0 ∧ d.2 = 0) := by
  fin_cases hd <;> simp

theorem cell_value_eq_of_get {m : Maze} {r c : Int} {cl : Cell}
    (h : maze_get_cell m r c = some cl) : cell_value m r c = cl.value := by
  unfold cell_value
  rw [h]

theorem cell_value_mod_other {m : Maze} {r c : Int} {q : Int × Int} (f : Cell → Cell)
    (hq : q ≠ (r, c)) :
    cell_value (maze_mod_cell m r c f) q.1 q.2 = cell_value m q.1 q.2 := by
  unfold cell_value
  rw [maze_mod_cell_get_other f hq]

theorem bfsStep_rel (cell : Int × Int) (d : Int × Int) (hd : d ∈ neighboursNESW)
    (acc : Maze × List (Int × Int))
    (hvp : 1 ≤ cell_value acc.1 cell.1 cell.2) :
    BfsFoldRel cell [d] acc (bfsStep cell acc d) := by
  have hqne : ((cell.1 + d.1, cell.2 + d.2) : Int × Int) ≠ cell := by
    have := neighboursNESW_ne_zero hd
    intro hcon
    rw [Prod.ext_iff] at hcon
    simp only at hcon
    omega
  unfold bfsStep
  cases hget : maze_get_cell acc.1 (cell.1 + d.1) (cell.2 + d.2) with
  | none =>
    refine ⟨[], by simp, by simp, ?_, by simp, fun q => rfl, sameFrame_refl _, by simp⟩
    intro d0 hd0 hopen _
    rw [List.mem_singleton.mp hd0] at hopen
    obtain ⟨cl, hcl, _⟩ := (cellOpen_iff acc.1 (cell.1 + d.1, cell.2 + d.2)).mp hopen
    have hcl' : maze_get_cell acc.1 (cell.1 + d.1) (cell.2 + d.2) = some cl := hcl
    rw [hget] at hcl'
    exact absurd hcl' (by simp)
  | some n_cell =>
    show BfsFoldRel cell [d] acc
      (if n_cell.type = CellType.wall ∨ n_cell.value ≠ 0 then acc
       else
        (maze_mod_cell acc.1 (cell.1 + d.1) (cell.2 + d.2)
           (fun cl => { cl with value := cell_value acc.1 cell.1 cell.2 + 1,
                                type := CellType.pathHead }),
         acc.2 ++ [(cell.1 + d.1, cell.2 + d.2)]))
    by_cases hskip : n_cell.type = CellType.wall ∨ n_cell.value ≠ 0
    · rw [if_pos hskip]
      refine ⟨[], by simp, by simp, ?_, by simp, fun q => rfl, sameFrame_refl _, by simp⟩
      intro d0 hd0 hopen hval
      rw [List.mem_singleton.mp hd0] at hopen hval
      rcases hskip with hw | hv
      · obtain ⟨cl, hcl, hcw⟩ := (cellOpen_iff acc.1 (cell.1 + d.1, cell.2 + d.2)).mp hopen
        have hcl' : maze_get_cell acc.1 (cell.1 + d.1) (cell.2 + d.2) = some cl := hcl
        rw [hget] at hcl'
        injection hcl' with hcl'
        exact absurd (hcl' ▸ hw) hcw
      · rw [cell_value_eq_of_get hget] at hval
        exact absurd hval hv
    · rw [if_neg hskip]
      push_neg at hskip
      obtain ⟨hnw, hnv⟩ := hskip
      have hopen : cellOpen acc.1 (cell.1 + d.1, cell.2 + d.2) = true :=
        (cellOpen_iff _ _).mpr ⟨n_cell, hget, hnw⟩
      have hval0 : cell_value acc.1 (cell.1 + d.1) (cell.2 + d.2) = 0 :=
        (cell_value_eq_of_get hget).trans hnv
      refine ⟨[(cell.1 + d.1, cell.2 + d.2)], by simp, ?_, ?_, ?_, ?_, ?_, ?_⟩
      · intro q hq
        rw [List.mem_singleton.mp hq]
        refine ⟨⟨d, by simp, rfl⟩, hqne, hopen, hval0, ?_⟩
        exact cell_value_eq_of_get (maze_mod_cell_get_self
          (fun cl => { cl with value := cell_value acc.1 cell.1 cell.2 + 1,
                               type := CellType.pathHead }) hget)
      · intro d0 hd0 _ _
        rw [List.mem_singleton.mp hd0]
        simp
      · intro q hq
        have hqd : q ≠ (cell.1 + d.1, cell.2 + d.2) := by
          intro hcon
          exact hq (hcon ▸ List.mem_singleton_self _)
        exact cell_value_mod_other _ hqd
      · intro q
        simp only
        exact cellOpen_mod _ hopen (fun cl => by simp) q
      · exact maze_mod_cell_frame _ _ _ _
      · simp only [List.length_singleton]
        exact zeroCount_mod_assign _ hget hnv (by simp; omega)

theorem bfsFoldRel_trans {cell : Int × Int} {l1 l2 : List (Int × Int)}
    {a b c : Maze × List (Int × Int)}
    (hvp : 1 ≤ cell_value a.1 cell.1 cell.2)
    (h1 : BfsFoldRel cell l1 a b) (h2 : BfsFoldRel cell l2 b c) :
    BfsFoldRel cell (l1 ++ l2) a c := by
  obtain ⟨f1, hq1, hf1, hall1, ho1, hop1, hfr1, hz1⟩ := h1
  obtain ⟨f2, hq2, hf2, hall2, ho2, hop2, hfr2, hz2⟩ := h2
  have hcell1 : cell ∉ f1 := fun hc => (hf1 cell hc).2.1 rfl
  have hcv : cell_value b.1 cell.1 cell.2 = cell_value a.1 cell.1 cell.2 :=
    ho1 cell hcell1
  have hdisj : ∀ q ∈ f1, q ∉ f2 := by
    intro q hq hq2'
    have hvb := (hf1 q hq).2.2.2.2
    have hvb0 := (hf2 q hq2').2.2.2.1
    rw [hvb0] at hvb
    omega
  refine ⟨f1 ++ f2, ?_, ?_, ?_, ?_, ?_, sameFrame_trans hfr1 hfr2, ?_⟩
  · rw [hq2, hq1, List.append_assoc]
  · intro q hq
    rcases List.mem_append.mp hq with hq | hq
    · obtain ⟨⟨d, hd, hqd⟩, hne, hop, hv0, hv1⟩ := hf1 q hq
      refine ⟨⟨d, List.mem_append_left _ hd, hqd⟩, hne, hop, hv0, ?_⟩
      rw [← hv1]
      exact ho2 q (hdisj q hq)
    · obtain ⟨⟨d, hd, hqd⟩, hne, hop, hv0, hv1⟩ := hf2 q hq
      have hq1' : q ∉ f1 := by
        intro hc
        have := (hf1 q hc).2.2.2.2
        rw [hv0] at this
        omega
      refine ⟨⟨d, List.mem_append_right _ hd, hqd⟩, hne, ?_, ?_, ?_⟩
      · rw [← hop1 q]; exact hop
      · rw [← ho1 q hq1']; exact hv0
      · rw [hv1, hcv]
  · intro d hd hop hv
    rcases List.mem_append.mp hd with hd | hd
    · exact List.mem_append_left _ (hall1 d hd hop hv)
    · by_cases hmem : (cell.1 + d.1, cell.2 + d.2) ∈ f1
      · exact List.mem_append_left _ hmem
      · refine List.mem_append_right _ (hall2 d hd ?_ ?_)
        · rw [hop1]; exact hop
        · rw [ho1 _ hmem]; exact hv
  · intro q hq
    have hnq1 : q ∉ f1 := fun hc => hq (List.mem_append_left _ hc)
    have hnq2 : q ∉ f2 := fun hc => hq (List.mem_append_right _ hc)
    rw [ho2 q hnq2, ho1 q hnq1]
  · intro q
    rw [hop2 q, hop1 q]
  · rw [List.length_append]
    omega

theorem bfsFold_rel (cell : Int × Int) :
    ∀ offs : List (Int × Int), (∀ d ∈ offs, d ∈ neighboursNESW) →
    ∀ acc : Maze × List (Int × Int), 1 ≤ cell_value acc.1 cell.1 cell.2 →
    BfsFoldRel cell offs acc (offs.foldl (bfsStep cell) acc) := by
  intro offs
  induction offs with
  | nil =>
    intro _ acc _
    exact ⟨[], by simp, by simp, by simp, fun q _ => rfl, fun q => rfl,
      sameFrame_refl _, by simp⟩
  | cons d rest ih =>
    intro hsub acc hvp
    have h1 := bfsStep_rel cell d (hsub d (List.mem_cons_self d rest)) acc hvp
    obtain ⟨f1, hq1, hf1, hall1, ho1, hop1, hfr1, hz1⟩ := h1
    have hcell1 : cell ∉ f1 := fun hc => (hf1 cell hc).2.1 rfl
    have hcv : cell_value (bfsStep cell acc d).1 cell.1 cell.2 =
        cell_value acc.1 cell.1 cell.2 := ho1 cell hcell1
    have h2 := ih (fun d0 hd0 => hsub d0 (List.mem_cons_of_mem _ hd0))
      (bfsStep cell acc d) (by rw [hcv]; exact hvp)
    have h1' : BfsFoldRel cell [d] acc (bfsStep cell acc d) :=
      ⟨f1, hq1, hf1, hall1, ho1, hop1, hfr1, hz1⟩
    have := bfsFoldRel_trans hvp h1' h2
    simpa using this

theorem bfsExpand_rel (m : Maze) (cell : Int × Int) (rest : List (Int × Int))
    (hopen : cellOpen m cell = true) (hvp : 1 ≤ cell_value m cell.1 cell.2) :
    BfsFoldRel cell neighboursNESW (m, rest) (bfsExpand m cell rest) := by
  have hmark : BfsFoldRel cell [] (m, rest)
      (maze_mod_cell m cell.1 cell.2
        (fun cl => { cl with type := CellType.pathVisited }), rest) := by
    refine ⟨[], by simp, by simp, by simp, ?_, ?_, maze_mod_cell_frame _ _ _ _, ?_⟩
    · intro q _
      exact cell_value_mod _ (fun cl => rfl)
    · intro q
      exact cellOpen_mod _ (by
        have : ((cell.1, cell.2) : Int × Int) = cell := rfl
        rw [this]
        exact hopen) (fun cl => by simp) q
    · simpa using zeroCount_mod_value_eq
        (fun cl => { cl with type := CellType.pathVisited }) (fun cl => rfl)
  have hv1 : cell_value (maze_mod_cell m cell.1 cell.2
      (fun cl => { cl with type := CellType.pathVisited })) cell.1 cell.2 =
      cell_value m cell.1 cell.2 := cell_value_mod _ (fun cl => rfl)
  have hfold := bfsFold_rel cell neighboursNESW (fun d hd => hd)
    (maze_mod_cell m cell.1 cell.2
      (fun cl => { cl with type := CellType.pathVisited }), rest)
    (by simp only; rw [hv1]; exact hvp)
  have := bfsFoldRel_trans (by simpa using hvp) hmark hfold
  simpa [bfsExpand] using this

theorem adjacent_symm {p q : Int × Int} (h : adjacent p q) : adjacent q p := by
  obtain ⟨d, hd, rfl⟩ := h
  fin_cases hd
  · exact ⟨(1, 0), by simp [neighboursNESW], by simp⟩
  · exact ⟨(0, -1), by simp [neighboursNESW], by simp⟩
  · exact ⟨(-1, 0), by simp [neighboursNESW], by simp⟩
  · exact ⟨(0, 1), by simp [neighboursNESW], by simp⟩

theorem adjacent_ne {p q : Int × Int} (h : adjacent p q) : q ≠ p := by
  obtain ⟨d, hd, rfl⟩ := h
  have := neighboursNESW_ne_zero hd
  intro hcon
  rw [Prod.ext_iff] at hcon
  simp only at hcon
  omega

/-- On a walk from a cell satisfying P to one violating it there is a
crossing edge: an adjacent pair x, y on the walk with P x and not P y,
splitting the walk. -/
theorem walk_crossing {M : Maze} {P : (Int × Int) → Prop} :
    ∀ {a b : Int × Int} {t : Nat}, Walk M a b t → P a → ¬P b →
    ∃ x y t1 t2, Walk M a x t1 ∧ adjacent x y ∧ cellOpen M y = true ∧
      Walk M y b t2 ∧ t1 + 1 + t2 = t ∧ P x ∧ ¬P y := by
  intro a b t hw
  induction hw with
  | nil p hp => intro hpa hpb; exact absurd hpa hpb
  | cons p q r n hp hadj hw ih =>
    intro hpa hpb
    by_cases hq : P q
    · obtain ⟨x, y, t1, t2, hw1, hxy, hy, hw2, ht, hx, hny⟩ := ih hq hpb
      exact ⟨x, y, t1 + 1, t2, Walk.cons p q x t1 hp hadj hw1, hxy, hy, hw2,
        by omega, hx, hny⟩
    · exact ⟨p, q, 0, n, Walk.nil p hp, hadj, walk_src_open hw, hw, by omega,
      hpa, hq⟩

theorem pairwise_of_mem_rel {α : Type} {R : α → α → Prop} :
    ∀ l : List α, (∀ a ∈ l, ∀ b ∈ l, R a b) → l.Pairwise R := by
  intro l
  induction l with
  | nil => intro _; exact List.Pairwise.nil
  | cons a rest ih =>
    intro h
    refine List.Pairwise.cons ?_ (ih ?_)
    · intro b hb
      exact h a (List.mem_cons_self a rest) b (List.mem_cons_of_mem _ hb)
    · intro x hx y hy
      exact h x (List.mem_cons_of_mem _ hx) y (List.mem_cons_of_mem _ hy)

theorem pairwise_congr_mem {α : Type} {R S : α → α → Prop} :
    ∀ l : List α, (∀ a ∈ l, ∀ b ∈ l, R a b → S a b) → l.Pairwise R → l.Pairwise S := by
  intro l
  induction l with
  | nil => intro _ _; exact List.Pairwise.nil
  | cons a rest ih =>
    intro h hp
    rw [List.pairwise_cons] at hp
    refine List.Pairwise.cons ?_ (ih ?_ hp.2)
    · intro b hb
      exact h a (List.mem_cons_self a rest) b (List.mem_cons_of_mem _ hb) (hp.1 b hb)
    · intro x hx y hy
      exact h x (List.mem_cons_of_mem _ hx) y (List.mem_cons_of_mem _ hy)

/-- Invariant of the BFS main loop over the initial maze M: frame and
wall structure are preserved; every valued cell is open with value one
more than its shortest-walk distance from start_cell; queue entries are
valued, in non-decreasing value order and spanning at most two
consecutive values; a valued cell is in the queue or has all its open
neighbours valued; every open unvalued cell reachable by a walk of n
steps is covered by a queue entry on such a walk; start_cell holds value
1; end_cell is unvalued or still queued; every valued cell other than
start_cell has a valued neighbour exactly one below it. -/
def BfsInv (M m : Maze) (queue : List (Int × Int)) : Prop :=
  SameFrame M m ∧
  (∀ q : Int × Int, cellOpen m q = cellOpen M q) ∧
  (∀ p : Int × Int, cell_value m p.1 p.2 ≠ 0 →
    cellOpen M p = true ∧
    ∃ n : Nat, IsMinWalk M M.start_cell p n ∧ cell_value m p.1 p.2 = (n : Int) + 1) ∧
  (∀ p ∈ queue, cell_value m p.1 p.2 ≠ 0) ∧
  queue.Pairwise (fun p q => cell_value m p.1 p.2 ≤ cell_value m q.1 q.2) ∧
  (∀ p ∈ queue, ∀ q ∈ queue, cell_value m q.1 q.2 ≤ cell_value m p.1 p.2 + 1) ∧
  (∀ p : Int × Int, cell_value m p.1 p.2 ≠ 0 → p ∈ queue ∨
    (∀ q : Int × Int, adjacent p q → cellOpen M q = true → cell_value m q.1 q.2 ≠ 0)) ∧
  (∀ q : Int × Int, ∀ n : Nat, cellOpen M q = true → cell_value m q.1 q.2 = 0 →
    Walk M M.start_cell q n →
    ∃ z ∈ queue, ∃ jz t : Nat, IsMinWalk M M.start_cell z jz ∧ jz + t ≤ n ∧
      Walk M z q t) ∧
  cell_value m M.start_cell.1 M.start_cell.2 = 1 ∧
  (cell_value m M.end_cell.1 M.end_cell.2 = 0 ∨ M.end_cell ∈ queue) ∧
  (∀ p : Int × Int, cell_value m p.1 p.2 ≠ 0 → p = M.start_cell ∨
    ∃ q : Int × Int, adjacent q p ∧ cell_value m q.1 q.2 ≠ 0 ∧
      cell_value m q.1 q.2 = cell_value m p.1 p.2 - 1)

theorem bfsExpand_spec (m : Maze) (cell : Int × Int) (rest : List (Int × Int))
    (hopen : cellOpen m cell = true) (hvp : 1 ≤ cell_value m cell.1 cell.2) :
    ∃ fr : List (Int × Int),
      (bfsExpand m cell rest).2 = rest ++ fr ∧
      (∀ q ∈ fr, adjacent cell q ∧ cellOpen m q = true ∧
        cell_value m q.1 q.2 = 0 ∧
        cell_value (bfsExpand m cell rest).1 q.1 q.2 =
          cell_value m cell.1 cell.2 + 1) ∧
      (∀ q : Int × Int, adjacent cell q → cellOpen m q = true →
        cell_value m q.1 q.2 = 0 → q ∈ fr) ∧
      (∀ q : Int × Int, q ∉ fr →
        cell_value (bfsExpand m cell rest).1 q.1 q.2 = cell_value m q.1 q.2) ∧
      (∀ q : Int × Int, cellOpen (bfsExpand m cell rest).1 q = cellOpen m q) ∧
      SameFrame m (bfsExpand m cell rest).1 ∧
      zeroCount (bfsExpand m cell rest).1 + fr.length = zeroCount m := by
  obtain ⟨fr, hq2, hfr, hall, hoth, hopeq, hframe, hzc⟩ :=
    bfsExpand_rel m cell rest hopen hvp
  refine ⟨fr, hq2, ?_, ?_, hoth, hopeq, hframe, hzc⟩
  · intro q hq
    obtain ⟨⟨d, hd, hqd⟩, hne, hop, hv0, hv1⟩ := hfr q hq
    exact ⟨⟨d, hd, hqd⟩, hop, hv0, hv1⟩
  · intro q hadj hop hv0
    obtain ⟨d, hd, rfl⟩ := hadj
    exact hall d hd hop hv0

theorem bfsInv_step (M m : Maze) (cell : Int × Int) (rest : List (Int × Int))
    (hinv : BfsInv M m (cell :: rest)) (hnotend : cell ≠ M.end_cell) :
    BfsInv M (bfsExpand m cell rest).1 (bfsExpand m cell rest).2 ∧
    (bfsExpand m cell rest).2.length + 2 * zeroCount (bfsExpand m cell rest).1 + 1 ≤
      (cell :: rest).length + 2 * zeroCount m := by
  obtain ⟨hF, hW, hA, hQ0, hQs, hQb, hFR, hCOV, hS, hE, hPAR⟩ := hinv
  have hvcell : cell_value m cell.1 cell.2 ≠ 0 := hQ0 cell (List.mem_cons_self _ _)
  obtain ⟨hopMc, np, hminp, hvaleq⟩ := hA cell hvcell
  have hopenc : cellOpen m cell = true := by rw [hW cell]; exact hopMc
  have hvp : 1 ≤ cell_value m cell.1 cell.2 := by rw [hvaleq]; omega
  obtain ⟨fr, hq2, hfr, hall, hoth, hopeq, hframe, hzc⟩ :=
    bfsExpand_spec m cell rest hopenc hvp
  have hkeep : ∀ q : Int × Int, cell_value m q.1 q.2 ≠ 0 →
      cell_value (bfsExpand m cell rest).1 q.1 q.2 = cell_value m q.1 q.2 := by
    intro q hq
    refine hoth q ?_
    intro hc
    exact hq (hfr q hc).2.2.1
  have hfreshval : ∀ q ∈ fr,
      cell_value (bfsExpand m cell rest).1 q.1 q.2 = (np : Int) + 2 := by
    intro q hq
    rw [(hfr q hq).2.2.2, hvaleq]
    ring
  have hheadle : ∀ z ∈ cell :: rest,
      cell_value m cell.1 cell.2 ≤ cell_value m z.1 z.2 := by
    intro z hz
    rcases List.mem_cons.mp hz with heq | hz
    · rw [heq]
    · exact (List.pairwise_cons.mp hQs).1 z hz
  have hfreshmin : ∀ q ∈ fr, IsMinWalk M M.start_cell q (np + 1) := by
    intro q hq
    obtain ⟨hadj, hopq, hv0, _⟩ := hfr q hq
    have hopMq : cellOpen M q = true := by rw [← hW q]; exact hopq
    refine ⟨walk_snoc hminp.1 hadj hopMq, ?_⟩
    intro j hwj
    obtain ⟨z, hzq, jz, t, hminz, hjt, hwt⟩ := hCOV q j hopMq hv0 hwj
    have ht0 : t ≠ 0 := by
      intro ht0
      subst ht0
      have hzq' := walk_zero hwt
      have hzv := hQ0 z hzq
      rw [hzq'] at hzv
      exact hzv hv0
    have hzge := hheadle z hzq
    obtain ⟨_, jz2, hminz2, hvz⟩ := hA z (hQ0 z hzq)
    have hjz2 : jz2 = jz := isMinWalk_unique hminz2 hminz
    subst hjz2
    rw [hvaleq, hvz] at hzge
    omega
  have hstlen : (bfsExpand m cell rest).2.length = rest.length + fr.length := by
    rw [hq2, List.length_append]
  have hbounds : ∀ z ∈ (bfsExpand m cell rest).2,
      (np : Int) + 1 ≤ cell_value (bfsExpand m cell rest).1 z.1 z.2 ∧
      cell_value (bfsExpand m cell rest).1 z.1 z.2 ≤ (np : Int) + 2 := by
    intro z hz
    rw [hq2] at hz
    rcases List.mem_append.mp hz with hz | hz
    · have hzv := hQ0 z (List.mem_cons_of_mem _ hz)
      rw [hkeep z hzv]
      constructor
      · have := hheadle z (List.mem_cons_of_mem _ hz)
        rw [hvaleq] at this
        omega
      · have := hQb cell (List.mem_cons_self _ _) z (List.mem_cons_of_mem _ hz)
        rw [hvaleq] at this
        omega
    · rw [hfreshval z hz]
      omega
  refine ⟨⟨sameFrame_trans hF hframe, ?_, ?_, ?_, ?_, ?_, ?_, ?_, ?_, ?_, ?_⟩, ?_⟩
  · intro q
    rw [hopeq q, hW q]
  · intro p hpst
    by_cases hpfr : p ∈ fr
    · obtain ⟨hadj, hopq, hv0, _⟩ := hfr p hpfr
      refine ⟨by rw [← hW p]; exact hopq, np + 1, hfreshmin p hpfr, ?_⟩
      rw [hfreshval p hpfr]
      push_cast
      ring
    · have hpm : cell_value m p.1 p.2 ≠ 0 := by
        rw [← hoth p hpfr]
        exact hpst
      obtain ⟨hop, j, hmin, hv⟩ := hA p hpm
      exact ⟨hop, j, hmin, by rw [hoth p hpfr]; exact hv⟩
  · intro p hp
    rw [hq2] at hp
    rcases List.mem_append.mp hp with hp | hp
    · have := hQ0 p (List.mem_cons_of_mem _ hp)
      rw [hkeep p this]
      exact this
    · rw [hfreshval p hp]
      omega
  · rw [hq2]
    rw [List.pairwise_append]
    refine ⟨?_, ?_, ?_⟩
    · refine pairwise_congr_mem rest ?_ (List.pairwise_cons.mp hQs).2
      intro a ha b hb hab
      rw [hkeep a (hQ0 a (List.mem_cons_of_mem _ ha)),
        hkeep b (hQ0 b (List.mem_cons_of_mem _ hb))]
      exact hab
    · refine pairwise_of_mem_rel fr ?_
      intro a ha b hb
      rw [hfreshval a ha, hfreshval b hb]
    · intro a ha b hb
      have h1 := (hbounds a (by rw [hq2]; exact List.mem_append_left _ ha)).2
      rw [hfreshval b hb]
      omega
  · intro p hp q hq
    have h1 := (hbounds p hp).1
    have h2 := (hbounds q hq).2
    omega
  · intro p hpst
    by_cases hpfr : p ∈ fr
    · left
      rw [hq2]
      exact List.mem_append_right _ hpfr
    · have hpm : cell_value m p.1 p.2 ≠ 0 := by
        rw [← hoth p hpfr]
        exact hpst
      rcases hFR p hpm with hpq | hnb
      · rcases List.mem_cons.mp hpq with heq | hpr
        · subst heq
          right
          intro q hadj hopq
          by_cases hqm : cell_value m q.1 q.2 = 0
          · have hqfr : q ∈ fr := hall q hadj (by rw [hW q]; exact hopq) hqm
            rw [hfreshval q hqfr]
            omega
          · rw [hkeep q hqm]
            exact hqm
        · left
          rw [hq2]
          exact List.mem_append_left _ hpr
      · right
        intro q hadj hopq
        have := hnb q hadj hopq
        rw [hkeep q this]
        exact this
  · intro q n hopq hq0st hwn
    have hqfr : q ∉ fr := by
      intro hc
      rw [hfreshval q hc] at hq0st
      omega
    have hq0m : cell_value m q.1 q.2 = 0 := by
      rw [← hoth q hqfr]
      exact hq0st
    obtain ⟨z, hzq, jz, t, hminz, hjt, hwt⟩ := hCOV q n hopq hq0m hwn
    rcases List.mem_cons.mp hzq with heq | hzr
    · subst heq
      have hjznp : jz = np := isMinWalk_unique hminz hminp
      subst hjznp
      have hPq : ¬cell_value m q.1 q.2 ≠ 0 := by
        rw [hq0m]
        simp
      obtain ⟨x, y, t1, t2, hw1, hxy, hopy, hw2, hts, hPx, hnPy⟩ :=
        walk_crossing (P := fun x => cell_value m x.1 x.2 ≠ 0) hwt hvcell hPq
      have hy0 : cell_value m y.1 y.2 = 0 := not_ne_iff.mp hnPy
      rcases hFR x hPx with hxq | hnb
      · rcases List.mem_cons.mp hxq with hxe | hxr
        · subst hxe
          have hyfr : y ∈ fr := hall y hxy (by rw [hW y]; exact hopy) hy0
          refine ⟨y, by rw [hq2]; exact List.mem_append_right _ hyfr,
            jz + 1, t2, hfreshmin y hyfr, by omega, hw2⟩
        · obtain ⟨hopMx, jx, hminx, hvx⟩ := hA x hPx
          have hjxle : jx ≤ jz + t1 := hminx.2 _ (walk_append hminp.1 hw1)
          refine ⟨x, by rw [hq2]; exact List.mem_append_left _ hxr,
            jx, t2 + 1, hminx, by omega, ?_⟩
          exact Walk.cons x y q t2 hopMx hxy hw2
      · exact absurd (hnb y hxy hopy) hnPy
    · exact ⟨z, by rw [hq2]; exact List.mem_append_left _ hzr, jz, t, hminz,
        hjt, hwt⟩
  · have hs0 : cell_value m M.start_cell.1 M.start_cell.2 ≠ 0 := by
      rw [hS]
      omega
    rw [hkeep M.start_cell hs0]
    exact hS
  · rcases hE with hE0 | hEq
    · by_cases hefr : M.end_cell ∈ fr
      · right
        rw [hq2]
        exact List.mem_append_right _ hefr
      · left
        rw [hoth M.end_cell hefr]
        exact hE0
    · rcases List.mem_cons.mp hEq with hec | her
      · exact absurd hec.symm hnotend
      · right
        rw [hq2]
        exact List.mem_append_left _ her
  · intro p hpst
    by_cases hpfr : p ∈ fr
    · right
      refine ⟨cell, (hfr p hpfr).1, ?_, ?_⟩
      · rw [hkeep cell hvcell]
        exact hvcell
      · rw [hkeep cell hvcell, hfreshval p hpfr, hvaleq]
        ring
    · have hpm : cell_value m p.1 p.2 ≠ 0 := by
        rw [← hoth p hpfr]
        exact hpst
      rcases hPAR p hpm with hps | ⟨q, hadj, hqv, heq⟩
      · left
        exact hps
      · right
        refine ⟨q, hadj, ?_, ?_⟩
        · rw [hkeep q hqv]
          exact hqv
        · rw [hkeep q hqv, hoth p hpfr]
          exact heq
  · rw [hstlen]
    simp only [List.length_cons]
    omega

theorem cellOpen_mod_type_pres {m : Maze} {r c : Int} (f : Cell → Cell)
    (hf : ∀ cl, (f cl).type = cl.type) (q : Int × Int) :
    cellOpen (maze_mod_cell m r c f) q = cellOpen m q := by
  by_cases hq : q = (r, c)
  · subst hq
    cases hget : maze_get_cell m r c with
    | none => rw [maze_mod_cell_miss f hget]
    | some cl =>
      have h1 := maze_mod_cell_get_self f hget
      unfold cellOpen cell_is_wall
      simp only
      rw [h1, hget]
      show (!decide ((f cl).type = CellType.wall)) = !decide (cl.type = CellType.wall)
      rw [hf cl]
  · unfold cellOpen cell_is_wall
    rw [maze_mod_cell_get_other f hq]

/-- What the BFS loop guarantees about the board at its normal exit:
frame and walls preserved, every valued cell open and valued exactly one
above its shortest-walk distance, start valued 1, and every valued cell
other than start has a valued neighbour exactly one below. -/
def BfsPost (M m : Maze) : Prop :=
  SameFrame M m ∧
  (∀ q : Int × Int, cellOpen m q = cellOpen M q) ∧
  (∀ p : Int × Int, cell_value m p.1 p.2 ≠ 0 →
    cellOpen M p = true ∧
    ∃ n : Nat, IsMinWalk M M.start_cell p n ∧ cell_value m p.1 p.2 = (n : Int) + 1) ∧
  cell_value m M.start_cell.1 M.start_cell.2 = 1 ∧
  (∀ p : Int × Int, cell_value m p.1 p.2 ≠ 0 → p = M.start_cell ∨
    ∃ q : Int × Int, adjacent q p ∧ cell_value m q.1 q.2 ≠ 0 ∧
      cell_value m q.1 q.2 = cell_value m p.1 p.2 - 1)

theorem bfsInv_init (M : Maze) (hz : ∀ r c : Int, cell_value M r c = 0)
    (hs : cellOpen M M.start_cell = true) :
    BfsInv M (maze_mod_cell M M.start_cell.1 M.start_cell.2
      (fun cl => { cl with value := 1 })) [M.start_cell] := by
  obtain ⟨cl0, hget0, _⟩ := (cellOpen_iff M M.start_cell).mp hs
  have hvs : cell_value (maze_mod_cell M M.start_cell.1 M.start_cell.2
      (fun cl => { cl with value := 1 })) M.start_cell.1 M.start_cell.2 = 1 :=
    cell_value_eq_of_get (maze_mod_cell_get_self _ hget0)
  have hvoth : ∀ p : Int × Int, p ≠ M.start_cell →
      cell_value (maze_mod_cell M M.start_cell.1 M.start_cell.2
        (fun cl => { cl with value := 1 })) p.1 p.2 = 0 := by
    intro p hp
    rw [cell_value_mod_other _ hp]
    exact hz p.1 p.2
  have hassigned : ∀ p : Int × Int,
      cell_value (maze_mod_cell M M.start_cell.1 M.start_cell.2
        (fun cl => { cl with value := 1 })) p.1 p.2 ≠ 0 → p = M.start_cell := by
    intro p hp
    by_contra hne
    exact hp (hvoth p hne)
  have hWp : ∀ q : Int × Int, cellOpen (maze_mod_cell M M.start_cell.1 M.start_cell.2
      (fun cl => { cl with value := 1 })) q = cellOpen M q :=
    cellOpen_mod_type_pres _ (fun cl => rfl)
  refine ⟨maze_mod_cell_frame _ _ _ _, hWp, ?_, ?_, ?_, ?_, ?_, ?_, hvs, ?_, ?_⟩
  · intro p hp
    have hps := hassigned p hp
    subst hps
    exact ⟨hs, 0, isMinWalk_self hs, by rw [hvs]; omega⟩
  · intro p hp
    rw [List.mem_singleton.mp hp]
    rw [hvs]
    omega
  · exact List.pairwise_singleton _ _
  · intro p hp q hq
    rw [List.mem_singleton.mp hp, List.mem_singleton.mp hq]
    omega
  · intro p hp
    left
    rw [List.mem_singleton]
    exact hassigned p hp
  · intro q n hopq hq0 hwn
    exact ⟨M.start_cell, List.mem_singleton_self _, 0, n, isMinWalk_self hs,
      by omega, hwn⟩
  · by_cases hes : M.end_cell = M.start_cell
    · right
      rw [List.mem_singleton]
      exact hes
    · left
      exact hvoth M.end_cell hes
  · intro p hp
    left
    exact hassigned p hp

theorem bfs_loop_done (M : Maze) :
    ∀ fuel k : Nat, ∀ m : Maze, ∀ queue : List (Int × Int),
      BfsInv M m queue →
      queue.length + 2 * zeroCount m < fuel →
      (∃ nr, Walk M M.start_cell M.end_cell nr) →
      ∃ (m' : Maze) (k' n : Nat),
        bfs_loop neverCancel fuel k m queue = LoopOut.done m' k' ∧
        BfsPost M m' ∧ IsMinWalk M M.start_cell M.end_cell n ∧
        cell_value m' M.end_cell.1 M.end_cell.2 = (n : Int) + 1 := by
  intro fuel
  induction fuel with
  | zero =>
    intro k m queue _ hmeas _
    omega
  | succ fuel ih =>
    intro k m queue hinv hmeas hreach
    obtain ⟨hF, hW, hA, hQ0, hQs, hQb, hFR, hCOV, hS, hE, hPAR⟩ := hinv
    cases queue with
    | nil =>
      exfalso
      obtain ⟨nr, hwr⟩ := hreach
      have hopE : cellOpen M M.end_cell = true := walk_dst_open hwr
      have hE0 : cell_value m M.end_cell.1 M.end_cell.2 = 0 := by
        rcases hE with h | h
        · exact h
        · exact absurd h (List.not_mem_nil _)
      obtain ⟨z, hz, _⟩ := hCOV M.end_cell nr hopE hE0 hwr
      exact List.not_mem_nil z hz
    | cons cell rest =>
      rw [bfs_loop_succ]
      rw [if_neg (by simp [neverCancel])]
      by_cases hend : cell = m.end_cell
      · rw [if_pos hend]
        have hcellM : cell = M.end_cell := by rw [hend, hF.2.2.2.1]
        have hv := hQ0 cell (List.mem_cons_self _ _)
        obtain ⟨hop, n, hmin, hvn⟩ := hA cell hv
        exact ⟨m, k, n, rfl, ⟨hF, hW, hA, hS, hPAR⟩, hcellM ▸ hmin, hcellM ▸ hvn⟩
      · rw [if_neg hend]
        have hnotendM : cell ≠ M.end_cell := by
          rw [← hF.2.2.2.1]
          exact hend
        obtain ⟨hinv', hmeas'⟩ := bfsInv_step M m cell rest
          ⟨hF, hW, hA, hQ0, hQs, hQb, hFR, hCOV, hS, hE, hPAR⟩ hnotendM
        refine ih (k + 1) _ _ hinv' ?_ hreach
        simp only [List.length_cons] at hmeas hmeas'
        omega

/-- One neighbour scan step of maze_set_solution_path, named for
reasoning about the fold inside solPathPick. -/
def solStep (m : Maze) (row col : Int) (acc : Int × (Int × Int)) (d : Int × Int) :
    Int × (Int × Int) :=
  match maze_get_cell m (row + d.1) (col + d.2) with
  | none => acc
  | some n_cell =>
    if n_cell.type = CellType.wall then acc
    else if n_cell.value ≠ 0 ∧ n_cell.value < acc.1 then
      (n_cell.value, (row + d.1, col + d.2))
    else acc

theorem solPathPick_eq (m : Maze) (row col v : Int) :
    solPathPick m row col v =
      (solPathOffs.foldl (solStep m row col) (v, (row, col))).2 := rfl

theorem solPathOffs_mem_iff (d : Int × Int) :
    d ∈ solPathOffs ↔ d ∈ neighboursNESW := by
  constructor
  · intro h
    fin_cases h <;> simp [neighboursNESW]
  · intro h
    fin_cases h <;> simp [solPathOffs]

/-- Accumulator invariant of the solPathPick fold when every valued
neighbour sits at value at least v - 1: the accumulator is the initial
pair or holds a neighbour of exact value v - 1. -/
def PickAcc (m : Maze) (row col v : Int) (acc : Int × (Int × Int)) : Prop :=
  acc = (v, (row, col)) ∨
  (acc.1 = v - 1 ∧ adjacent (row, col) acc.2 ∧
    cell_value m acc.2.1 acc.2.2 = v - 1)

theorem solStep_acc {m : Maze} {row col v : Int} {acc : Int × (Int × Int)}
    {d : Int × Int} (hd : d ∈ neighboursNESW)
    (h1 : ∀ q : Int × Int, adjacent (row, col) q → cell_value m q.1 q.2 ≠ 0 →
      v - 1 ≤ cell_value m q.1 q.2)
    (hacc : PickAcc m row col v acc) :
    PickAcc m row col v (solStep m row col acc d) := by
  unfold solStep
  cases hget : maze_get_cell m (row + d.1) (col + d.2) with
  | none => exact hacc
  | some ncl =>
    show PickAcc m row col v
      (if ncl.type = CellType.wall then acc
       else if ncl.value ≠ 0 ∧ ncl.value < acc.1 then
         (ncl.value, (row + d.1, col + d.2))
       else acc)
    by_cases hw : ncl.type = CellType.wall
    · rw [if_pos hw]; exact hacc
    · rw [if_neg hw]
      by_cases hcond : ncl.value ≠ 0 ∧ ncl.value < acc.1
      · rw [if_pos hcond]
        have hadj : adjacent (row, col) (row + d.1, col + d.2) := ⟨d, hd, rfl⟩
        have hv := h1 (row + d.1, col + d.2) hadj
          (by rw [cell_value_eq_of_get hget]; exact hcond.1)
        rw [cell_value_eq_of_get hget] at hv
        rcases hacc with heq | ⟨ha1, _, _⟩
        · right
          have : acc.1 = v := by rw [heq]
          rw [this] at hcond
          refine ⟨show ncl.value = v - 1 by omega, hadj, ?_⟩
          show cell_value m (row + d.1) (col + d.2) = v - 1
          rw [cell_value_eq_of_get hget]
          omega
        · rw [ha1] at hcond
          omega
      · rw [if_neg hcond]
        exact hacc

/-- Absorbing accumulator state: a neighbour of exact value v - 1 has
been selected and no later offset can displace it. -/
def RightAcc (m : Maze) (row col v : Int) (acc : Int × (Int × Int)) : Prop :=
  acc.1 = v - 1 ∧ adjacent (row, col) acc.2 ∧ cell_value m acc.2.1 acc.2.2 = v - 1

theorem solStep_right {m : Maze} {row col v : Int} {acc : Int × (Int × Int)}
    {d : Int × Int}
    (h1 : ∀ q : Int × Int, adjacent (row, col) q → cell_value m q.1 q.2 ≠ 0 →
      v - 1 ≤ cell_value m q.1 q.2)
    (hd : d ∈ neighboursNESW)
    (hacc : RightAcc m row col v acc) :
    RightAcc m row col v (solStep m row col acc d) := by
  unfold solStep
  cases hget : maze_get_cell m (row + d.1) (col + d.2) with
  | none => exact hacc
  | some ncl =>
    show RightAcc m row col v
      (if ncl.type = CellType.wall then acc
       else if ncl.value ≠ 0 ∧ ncl.value < acc.1 then
         (ncl.value, (row + d.1, col + d.2))
       else acc)
    by_cases hw : ncl.type = CellType.wall
    · rw [if_pos hw]; exact hacc
    · rw [if_neg hw]
      rw [if_neg ?hc]
      · exact hacc
      · intro hcond
        have hadj : adjacent (row, col) (row + d.1, col + d.2) := ⟨d, hd, rfl⟩
        have hv := h1 (row + d.1, col + d.2) hadj
          (by rw [cell_value_eq_of_get hget]; exact hcond.1)
        rw [cell_value_eq_of_get hget] at hv
        rw [hacc.1] at hcond
        omega

theorem solStep_enter {m : Maze} {row col v : Int} {acc : Int × (Int × Int)}
    {d : Int × Int} (hd : d ∈ neighboursNESW)
    (h1 : ∀ q : Int × Int, adjacent (row, col) q → cell_value m q.1 q.2 ≠ 0 →
      v - 1 ≤ cell_value m q.1 q.2)
    (hopen : cellOpen m (row + d.1, col + d.2) = true)
    (hval : cell_value m (row + d.1) (col + d.2) = v - 1)
    (hv2 : 2 ≤ v)
    (hacc : PickAcc m row col v acc) :
    RightAcc m row col v (solStep m row col acc d) := by
  rcases hacc with heq | hright
  · subst heq
    obtain ⟨cl0, hget, hnw⟩ := (cellOpen_iff m (row + d.1, col + d.2)).mp hopen
    have hget' : maze_get_cell m (row + d.1) (col + d.2) = some cl0 := hget
    have hcl0 : cl0.value = v - 1 := by
      rw [cell_value_eq_of_get hget'] at hval
      exact hval
    unfold solStep
    rw [hget']
    show RightAcc m row col v
      (if cl0.type = CellType.wall then ((v, (row, col)) : Int × (Int × Int))
       else if cl0.value ≠ 0 ∧ cl0.value < (v, (row, col)).1 then
         (cl0.value, (row + d.1, col + d.2))
       else (v, (row, col)))
    rw [if_neg hnw, if_pos (show cl0.value ≠ 0 ∧ cl0.value < v by omega)]
    exact ⟨show cl0.value = v - 1 by omega, ⟨d, hd, rfl⟩,
      show cell_value m (row + d.1) (col + d.2) = v - 1 by
        rw [cell_value_eq_of_get hget']
        omega⟩
  · exact solStep_right h1 hd hright

theorem solFold_acc {m : Maze} {row col v : Int}
    (h1 : ∀ q : Int × Int, adjacent (row, col) q → cell_value m q.1 q.2 ≠ 0 →
      v - 1 ≤ cell_value m q.1 q.2) :
    ∀ l : List (Int × Int), (∀ d ∈ l, d ∈ neighboursNESW) →
    ∀ acc, PickAcc m row col v acc →
      PickAcc m row col v (l.foldl (solStep m row col) acc) := by
  intro l
  induction l with
  | nil => intro _ acc hacc; exact hacc
  | cons d rest ih =>
    intro hsub acc hacc
    exact ih (fun d0 hd0 => hsub d0 (List.mem_cons_of_mem _ hd0)) _
      (solStep_acc (hsub d (List.mem_cons_self _ _)) h1 hacc)

theorem solFold_right {m : Maze} {row col v : Int}
    (h1 : ∀ q : Int × Int, adjacent (row, col) q → cell_value m q.1 q.2 ≠ 0 →
      v - 1 ≤ cell_value m q.1 q.2) :
    ∀ l : List (Int × Int), (∀ d ∈ l, d ∈ neighboursNESW) →
    ∀ acc, RightAcc m row col v acc →
      RightAcc m row col v (l.foldl (solStep m row col) acc) := by
  intro l
  induction l with
  | nil => intro _ acc hacc; exact hacc
  | cons d rest ih =>
    intro hsub acc hacc
    exact ih (fun d0 hd0 => hsub d0 (List.mem_cons_of_mem _ hd0)) _
      (solStep_right h1 (hsub d (List.mem_cons_self _ _)) hacc)

theorem solPathPick_spec {m : Maze} {row col : Int} {v : Int}
    (h1 : ∀ q : Int × Int, adjacent (row, col) q → cell_value m q.1 q.2 ≠ 0 →
      v - 1 ≤ cell_value m q.1 q.2)
    (hex : ∃ q : Int × Int, adjacent (row, col) q ∧ cellOpen m q = true ∧
      cell_value m q.1 q.2 = v - 1)
    (hv2 : 2 ≤ v) :
    adjacent (row, col) (solPathPick m row col v) ∧
      cell_value m (solPathPick m row col v).1 (solPathPick m row col v).2 = v - 1 := by
  obtain ⟨q, ⟨d0, hd0, hqd⟩, hopen, hval⟩ := hex
  obtain ⟨l1, l2, hsplit⟩ := List.append_of_mem ((solPathOffs_mem_iff d0).mpr hd0)
  have hsub : ∀ d ∈ solPathOffs, d ∈ neighboursNESW :=
    fun d hd => (solPathOffs_mem_iff d).mp hd
  have hacc1 : PickAcc m row col v
      (l1.foldl (solStep m row col) (v, (row, col))) :=
    solFold_acc h1 l1 (fun d hd => hsub d (by rw [hsplit]; exact List.mem_append_left _ hd))
      _ (Or.inl rfl)
  have hq2 : q = (row + d0.1, col + d0.2) := hqd
  have hopen' : cellOpen m (row + d0.1, col + d0.2) = true := by
    rw [← hq2]
    exact hopen
  have hval' : cell_value m (row + d0.1) (col + d0.2) = v - 1 := by
    rw [hq2] at hval
    exact hval
  have hacc2 : RightAcc m row col v
      (solStep m row col (l1.foldl (solStep m row col) (v, (row, col))) d0) :=
    solStep_enter hd0 h1 hopen' hval' hv2 hacc1
  have hfin : RightAcc m row col v
      (solPathOffs.foldl (solStep m row col) (v, (row, col))) := by
    rw [hsplit, List.foldl_append, List.foldl_cons]
    exact solFold_right h1 l2
      (fun d hd => hsub d (by rw [hsplit]; exact List.mem_append_right _ (List.mem_cons_of_mem _ hd)))
      _ hacc2
  rw [solPathPick_eq]
  exact ⟨hfin.2.1, hfin.2.2⟩

theorem maze_mod_cell_path_len (m : Maze) (r c : Int) (f : Cell → Cell) :
    (maze_mod_cell m r c f).path_len = m.path_len := by
  unfold maze_mod_cell
  split
  · rfl
  · split <;> rfl

theorem sol_path_loop_ok (M m0 : Maze) (hpost : BfsPost M m0) :
    ∀ v fuel k : Nat, ∀ mc : Maze, ∀ p : Int × Int,
      (∀ q : Int × Int, cell_value mc q.1 q.2 = cell_value m0 q.1 q.2) →
      (∀ q : Int × Int, cellOpen mc q = cellOpen m0 q) →
      mc.start_cell = M.start_cell →
      cell_value m0 p.1 p.2 = (v : Int) + 1 →
      v + 1 ≤ fuel →
      ∃ m' : Maze, sol_path_loop neverCancel fuel k mc p = some m' ∧
        m'.path_len = mc.path_len + (v : Int) := by
  obtain ⟨hF0, hW0, hA0, hS0, hPAR0⟩ := hpost
  intro v
  induction v with
  | zero =>
    intro fuel k mc p hV hO hs hval hfuel
    obtain ⟨_, n0, hmin0, hveq0⟩ := hA0 p (by rw [hval]; omega)
    have hn0 : n0 = 0 := by omega
    subst hn0
    have hps : p = M.start_cell := (isMinWalk_zero hmin0).symm
    cases fuel with
    | zero => omega
    | succ f =>
      have hX : sol_path_loop neverCancel (f + 1) k mc p =
          some (maze_mod_cell
            (maze_mod_cell mc mc.start_cell.1 mc.start_cell.2
              (fun cl => { cl with type := CellType.startCell }))
            (maze_mod_cell mc mc.start_cell.1 mc.start_cell.2
              (fun cl => { cl with type := CellType.startCell })).end_cell.1
            (maze_mod_cell mc mc.start_cell.1 mc.start_cell.2
              (fun cl => { cl with type := CellType.startCell })).end_cell.2
            (fun cl => { cl with type := CellType.endCell })) := by
        simp only [sol_path_loop]
        rw [if_pos (show p = mc.start_cell by rw [hs]; exact hps)]
      refine ⟨_, hX, ?_⟩
      rw [maze_mod_cell_path_len, maze_mod_cell_path_len]
      omega
  | succ v ih =>
    intro fuel k mc p hV hO hs hval hfuel
    have hvne : cell_value m0 p.1 p.2 ≠ 0 := by rw [hval]; omega
    obtain ⟨hopMp, npp, hminp, hveqp⟩ := hA0 p hvne
    have hnpp : npp = v + 1 := by omega
    subst hnpp
    have hpns : p ≠ M.start_cell := by
      intro he
      rw [he] at hval
      rw [hS0] at hval
      omega
    cases fuel with
    | zero => omega
    | succ f =>
      have hcond : ¬(p = mc.start_cell) := by rw [hs]; exact hpns
      have hopmc : cellOpen mc p = true := by
        rw [hO p, hW0 p]
        exact hopMp
      set m2 : Maze := maze_mod_cell { mc with path_len := mc.path_len + 1 } p.1 p.2
        (fun cl => { cl with type := CellType.pathSolution }) with hm2
      have hV2 : ∀ q : Int × Int, cell_value m2 q.1 q.2 = cell_value m0 q.1 q.2 := by
        intro q
        rw [hm2]
        exact (cell_value_mod (m := { mc with path_len := mc.path_len + 1 })
          (r := p.1) (c := p.2)
          (fun cl => { cl with type := CellType.pathSolution })
          (fun cl => rfl)).trans (hV q)
      have hopmc1 : cellOpen { mc with path_len := mc.path_len + 1 }
          (p.1, p.2) = true := hopmc
      have hO2 : ∀ q : Int × Int, cellOpen m2 q = cellOpen m0 q := by
        intro q
        rw [hm2]
        exact (cellOpen_mod (fun cl => { cl with type := CellType.pathSolution })
          hopmc1 (fun cl => by simp) q).trans (hO q)
      have hs2 : m2.start_cell = M.start_cell := by
        rw [hm2, maze_mod_cell_start]
        exact hs
      have hvalp2 : cell_value m2 p.1 p.2 = ((v + 1 : Nat) : Int) + 1 := by
        rw [hV2 p]
        exact hval
      have h1 : ∀ q : Int × Int, adjacent (p.1, p.2) q →
          cell_value m2 q.1 q.2 ≠ 0 →
          ((v + 1 : Nat) : Int) + 1 - 1 ≤ cell_value m2 q.1 q.2 := by
        intro q hadj hq
        rw [hV2 q] at hq ⊢
        obtain ⟨hopMq, nq, hminq, hveqq⟩ := hA0 q hq
        have hle : v + 1 ≤ nq + 1 :=
          hminp.2 _ (walk_snoc hminq.1 (adjacent_symm hadj) hopMp)
        omega
      have hex : ∃ q : Int × Int, adjacent (p.1, p.2) q ∧
          cellOpen m2 q = true ∧
          cell_value m2 q.1 q.2 = ((v + 1 : Nat) : Int) + 1 - 1 := by
        rcases hPAR0 p hvne with hps | ⟨q, hadj, hqv, heq⟩
        · exact absurd hps hpns
        · refine ⟨q, adjacent_symm hadj, ?_, ?_⟩
          · rw [hO2 q, hW0 q]
            exact (hA0 q hqv).1
          · rw [hV2 q, heq, hval]
      have hspec := solPathPick_spec h1 hex (by omega)
      rw [← hvalp2] at hspec
      have h3 := (hV2 (solPathPick m2 p.1 p.2 (cell_value m2 p.1 p.2))).symm.trans
        hspec.2
      have hvalnext : cell_value m0
          (solPathPick m2 p.1 p.2 (cell_value m2 p.1 p.2)).1
          (solPathPick m2 p.1 p.2 (cell_value m2 p.1 p.2)).2 = (v : Int) + 1 := by
        rw [h3, hvalp2]
        push_cast
        ring
      obtain ⟨m', hm', hlen⟩ := ih f (k + 1) m2
        (solPathPick m2 p.1 p.2 (cell_value m2 p.1 p.2)) hV2 hO2 hs2 hvalnext
        (by omega)
      refine ⟨m', ?_, ?_⟩
      · show sol_path_loop neverCancel (f + 1) k mc p = some m'
        simp only [sol_path_loop]
        rw [if_neg hcond, if_neg (by simp [neverCancel])]
        rw [← hm2]
        exact hm'
      · rw [hlen, hm2, maze_mod_cell_path_len]
        push_cast
        ring

theorem maze_solve_bfs_ok (M : Maze) (n : Nat)
    (hz : ∀ r c : Int, cell_value M r c = 0)
    (hs : cellOpen M M.start_cell = true)
    (hmin : IsMinWalk M M.start_cell M.end_cell n) :
    ∀ fuel pfuel : Nat, 2 * zeroCount M + 2 ≤ fuel → n + 2 ≤ pfuel →
      ∃ mB : Maze, maze_solve_bfs neverCancel fuel pfuel M = SolveRes.ok mB ∧
        mB.path_len = (n : Int) + 1 := by
  intro fuel pfuel hfuel hpfuel
  obtain ⟨cl0, hget0, _⟩ := (cellOpen_iff M M.start_cell).mp hs
  have hzc0 : zeroCount (maze_mod_cell M M.start_cell.1 M.start_cell.2
      (fun cl => { cl with value := 1 })) + 1 = zeroCount M := by
    refine zeroCount_mod_assign _ hget0 ?_ (by simp)
    have := hz M.start_cell.1 M.start_cell.2
    rw [cell_value_eq_of_get hget0] at this
    exact this
  have hmeas : ([M.start_cell] : List (Int × Int)).length +
      2 * zeroCount (maze_mod_cell M M.start_cell.1 M.start_cell.2
        (fun cl => { cl with value := 1 })) < fuel := by
    simp only [List.length_singleton]
    omega
  obtain ⟨m', k', n', hrun, hpost, hmin', hv'⟩ :=
    bfs_loop_done M fuel 0 _ _ (bfsInv_init M hz hs) hmeas ⟨n, hmin.1⟩
  have hn' : n' = n := isMinWalk_unique hmin' hmin
  rw [hn'] at hv'
  have hend' : m'.end_cell = M.end_cell := hpost.1.2.2.2.1
  have hstart' : m'.start_cell = M.start_cell := hpost.1.2.2.1
  have hvend : cell_value m' m'.end_cell.1 m'.end_cell.2 = (n : Int) + 1 := by
    rw [hend']
    exact hv'
  obtain ⟨mfin, hrun2, hplen⟩ := sol_path_loop_ok M m' hpost n pfuel k'
    { m' with path_len := 1 } m'.end_cell (fun q => rfl) (fun q => rfl)
    hstart' hvend (by omega)
  have hsp : maze_set_solution_path neverCancel pfuel k' m' = some mfin := by
    unfold maze_set_solution_path
    exact hrun2
  refine ⟨mfin, ?_, ?_⟩
  · show maze_solve_bfs neverCancel fuel pfuel M = SolveRes.ok mfin
    simp only [maze_solve_bfs]
    rw [maze_mod_cell_start, hrun]
    show (match maze_set_solution_path neverCancel pfuel k' m' with
      | some m2 => SolveRes.ok m2
      | none => SolveRes.fuelOut) = SolveRes.ok mfin
    rw [hsp]
  · rw [hplen]
    show (1 : Int) + (n : Int) = (n : Int) + 1
    ring

/-- Number of cells on the parent chain of an A* list cell. -/
def ACell.chainlen : ACell → Nat
  | .root _ _ _ _ => 1
  | .child _ _ _ _ p => p.chainlen + 1

/-- Coordinates along the parent chain, current cell first, root last. -/
def ACell.chainCoords : ACell → List (Int × Int)
  | .root r c _ _ => [(r, c)]
  | .child r c _ _ p => (r, c) :: p.chainCoords

/-- Strict ancestors of an A* list cell, parent first. -/
def ACell.ancestors : ACell → List ACell
  | .root _ _ _ _ => []
  | .child _ _ _ _ p => p :: p.ancestors

/-- A well-formed A* search cell over the initial maze M: the chain
starts at start_cell with value 1 and the seeded heuristic, every child
sits on an open cell adjacent to its parent with value one more, and its
heuristic is its value plus the Manhattan distance to end_cell. -/
def GoodCell (M : Maze) : ACell → Prop
  | .root r c v h => (r, c) = M.start_cell ∧ v = 1 ∧
      h = cell_distance M.start_cell M.end_cell ∧ cellOpen M (r, c) = true
  | .child r c v h p => GoodCell M p ∧ adjacent (p.row, p.col) (r, c) ∧
      v = p.value + 1 ∧ h = v + cell_distance (r, c) M.end_cell ∧
      cellOpen M (r, c) = true

theorem goodCell_value_chainlen {M : Maze} : ∀ {a : ACell}, GoodCell M a →
    a.value = (a.chainlen : Int) := by
  intro a
  induction a with
  | root r c v h => intro hg; simp [ACell.chainlen, ACell.value, hg.2.1]
  | child r c v h p ih =>
    intro hg
    simp only [ACell.chainlen, ACell.value]
    rw [hg.2.2.1, ih hg.1]
    push_cast
    ring

theorem goodCell_open {M : Maze} : ∀ {a : ACell}, GoodCell M a →
    cellOpen M (a.row, a.col) = true := by
  intro a
  cases a with
  | root r c v h => exact fun hg => hg.2.2.2
  | child r c v h p => exact fun hg => hg.2.2.2.2

theorem goodCell_value_pos {M : Maze} : ∀ {a : ACell}, GoodCell M a →
    1 ≤ a.value := by
  intro a
  induction a with
  | root r c v h => intro hg; simp [ACell.value, hg.2.1]
  | child r c v h p ih =>
    intro hg
    simp only [ACell.value]
    rw [hg.2.2.1]
    have := ih hg.1
    omega

theorem goodCell_walk {M : Maze} : ∀ {a : ACell}, GoodCell M a →
    ∃ t : Nat, (t : Int) + 1 = a.value ∧
      Walk M M.start_cell (a.row, a.col) t := by
  intro a
  induction a with
  | root r c v h =>
    intro hg
    refine ⟨0, by simp [ACell.value, hg.2.1], ?_⟩
    have : ((r, c) : Int × Int) = M.start_cell := hg.1
    rw [show ((ACell.root r c v h).row, (ACell.root r c v h).col) = ((r, c) : Int × Int) from rfl, this]
    exact Walk.nil _ (by rw [← this]; exact hg.2.2.2)
  | child r c v h p ih =>
    intro hg
    obtain ⟨t, ht, hw⟩ := ih hg.1
    refine ⟨t + 1, ?_, ?_⟩
    · simp only [ACell.value]
      rw [hg.2.2.1, ← ht]
      push_cast
      ring
    · exact walk_snoc hw hg.2.1 hg.2.2.2.2

theorem chainCoords_eq {a : ACell} :
    a.chainCoords = (a.row, a.col) :: a.ancestors.map (fun b => (b.row, b.col)) := by
  induction a with
  | root r c v h => rfl
  | child r c v h p ih =>
    simp only [ACell.chainCoords, ACell.ancestors, List.map_cons]
    rw [ih]
    rfl

theorem chainCoords_length {a : ACell} : a.chainCoords.length = a.chainlen := by
  induction a with
  | root r c v h => rfl
  | child r c v h p ih =>
    simp only [ACell.chainCoords, ACell.chainlen, List.length_cons, ih]


theorem nodup_nat_bound {N : Nat} : ∀ l : List Nat, l.Nodup →
    (∀ x ∈ l, x < N) → l.length ≤ N := by
  intro l hnd hin
  have h1 : l.toFinset.card = l.length := List.toFinset_card_of_nodup hnd
  have h2 : l.toFinset ⊆ Finset.range N := by
    intro x hx
    rw [Finset.mem_range]
    exact hin x (List.mem_toFinset.mp hx)
  have := Finset.card_le_card h2
  rw [h1, Finset.card_range] at this
  exact this

/-- A list of distinct in-range coordinates of an R by C grid has at most
(R * C).toNat elements. -/
theorem nodup_coords_bound {R C : Int} :
    ∀ l : List (Int × Int), l.Nodup →
    (∀ p ∈ l, 0 ≤ p.1 ∧ p.1 < R ∧ 0 ≤ p.2 ∧ p.2 < C) →
    l.length ≤ (R * C).toNat := by
  intro l hnd hin
  have hmap : (l.map (fun p => (p.1 * C + p.2).toNat)).Nodup := by
    refine List.Nodup.map_on ?_ hnd
    intro p hp q hq he
    obtain ⟨hp1, hp2, hp3, hp4⟩ := hin p hp
    obtain ⟨hq1, hq2, hq3, hq4⟩ := hin q hq
    have := board_index_inj hp1 hp3 hp4 hq1 hq3 hq4 he
    exact Prod.ext this.1 this.2
  have hlt : ∀ x ∈ l.map (fun p => (p.1 * C + p.2).toNat), x < (R * C).toNat := by
    intro x hx
    obtain ⟨p, hp, rfl⟩ := List.mem_map.mp hx
    obtain ⟨hp1, hp2, hp3, hp4⟩ := hin p hp
    have hc : 0 < C := lt_of_le_of_lt hp3 hp4
    have h1 : p.1 * C + p.2 < R * C := by
      have h2 : p.1 * C + C ≤ R * C := by
        have : (p.1 + 1) * C ≤ R * C :=
          mul_le_mul_of_nonneg_right (by omega) (le_of_lt hc)
        nlinarith
      omega
    have h0 : 0 ≤ p.1 * C := mul_nonneg hp1 (le_of_lt hc)
    omega
  have := nodup_nat_bound _ hmap hlt
  rw [List.length_map] at this
  exact this

theorem cellOpen_bounds {M : Maze} {p : Int × Int} (h : cellOpen M p = true) :
    0 ≤ p.1 ∧ p.1 < M.num_rows ∧ 0 ≤ p.2 ∧ p.2 < M.num_cols := by
  obtain ⟨cl, hget, _⟩ := (cellOpen_iff M p).mp h
  exact maze_get_cell_some_bounds hget

theorem goodCell_coords_open {M : Maze} : ∀ {a : ACell}, GoodCell M a →
    ∀ p ∈ a.chainCoords, cellOpen M p = true := by
  intro a
  induction a with
  | root r c v h =>
    intro hg p hp
    rw [List.mem_singleton.mp hp]
    exact hg.2.2.2
  | child r c v h q ih =>
    intro hg p hp
    rcases List.mem_cons.mp hp with heq | hp
    · rw [heq]
      exact hg.2.2.2.2
    · exact ih hg.1 p hp

theorem goodCell_value_bound {M : Maze} {a : ACell} (hg : GoodCell M a)
    (hnd : a.chainCoords.Nodup) :
    a.value ≤ (((M.num_rows * M.num_cols).toNat : Nat) : Int) := by
  have hlen : a.chainCoords.length ≤ (M.num_rows * M.num_cols).toNat := by
    refine nodup_coords_bound a.chainCoords hnd ?_
    intro p hp
    exact cellOpen_bounds (goodCell_coords_open hg p hp)
  rw [goodCell_value_chainlen hg, ← chainCoords_length]
  exact_mod_cast hlen

/-- Exponential potential of the A* open list: each entry weighs five to
the power of the value headroom, so replacing a popped entry by at most
four children of value one higher strictly shrinks it. -/
def aMeasure (B : Nat) (l : List ACell) : Nat :=
  (l.map (fun a => 5 ^ (B + 2 - a.value.toNat))).sum

theorem aMeasure_insert (B : Nat) (x : ACell) :
    ∀ l : List ACell, aMeasure B (insert_by_heuristic x l) =
      5 ^ (B + 2 - x.value.toNat) + aMeasure B l := by
  intro l
  induction l with
  | nil => rfl
  | cons e rest ih =>
    unfold insert_by_heuristic
    split
    · rfl
    · unfold aMeasure at ih ⊢
      simp only [List.map_cons, List.sum_cons, ih]
      ring

theorem goodCell_heur_le {M : Maze} : ∀ {a : ACell}, GoodCell M a →
    a.heuristic ≤ a.value + cell_distance (a.row, a.col) M.end_cell := by
  intro a
  cases a with
  | root r c v h =>
    intro hg
    simp only [ACell.heuristic, ACell.value, ACell.row, ACell.col]
    rw [hg.2.2.1, hg.2.1]
    have hrc : ((r, c) : Int × Int) = M.start_cell := hg.1
    rw [hrc]
    have := cell_distance_nonneg M.start_cell M.end_cell
    omega
  | child r c v h p =>
    intro hg
    simp only [ACell.heuristic, ACell.value, ACell.row, ACell.col]
    rw [hg.2.2.2.1]

/-- Invariant of the A* main loop over the initial maze M. -/
def AInv (M m : Maze) (openL closedL : List ACell) : Prop :=
  SameFrame M m ∧
  (∀ q : Int × Int, cellOpen m q = cellOpen M q) ∧
  (∀ a ∈ openL, GoodCell M a) ∧
  (∀ a ∈ closedL, GoodCell M a) ∧
  openL.Pairwise (fun a b => a.heuristic ≤ b.heuristic) ∧
  (∀ a ∈ openL ++ closedL, a.chainCoords.Nodup) ∧
  (∀ a ∈ openL ++ closedL, ∀ b ∈ a.ancestors,
    closed_has_cell closedL b.row b.col = true) ∧
  closed_has_cell closedL M.end_cell.1 M.end_cell.2 = false ∧
  (∀ q : Int × Int, ∀ n : Nat, cellOpen M q = true →
    closed_has_cell closedL q.1 q.2 = false → Walk M M.start_cell q n →
    ∃ b ∈ openL, ∃ t : Nat, Walk M (b.row, b.col) q t ∧
      b.value + (t : Int) ≤ (n : Int) + 1) ∧
  (∀ p : Int × Int, closed_has_cell closedL p.1 p.2 = true →
    ∀ np : Nat, IsMinWalk M M.start_cell p np →
    ∀ y : Int × Int, adjacent p y → cellOpen M y = true →
    closed_has_cell closedL y.1 y.2 = true ∨
      ∃ o ∈ openL, ((o.row, o.col) : Int × Int) = y ∧ o.value ≤ (np : Int) + 2)

theorem closed_has_cell_iff (l : List ACell) (r c : Int) :
    closed_has_cell l r c = true ↔ ∃ e ∈ l, e.row = r ∧ e.col = c := by
  unfold closed_has_cell
  rw [List.any_eq_true]
  constructor
  · rintro ⟨e, he, hp⟩
    simp only [Bool.and_eq_true, beq_iff_eq] at hp
    exact ⟨e, he, hp.1, hp.2⟩
  · rintro ⟨e, he, h1, h2⟩
    refine ⟨e, he, ?_⟩
    simp only [Bool.and_eq_true, beq_iff_eq]
    exact ⟨h1, h2⟩

/-- A* pop optimality: when the head of the sorted open list is not yet
closed, its value is exactly one more than its shortest-walk distance. -/
theorem a_star_pop_opt {M m : Maze} {a : ACell} {rest closedL : List ACell}
    (hinv : AInv M m (a :: rest) closedL)
    (hfresh : closed_has_cell closedL a.row a.col = false)
    {na : Nat} (hmin : IsMinWalk M M.start_cell (a.row, a.col) na) :
    a.value = (na : Int) + 1 := by
  obtain ⟨hF, hW, hGO, hGC, hSORT, hND, hANC, hEC, hCOV, hNBR⟩ := hinv
  have hga : GoodCell M a := hGO a (List.mem_cons_self _ _)
  obtain ⟨ta, hta, hwa⟩ := goodCell_walk hga
  have hge : (na : Int) + 1 ≤ a.value := by
    have := hmin.2 ta hwa
    omega
  have hopa : cellOpen M (a.row, a.col) = true := goodCell_open hga
  obtain ⟨b, hb, t, hwb, hbv⟩ := hCOV (a.row, a.col) na hopa hfresh hmin.1
  have hgb : GoodCell M b := hGO b hb
  have hhead : a.heuristic ≤ b.heuristic := by
    rcases List.mem_cons.mp hb with heq | hb
    · rw [heq]
    · exact (List.pairwise_cons.mp hSORT).1 b hb
  have hmanh : cell_distance (b.row, b.col) (a.row, a.col) ≤ (t : Int) :=
    walk_manhattan_le hwb
  have htri := cell_distance_triangle (b.row, b.col) (a.row, a.col) M.end_cell
  have hble := goodCell_heur_le hgb
  cases a with
  | root r c v h =>
    have hv1 : v = 1 := hga.2.1
    rw [ACell.value_root] at hge ⊢
    omega
  | child r c v h p =>
    have hh : h = v + cell_distance (r, c) M.end_cell := hga.2.2.2.1
    rw [ACell.value_child] at hge ⊢
    rw [ACell.heuristic_child] at hhead
    rw [ACell.row_child, ACell.col_child] at hmanh htri
    omega

/-- Relation between the state before and after folding the A* neighbour
expansion of the popped cell cur over a list of offsets. -/
def AFoldRel (M : Maze) (cur : ACell) (closed2 : List ACell) (B : Nat)
    (offs : List (Int × Int)) (acc st : Maze × List ACell) : Prop :=
  (∀ q : Int × Int, cellOpen st.1 q = cellOpen acc.1 q) ∧
  SameFrame acc.1 st.1 ∧
  (∀ o ∈ acc.2, o ∈ st.2) ∧
  (∀ o ∈ st.2, o ∈ acc.2 ∨ ∃ d ∈ offs,
    o = ACell.child (cur.row + d.1) (cur.col + d.2) (cur.value + 1)
      (cur.value + 1 + cell_distance (cur.row + d.1, cur.col + d.2) M.end_cell) cur ∧
    cellOpen M (cur.row + d.1, cur.col + d.2) = true ∧
    closed_has_cell closed2 (cur.row + d.1) (cur.col + d.2) = false) ∧
  (∀ d ∈ offs, cellOpen M (cur.row + d.1, cur.col + d.2) = true →
    closed_has_cell closed2 (cur.row + d.1) (cur.col + d.2) = false →
    ∃ o ∈ st.2, ((o.row, o.col) : Int × Int) = (cur.row + d.1, cur.col + d.2) ∧
      o.value ≤ cur.value + 1) ∧
  (acc.2.Pairwise (fun a b => a.heuristic ≤ b.heuristic) →
    st.2.Pairwise (fun a b => a.heuristic ≤ b.heuristic)) ∧
  aMeasure B st.2 ≤ aMeasure B acc.2 + offs.length * 5 ^ (B + 1 - cur.value.toNat)

theorem aStep_rel (M : Maze) (cur : ACell) (closed2 : List ACell) (B : Nat)
    (d : Int × Int) (acc : Maze × List ACell)
    (hW : ∀ q : Int × Int, cellOpen acc.1 q = cellOpen M q)
    (hF : SameFrame M acc.1) (hv : 1 ≤ cur.value) :
    AFoldRel M cur closed2 B [d] acc (a_star_neighbour cur d closed2 acc) := by
  unfold a_star_neighbour
  by_cases h1 : cur.row + d.1 < 0 ∨ cur.row + d.1 ≥ acc.1.num_rows ∨
      cur.col + d.2 < 0 ∨ cur.col + d.2 ≥ acc.1.num_cols
  · rw [if_pos h1]
    refine ⟨fun q => rfl, sameFrame_refl _, fun o ho => ho, fun o ho => Or.inl ho,
      ?_, fun hs => hs, by simp⟩
    intro d0 hd0 hop _
    rw [List.mem_singleton.mp hd0] at hop
    obtain ⟨hb1, hb2, hb3, hb4⟩ := cellOpen_bounds hop
    rw [hF.1, hF.2.1] at h1
    simp only at hb1 hb2 hb3 hb4
    omega
  · rw [if_neg h1]
    by_cases h2 : cell_is_wall acc.1 (cur.row + d.1) (cur.col + d.2) = true
    · rw [if_pos h2]
      refine ⟨fun q => rfl, sameFrame_refl _, fun o ho => ho, fun o ho => Or.inl ho,
        ?_, fun hs => hs, by simp⟩
      intro d0 hd0 hop _
      rw [List.mem_singleton.mp hd0] at hop
      rw [← hW (cur.row + d.1, cur.col + d.2)] at hop
      unfold cellOpen at hop
      rw [h2] at hop
      simp at hop
    · rw [if_neg h2]
      by_cases h3 : closed_has_cell closed2 (cur.row + d.1) (cur.col + d.2) = true
      · rw [if_pos h3]
        refine ⟨fun q => rfl, sameFrame_refl _, fun o ho => ho, fun o ho => Or.inl ho,
          ?_, fun hs => hs, by simp⟩
        intro d0 hd0 _ hcl
        rw [List.mem_singleton.mp hd0] at hcl
        rw [h3] at hcl
        exact absurd hcl (by simp)
      · rw [if_neg h3]
        have hopen : cellOpen M (cur.row + d.1, cur.col + d.2) = true := by
          rw [← hW (cur.row + d.1, cur.col + d.2)]
          show (!cell_is_wall acc.1 (cur.row + d.1) (cur.col + d.2)) = true
          have hfw : cell_is_wall acc.1 (cur.row + d.1) (cur.col + d.2) = false := by
            simpa using h2
          rw [hfw]
          rfl
        have hclosed : closed_has_cell closed2 (cur.row + d.1) (cur.col + d.2) = false := by
          simpa using h3
        have hendeq : acc.1.end_cell = M.end_cell := hF.2.2.2.1
        by_cases h4 : open_has_lower_value acc.2
            (ACell.child (cur.row + d.1) (cur.col + d.2) (cur.value + 1)
              (cur.value + 1 + cell_distance (cur.row + d.1, cur.col + d.2)
                acc.1.end_cell) cur) = true
        · rw [if_pos h4]
          obtain ⟨e, he, her, hec, hev⟩ := (open_has_lower_value_iff _ _).mp h4
          rw [ACell.row_child] at her
          rw [ACell.col_child] at hec
          rw [ACell.value_child] at hev
          refine ⟨fun q => rfl, sameFrame_refl _, fun o ho => ho, fun o ho => Or.inl ho,
            ?_, fun hs => hs, by simp⟩
          intro d0 hd0 _ _
          rw [List.mem_singleton.mp hd0]
          exact ⟨e, he, by rw [her, hec], by omega⟩
        · rw [if_neg h4]
          refine ⟨?_, ?_, ?_, ?_, ?_, ?_, ?_⟩
          · intro q
            simp only
            refine cellOpen_mod _ ?_ (fun cl => by simp) q
            rw [hW (cur.row + d.1, cur.col + d.2)]
            exact hopen
          · exact maze_mod_cell_frame _ _ _ _
          · intro o ho
            simp only
            rw [insert_by_heuristic_mem]
            exact Or.inr ho
          · intro o ho
            simp only at ho
            rw [insert_by_heuristic_mem] at ho
            rcases ho with heq | ho
            · right
              refine ⟨d, List.mem_singleton_self _, ?_, hopen, hclosed⟩
              rw [heq, hendeq]
            · exact Or.inl ho
          · intro d0 hd0 _ _
            rw [List.mem_singleton.mp hd0]
            refine ⟨ACell.child (cur.row + d.1) (cur.col + d.2) (cur.value + 1)
              (cur.value + 1 + cell_distance (cur.row + d.1, cur.col + d.2)
                acc.1.end_cell) cur, ?_, ?_, ?_⟩
            · simp only
              rw [insert_by_heuristic_mem]
              exact Or.inl rfl
            · rw [ACell.row_child, ACell.col_child]
            · rw [ACell.value_child]
          · intro hs
            simp only
            exact insert_by_heuristic_sorted _ _ hs
          · simp only
            rw [aMeasure_insert]
            have hwt : 5 ^ (B + 2 - (ACell.child (cur.row + d.1) (cur.col + d.2)
                (cur.value + 1) (cur.value + 1 + cell_distance
                  (cur.row + d.1, cur.col + d.2) acc.1.end_cell) cur).value.toNat) =
                5 ^ (B + 1 - cur.value.toNat) := by
              rw [ACell.value_child]
              congr 1
              omega
            rw [hwt]
            simp only [List.length_singleton]
            omega

theorem aFoldRel_trans {M : Maze} {cur : ACell} {closed2 : List ACell} {B : Nat}
    {l1 l2 : List (Int × Int)} {a b c : Maze × List ACell}
    (h1 : AFoldRel M cur closed2 B l1 a b) (h2 : AFoldRel M cur closed2 B l2 b c) :
    AFoldRel M cur closed2 B (l1 ++ l2) a c := by
  obtain ⟨hw1, hf1, hp1, hn1, hc1, hs1, hm1⟩ := h1
  obtain ⟨hw2, hf2, hp2, hn2, hc2, hs2, hm2⟩ := h2
  refine ⟨fun q => (hw2 q).trans (hw1 q), sameFrame_trans hf1 hf2,
    fun o ho => hp2 o (hp1 o ho), ?_, ?_, fun hs => hs2 (hs1 hs), ?_⟩
  · intro o ho
    rcases hn2 o ho with ho2 | ⟨d, hd, hrest⟩
    · rcases hn1 o ho2 with ho1 | ⟨d, hd, hrest⟩
      · exact Or.inl ho1
      · exact Or.inr ⟨d, List.mem_append_left _ hd, hrest⟩
    · exact Or.inr ⟨d, List.mem_append_right _ hd, hrest⟩
  · intro d hd hop hcl
    rcases List.mem_append.mp hd with hd | hd
    · obtain ⟨o, ho, hoc, hov⟩ := hc1 d hd hop hcl
      exact ⟨o, hp2 o ho, hoc, hov⟩
    · exact hc2 d hd hop hcl
  · rw [List.length_append]
    calc aMeasure B c.2 ≤ aMeasure B b.2 + l2.length * 5 ^ (B + 1 - cur.value.toNat) := hm2
    _ ≤ aMeasure B a.2 + l1.length * 5 ^ (B + 1 - cur.value.toNat) +
        l2.length * 5 ^ (B + 1 - cur.value.toNat) := by omega
    _ = aMeasure B a.2 + (l1.length + l2.length) * 5 ^ (B + 1 - cur.value.toNat) := by
        ring

theorem aFold_rel (M : Maze) (cur : ACell) (closed2 : List ACell) (B : Nat)
    (hv : 1 ≤ cur.value) :
    ∀ offs : List (Int × Int), ∀ acc : Maze × List ACell,
      (∀ q : Int × Int, cellOpen acc.1 q = cellOpen M q) →
      SameFrame M acc.1 →
      AFoldRel M cur closed2 B offs acc
        (offs.foldl (fun st d => a_star_neighbour cur d closed2 st) acc) := by
  intro offs
  induction offs with
  | nil =>
    intro acc _ _
    exact ⟨fun q => rfl, sameFrame_refl _, fun o ho => ho, fun o ho => Or.inl ho,
      fun d hd => absurd hd (List.not_mem_nil d), fun hs => hs, by simp⟩
  | cons d rest ih =>
    intro acc hW hF
    have h1 := aStep_rel M cur closed2 B d acc hW hF hv
    have hW' : ∀ q : Int × Int,
        cellOpen (a_star_neighbour cur d closed2 acc).1 q = cellOpen M q :=
      fun q => (h1.1 q).trans (hW q)
    have hF' : SameFrame M (a_star_neighbour cur d closed2 acc).1 :=
      sameFrame_trans hF h1.2.1
    have h2 := ih (a_star_neighbour cur d closed2 acc) hW' hF'
    have := aFoldRel_trans h1 h2
    simpa using this

theorem a_star_loop_succ (c : Nat → Bool) (fuel k : Nat) (m : Maze) (cur : ACell)
    (cell : ACell) (rest closedL : List ACell) :
    a_star_loop c (fuel + 1) k m cur (cell :: rest) closedL =
      if c k then .cancelled m
      else if cell.row = (maze_mod_cell m cell.row cell.col
          (fun cl => { cl with type := CellType.pathVisited })).end_cell.1 ∧
          cell.col = (maze_mod_cell m cell.row cell.col
            (fun cl => { cl with type := CellType.pathVisited })).end_cell.2 then
        .done (maze_mod_cell m cell.row cell.col
          (fun cl => { cl with type := CellType.pathVisited })) cell k
      else
        a_star_loop c fuel (k + 1)
          (neighboursNESW.foldl
            (fun st d => a_star_neighbour cell d (cell :: closedL) st)
            (maze_mod_cell m cell.row cell.col
              (fun cl => { cl with type := CellType.pathVisited }), rest)).1
          cell
          (neighboursNESW.foldl
            (fun st d => a_star_neighbour cell d (cell :: closedL) st)
            (maze_mod_cell m cell.row cell.col
              (fun cl => { cl with type := CellType.pathVisited }), rest)).2
          (cell :: closedL) := rfl

theorem closed_has_cell_cons (x : ACell) (l : List ACell) (r c : Int) :
    closed_has_cell (x :: l) r c =
      ((x.row == r && x.col == c) || closed_has_cell l r c) := rfl

theorem closed_has_cell_cons_of {l : List ACell} {r c : Int} (x : ACell)
    (h : closed_has_cell l r c = true) :
    closed_has_cell (x :: l) r c = true := by
  rw [closed_has_cell_cons, h, Bool.or_true]

theorem closed_has_cell_head (x : ACell) (l : List ACell) :
    closed_has_cell (x :: l) x.row x.col = true := by
  rw [closed_has_cell_cons]
  simp

theorem closed_has_cell_cons_elim {x : ACell} {l : List ACell} {r c : Int}
    (h : closed_has_cell (x :: l) r c = true)
    (hl : closed_has_cell l r c = false) : x.row = r ∧ x.col = c := by
  rw [closed_has_cell_cons, hl, Bool.or_false] at h
  simpa using h

theorem closed_has_cell_cons_false {x : ACell} {l : List ACell} {r c : Int}
    (hx : ¬(x.row = r ∧ x.col = c)) (hl : closed_has_cell l r c = false) :
    closed_has_cell (x :: l) r c = false := by
  rw [closed_has_cell_cons, hl, Bool.or_false]
  simp only [Bool.and_eq_false_iff]
  rcases not_and_or.mp hx with h | h
  · left; simpa using h
  · right; simpa using h

theorem aInv_step (M m : Maze) (cell : ACell) (rest closedL : List ACell) (B : Nat)
    (hB : (M.num_rows * M.num_cols).toNat ≤ B)
    (hinv : AInv M m (cell :: rest) closedL)
    (hnotend : ((cell.row, cell.col) : Int × Int) ≠ M.end_cell) :
    AInv M
      (neighboursNESW.foldl (fun st d => a_star_neighbour cell d (cell :: closedL) st)
        (maze_mod_cell m cell.row cell.col
          (fun cl => { cl with type := CellType.pathVisited }), rest)).1
      (neighboursNESW.foldl (fun st d => a_star_neighbour cell d (cell :: closedL) st)
        (maze_mod_cell m cell.row cell.col
          (fun cl => { cl with type := CellType.pathVisited }), rest)).2
      (cell :: closedL) ∧
    aMeasure B
      (neighboursNESW.foldl (fun st d => a_star_neighbour cell d (cell :: closedL) st)
        (maze_mod_cell m cell.row cell.col
          (fun cl => { cl with type := CellType.pathVisited }), rest)).2 <
      aMeasure B (cell :: rest) := by
  have hinv' := hinv
  obtain ⟨hF, hW, hGO, hGC, hSORT, hND, hANC, hEC, hCOV, hNBR⟩ := hinv'
  have hgcell : GoodCell M cell := hGO cell (List.mem_cons_self _ _)
  have hv1 : 1 ≤ cell.value := goodCell_value_pos hgcell
  have hopenc : cellOpen M (cell.row, cell.col) = true := goodCell_open hgcell
  obtain ⟨tc, htc, hwc⟩ := goodCell_walk hgcell
  have hndcell : cell.chainCoords.Nodup :=
    hND cell (List.mem_append_left _ (List.mem_cons_self _ _))
  have hopm : cellOpen m (cell.row, cell.col) = true := by
    rw [hW]
    exact hopenc
  have hW1 : ∀ q : Int × Int, cellOpen (maze_mod_cell m cell.row cell.col
      (fun cl => { cl with type := CellType.pathVisited })) q = cellOpen M q :=
    fun q => (cellOpen_mod (fun cl => { cl with type := CellType.pathVisited })
      hopm (fun cl => by simp) q).trans (hW q)
  have hF1 : SameFrame M (maze_mod_cell m cell.row cell.col
      (fun cl => { cl with type := CellType.pathVisited })) :=
    sameFrame_trans hF (maze_mod_cell_frame _ _ _ _)
  obtain ⟨hw, hf, hpers, hprov, hcov4, hsortp, hmeasb⟩ :=
    aFold_rel M cell (cell :: closedL) B hv1 neighboursNESW
      (maze_mod_cell m cell.row cell.col
        (fun cl => { cl with type := CellType.pathVisited }), rest) hW1 hF1
  have hchainclosed : ∀ p ∈ cell.chainCoords,
      closed_has_cell (cell :: closedL) p.1 p.2 = true := by
    intro p hp
    rw [chainCoords_eq] at hp
    rcases List.mem_cons.mp hp with heq | hp
    · rw [heq]
      exact closed_has_cell_head cell closedL
    · obtain ⟨b, hb, rfl⟩ := List.mem_map.mp hp
      exact closed_has_cell_cons_of cell
        (hANC cell (List.mem_append_left _ (List.mem_cons_self _ _)) b hb)
  have hclassify : ∀ o ∈ (neighboursNESW.foldl
      (fun st d => a_star_neighbour cell d (cell :: closedL) st)
      (maze_mod_cell m cell.row cell.col
        (fun cl => { cl with type := CellType.pathVisited }), rest)).2,
      o ∈ rest ∨ (GoodCell M o ∧ o.chainCoords.Nodup ∧
        (∀ b ∈ o.ancestors, closed_has_cell (cell :: closedL) b.row b.col = true) ∧
        o.value = cell.value + 1) := by
    intro o ho
    rcases hprov o ho with ho' | ⟨d, hd, hoeq, hop, hcl⟩
    · exact Or.inl ho'
    · right
      subst hoeq
      refine ⟨⟨hgcell, ⟨d, hd, rfl⟩, rfl, rfl, hop⟩, ?_, ?_, rfl⟩
      · simp only [ACell.chainCoords]
        rw [List.nodup_cons]
        refine ⟨?_, hndcell⟩
        intro hmem
        have h2 : closed_has_cell (cell :: closedL) (cell.row + d.1) (cell.col + d.2)
            = true := hchainclosed _ hmem
        rw [hcl] at h2
        simp at h2
      · intro b hb
        simp only [ACell.ancestors] at hb
        rcases List.mem_cons.mp hb with heq | hb
        · rw [heq]
          exact closed_has_cell_head cell closedL
        · exact closed_has_cell_cons_of cell
            (hANC cell (List.mem_append_left _ (List.mem_cons_self _ _)) b hb)
  refine ⟨⟨sameFrame_trans hF1 hf, fun q => (hw q).trans (hW1 q), ?_, ?_, ?_, ?_, ?_,
    ?_, ?_, ?_⟩, ?_⟩
  · -- open entries good
    intro a ha
    rcases hclassify a ha with ha' | hnew
    · exact hGO a (List.mem_cons_of_mem _ ha')
    · exact hnew.1
  · -- closed entries good
    intro a ha
    rcases List.mem_cons.mp ha with heq | ha
    · rw [heq]; exact hgcell
    · exact hGC a ha
  · -- sortedness
    exact hsortp (List.pairwise_cons.mp hSORT).2
  · -- chain coords nodup
    intro a ha
    rcases List.mem_append.mp ha with ha | ha
    · rcases hclassify a ha with ha' | hnew
      · exact hND a (List.mem_append_left _ (List.mem_cons_of_mem _ ha'))
      · exact hnew.2.1
    · rcases List.mem_cons.mp ha with heq | ha
      · rw [heq]; exact hndcell
      · exact hND a (List.mem_append_right _ ha)
  · -- ancestors closed
    intro a ha
    rcases List.mem_append.mp ha with ha | ha
    · rcases hclassify a ha with ha' | hnew
      · intro b hb
        exact closed_has_cell_cons_of cell
          (hANC a (List.mem_append_left _ (List.mem_cons_of_mem _ ha')) b hb)
      · exact hnew.2.2.1
    · rcases List.mem_cons.mp ha with heq | ha
      · intro b hb
        rw [heq] at hb
        exact closed_has_cell_cons_of cell
          (hANC cell (List.mem_append_left _ (List.mem_cons_self _ _)) b hb)
      · intro b hb
        exact closed_has_cell_cons_of cell
          (hANC a (List.mem_append_right _ ha) b hb)
  · -- end not closed
    refine closed_has_cell_cons_false ?_ hEC
    intro hcon
    exact hnotend (Prod.ext hcon.1 hcon.2)
  · -- cover
    intro q n hopq hq2 hwn
    have hq2L : closed_has_cell closedL q.1 q.2 = false := by
      rw [closed_has_cell_cons] at hq2
      exact (Bool.or_eq_false_iff.mp hq2).2
    obtain ⟨b, hb, t, hwb, hbv⟩ := hCOV q n hopq hq2L hwn
    rcases List.mem_cons.mp hb with heq | hbr
    · rw [heq] at hwb hbv
      have hqne : ((cell.row, cell.col) : Int × Int) ≠ q := by
        intro hcon
        have hhd : closed_has_cell (cell :: closedL) q.1 q.2 = true := by
          rw [← hcon]
          exact closed_has_cell_head cell closedL
        rw [hq2] at hhd
        simp at hhd
      cases t with
      | zero => exact absurd (walk_zero hwb) hqne
      | succ t2 =>
        have hnPq : ¬closed_has_cell (cell :: closedL) q.1 q.2 = true := by
          rw [hq2]
          simp
        obtain ⟨x, y, t1, ty, hwx, hxy, hopy, hwy, hts, hPx, hnPy⟩ :=
          walk_crossing
            (P := fun z => closed_has_cell (cell :: closedL) z.1 z.2 = true)
            hwb (closed_has_cell_head cell closedL) hnPq
        have hy2 : closed_has_cell (cell :: closedL) y.1 y.2 = false := by
          simpa using hnPy
        by_cases hxL : closed_has_cell closedL x.1 x.2 = true
        · obtain ⟨nx, hminx⟩ := exists_minWalk (walk_append hwc hwx)
          have hnxle : nx ≤ tc + t1 := hminx.2 _ (walk_append hwc hwx)
          rcases hNBR x hxL nx hminx y hxy hopy with hycl | ⟨o, ho, hoc, hov⟩
          · exfalso
            have hcon := closed_has_cell_cons_of cell hycl
            rw [hy2] at hcon
            simp at hcon
          · have hor : o ∈ rest := by
              rcases List.mem_cons.mp ho with heqo | h
              · exfalso
                have hyc : y = (cell.row, cell.col) := by
                  rw [← hoc, heqo]
                have hhd : closed_has_cell (cell :: closedL) y.1 y.2 = true := by
                  rw [hyc]
                  exact closed_has_cell_head cell closedL
                rw [hy2] at hhd
                simp at hhd
              · exact h
            refine ⟨o, hpers o hor, ty, ?_, ?_⟩
            · rw [hoc]
              exact hwy
            · omega
        · have hxc : cell.row = x.1 ∧ cell.col = x.2 :=
            closed_has_cell_cons_elim hPx (by simpa using hxL)
          have hxeq : ((cell.row, cell.col) : Int × Int) = x :=
            Prod.ext hxc.1 hxc.2
          obtain ⟨d, hd, hyd⟩ : adjacent (cell.row, cell.col) y := by
            rw [hxeq]
            exact hxy
          have hyd' : y = (cell.row + d.1, cell.col + d.2) := hyd
          obtain ⟨o, ho, hoc, hov⟩ := hcov4 d hd
            (by rw [← hyd']; exact hopy)
            (by
              have h := hy2
              rw [hyd'] at h
              simpa using h)
          refine ⟨o, ho, ty, ?_, ?_⟩
          · have hoy : ((o.row, o.col) : Int × Int) = y := by rw [hoc, ← hyd']
            rw [hoy]
            exact hwy
          · omega
    · exact ⟨b, hpers b hbr, t, hwb, hbv⟩
  · -- neighbour coverage of closed cells
    intro p hp np hminp y hadj hopy
    by_cases hpL : closed_has_cell closedL p.1 p.2 = true
    · rcases hNBR p hpL np hminp y hadj hopy with hycl | ⟨o, ho, hoc, hov⟩
      · exact Or.inl (closed_has_cell_cons_of cell hycl)
      · rcases List.mem_cons.mp ho with heqo | hor
        · left
          have hyc : y = (cell.row, cell.col) := by
            rw [← hoc, heqo]
          rw [hyc]
          exact closed_has_cell_head cell closedL
        · exact Or.inr ⟨o, hpers o hor, hoc, hov⟩
    · have hpc : cell.row = p.1 ∧ cell.col = p.2 :=
        closed_has_cell_cons_elim hp (by simpa using hpL)
      have hpeq : ((cell.row, cell.col) : Int × Int) = p := Prod.ext hpc.1 hpc.2
      have hfreshc : closed_has_cell closedL cell.row cell.col = false := by
        rw [hpc.1, hpc.2]
        simpa using hpL
      rw [← hpeq] at hminp
      have hvopt : cell.value = (np : Int) + 1 := a_star_pop_opt hinv hfreshc hminp
      by_cases hy2 : closed_has_cell (cell :: closedL) y.1 y.2 = true
      · exact Or.inl hy2
      · right
        obtain ⟨d, hd, hyd⟩ : adjacent (cell.row, cell.col) y := by
          rw [hpeq]
          exact hadj
        have hyd' : y = (cell.row + d.1, cell.col + d.2) := hyd
        obtain ⟨o, ho, hoc, hov⟩ := hcov4 d hd
          (by rw [← hyd']; exact hopy)
          (by
            have h := hy2
            rw [hyd'] at h
            simpa using h)
        refine ⟨o, ho, ?_, ?_⟩
        · rw [hoc, ← hyd']
        · omega
  · -- measure decreases
    have hvb := goodCell_value_bound hgcell hndcell
    have hcvB : cell.value.toNat ≤ B := by omega
    have hmb : aMeasure B (neighboursNESW.foldl
        (fun st d => a_star_neighbour cell d (cell :: closedL) st)
        (maze_mod_cell m cell.row cell.col
          (fun cl => { cl with type := CellType.pathVisited }), rest)).2 ≤
        aMeasure B rest + 4 * 5 ^ (B + 1 - cell.value.toNat) := by
      simpa using hmeasb
    have hsplit : aMeasure B (cell :: rest) =
        5 ^ (B + 2 - cell.value.toNat) + aMeasure B rest := by
      simp [aMeasure]
    have hexp : B + 2 - cell.value.toNat = (B + 1 - cell.value.toNat) + 1 := by
      omega
    have hpow : 0 < 5 ^ (B + 1 - cell.value.toNat) := Nat.pos_pow_of_pos _ (by omega)
    rw [hsplit, hexp, pow_succ]
    omega

theorem aInv_init (M : Maze) (hs : cellOpen M M.start_cell = true) :
    AInv M M [ACell.root M.start_cell.1 M.start_cell.2 1
      (cell_distance M.start_cell M.end_cell)] [] := by
  refine ⟨sameFrame_refl M, fun q => rfl, ?_, ?_, ?_, ?_, ?_, rfl, ?_, ?_⟩
  · intro a ha
    rw [List.mem_singleton.mp ha]
    exact ⟨rfl, rfl, rfl, hs⟩
  · intro a ha
    exact absurd ha (List.not_mem_nil a)
  · exact List.pairwise_singleton _ _
  · intro a ha
    rw [List.append_nil] at ha
    rw [List.mem_singleton.mp ha]
    simp [ACell.chainCoords]
  · intro a ha
    rw [List.append_nil] at ha
    rw [List.mem_singleton.mp ha]
    intro b hb
    exact absurd hb (List.not_mem_nil b)
  · intro q nq hopq _ hwq
    refine ⟨ACell.root M.start_cell.1 M.start_cell.2 1
      (cell_distance M.start_cell M.end_cell), List.mem_singleton_self _, nq, ?_, ?_⟩
    · exact hwq
    · rw [ACell.value_root]
      omega
  · intro p hp
    simp [closed_has_cell] at hp

theorem a_star_loop_done (M : Maze) (B : Nat)
    (hB : (M.num_rows * M.num_cols).toNat ≤ B) :
    ∀ fuel k : Nat, ∀ m : Maze, ∀ cur : ACell, ∀ openL closedL : List ACell,
      AInv M m openL closedL →
      aMeasure B openL < fuel →
      (∃ nr, Walk M M.start_cell M.end_cell nr) →
      ∃ (m' : Maze) (fin : ACell) (k' n : Nat),
        a_star_loop neverCancel fuel k m cur openL closedL = .done m' fin k' ∧
        IsMinWalk M M.start_cell M.end_cell n ∧
        ((fin.row, fin.col) : Int × Int) = M.end_cell ∧
        fin.value = (n : Int) + 1 ∧ GoodCell M fin := by
  intro fuel
  induction fuel with
  | zero =>
    intro k m cur openL closedL _ hmeas _
    omega
  | succ fuel ih =>
    intro k m cur openL closedL hinv hmeas hreach
    cases openL with
    | nil =>
      exfalso
      obtain ⟨nr, hwr⟩ := hreach
      have hopE : cellOpen M M.end_cell = true := walk_dst_open hwr
      obtain ⟨b, hb, _⟩ := hinv.2.2.2.2.2.2.2.2.1 M.end_cell nr hopE
        hinv.2.2.2.2.2.2.2.1 hwr
      exact List.not_mem_nil b hb
    | cons cell rest =>
      rw [a_star_loop_succ]
      rw [if_neg (by simp [neverCancel])]
      have hend_eq : (maze_mod_cell m cell.row cell.col
          (fun cl => { cl with type := CellType.pathVisited })).end_cell =
          M.end_cell := by
        rw [maze_mod_cell_end]
        exact hinv.1.2.2.2.1
      by_cases hend : cell.row = M.end_cell.1 ∧ cell.col = M.end_cell.2
      · rw [if_pos (by rw [hend_eq]; exact hend)]
        obtain ⟨nr, hwr⟩ := hreach
        obtain ⟨ne, hminE⟩ := exists_minWalk hwr
        have hcoords : ((cell.row, cell.col) : Int × Int) = M.end_cell :=
          Prod.ext hend.1 hend.2
        have hfreshc : closed_has_cell closedL cell.row cell.col = false := by
          rw [hend.1, hend.2]
          exact hinv.2.2.2.2.2.2.2.1
        have hminc : IsMinWalk M M.start_cell (cell.row, cell.col) ne := by
          rw [hcoords]
          exact hminE
        have hvopt : cell.value = (ne : Int) + 1 :=
          a_star_pop_opt hinv hfreshc hminc
        exact ⟨_, cell, k, ne, rfl, hminE, hcoords, hvopt,
          hinv.2.2.1 cell (List.mem_cons_self _ _)⟩
      · rw [if_neg (by rw [hend_eq]; exact hend)]
        have hnotend : ((cell.row, cell.col) : Int × Int) ≠ M.end_cell := by
          intro hcon
          exact hend ⟨congrArg Prod.fst hcon, congrArg Prod.snd hcon⟩
        obtain ⟨hinv2, hmeas2⟩ := aInv_step M m cell rest closedL B hB hinv hnotend
        exact ih (k + 1) _ cell _ _ hinv2 (by omega) hreach

theorem a_star_mark_path_len : ∀ (cell : ACell) (m : Maze),
    (a_star_mark cell m).path_len = m.path_len + (cell.chainlen : Int) := by
  intro cell
  induction cell with
  | root r c v h =>
    intro m
    show ({ maze_mod_cell m r c (fun x => { x with type := CellType.pathSolution })
      with path_len := (maze_mod_cell m r c
        (fun x => { x with type := CellType.pathSolution })).path_len + 1 }).path_len
      = m.path_len + ((ACell.root r c v h).chainlen : Int)
    simp only [maze_mod_cell_path_len]
    rfl
  | child r c v h p ih =>
    intro m
    show (a_star_mark p { maze_mod_cell m r c
        (fun x => { x with type := CellType.pathSolution })
      with path_len := (maze_mod_cell m r c
        (fun x => { x with type := CellType.pathSolution })).path_len + 1 }).path_len
      = m.path_len + ((ACell.child r c v h p).chainlen : Int)
    rw [ih]
    simp only [maze_mod_cell_path_len, ACell.chainlen]
    push_cast
    ring

theorem maze_solve_a_star_ok (M : Maze) (n : Nat)
    (hs : cellOpen M M.start_cell = true)
    (hmin : IsMinWalk M M.start_cell M.end_cell n) :
    ∀ fuel : Nat, 5 ^ ((M.num_rows * M.num_cols).toNat + 1) < fuel →
      ∃ mA : Maze, maze_solve_a_star neverCancel fuel M = SolveRes.ok mA ∧
        mA.path_len = (n : Int) + 1 := by
  intro fuel hfuel
  have hmeas : aMeasure ((M.num_rows * M.num_cols).toNat)
      [ACell.root M.start_cell.1 M.start_cell.2 1
        (cell_distance M.start_cell M.end_cell)] < fuel := by
    have : aMeasure ((M.num_rows * M.num_cols).toNat)
        [ACell.root M.start_cell.1 M.start_cell.2 1
          (cell_distance M.start_cell M.end_cell)] =
        5 ^ ((M.num_rows * M.num_cols).toNat + 1) := by
      show 5 ^ ((M.num_rows * M.num_cols).toNat + 2 - (1 : Int).toNat) + 0 =
        5 ^ ((M.num_rows * M.num_cols).toNat + 1)
      norm_num
    omega
  obtain ⟨m', fin, k', n', hrun, hmin', hcoords, hval, hgood⟩ :=
    a_star_loop_done M ((M.num_rows * M.num_cols).toNat) (le_refl _) fuel 0 M
      (ACell.root M.start_cell.1 M.start_cell.2 1
        (cell_distance M.start_cell M.end_cell))
      _ _ (aInv_init M hs) hmeas ⟨n, hmin.1⟩
  have hn' : n' = n := isMinWalk_unique hmin' hmin
  rw [hn'] at hval
  have hres : maze_solve_a_star neverCancel fuel M = SolveRes.ok
      (maze_mod_cell
        (maze_mod_cell (a_star_mark fin { m' with path_len := 0 })
          (a_star_mark fin { m' with path_len := 0 }).start_cell.1
          (a_star_mark fin { m' with path_len := 0 }).start_cell.2
          (fun x => { x with type := CellType.startCell }))
        (maze_mod_cell (a_star_mark fin { m' with path_len := 0 })
          (a_star_mark fin { m' with path_len := 0 }).start_cell.1
          (a_star_mark fin { m' with path_len := 0 }).start_cell.2
          (fun x => { x with type := CellType.startCell })).end_cell.1
        (maze_mod_cell (a_star_mark fin { m' with path_len := 0 })
          (a_star_mark fin { m' with path_len := 0 }).start_cell.1
          (a_star_mark fin { m' with path_len := 0 }).start_cell.2
          (fun x => { x with type := CellType.startCell })).end_cell.2
        (fun x => { x with type := CellType.endCell })) := by
    simp only [maze_solve_a_star]
    rw [hrun]
  refine ⟨_, hres, ?_⟩
  rw [maze_mod_cell_path_len, maze_mod_cell_path_len, a_star_mark_path_len]
  have hchain := goodCell_value_chainlen hgood
  rw [hval] at hchain
  show (0 : Int) + (fin.chainlen : Int) = (n : Int) + 1
  omega

/-- A maze ready for a solver run: every board cell carries value 0 (the
state maze_clear_board leaves behind) and both endpoints are open. -/
def C1Ready (M : Maze) : Bool :=
  M.board.all (fun cl => cl.value == 0) && cellOpen M M.start_cell &&
    cellOpen M M.end_cell

theorem c1ready_values {M : Maze} (h : C1Ready M = true) :
    ∀ r c : Int, cell_value M r c = 0 := by
  intro r c
  unfold C1Ready at h
  rw [Bool.and_eq_true, Bool.and_eq_true] at h
  unfold cell_value
  cases hget : maze_get_cell M r c with
  | none => rfl
  | some cl =>
    have hmem : cl ∈ M.board := by
      unfold maze_get_cell at hget
      split at hget
      · exact absurd hget (by simp)
      · exact List.get?_mem hget
    have := List.all_eq_true.mp h.1.1 cl hmem
    simpa using this

theorem c1ready_start {M : Maze} (h : C1Ready M = true) :
    cellOpen M M.start_cell = true := by
  unfold C1Ready at h
  rw [Bool.and_eq_true, Bool.and_eq_true] at h
  exact h.1.2

/-- C1: on a cleared board whose end cell is joined to the start cell by
a shortest walk of n steps (n + 1 cells counting both endpoints), the BFS
solver and the A* solver, being pure functions of the maze, both
deterministically succeed once given enough fuel, and both report the
same path_len, namely n + 1, the number of cells of an unweighted
shortest path between the two endpoints. -/
theorem c1_bfs_astar_shortest_path (M : Maze) (n : Nat)
    (hready : C1Ready M = true)
    (hmin : IsMinWalk M M.start_cell M.end_cell n) :
    ∃ N : Nat, ∀ fuel pfuel : Nat, N ≤ fuel → N ≤ pfuel →
      ∃ mB mA : Maze,
        maze_solve_bfs neverCancel fuel pfuel M = SolveRes.ok mB ∧
        maze_solve_a_star neverCancel fuel M = SolveRes.ok mA ∧
        mB.path_len = (n : Int) + 1 ∧ mA.path_len = (n : Int) + 1 := by
  refine ⟨2 * zeroCount M + 2 + (n + 2) +
    (5 ^ ((M.num_rows * M.num_cols).toNat + 1) + 1), ?_⟩
  intro fuel pfuel hf hp
  have hpow5 : 0 < 5 ^ (M.num_rows * M.num_cols).toNat :=
    Nat.pos_pow_of_pos _ (by omega)
  obtain ⟨mB, hB1, hB2⟩ := maze_solve_bfs_ok M n (c1ready_values hready)
    (c1ready_start hready) hmin fuel pfuel (by omega) (by omega)
  obtain ⟨mA, hA1, hA2⟩ := maze_solve_a_star_ok M n (c1ready_start hready) hmin
    fuel (by omega)
  exact ⟨mB, mA, hB1, hA1, hB2, hA2⟩

theorem c1_bfs_astar_shortest_path_witness :
    C1Ready mazeC = true ∧
    IsMinWalk mazeC mazeC.start_cell mazeC.end_cell 4 ∧
    ∃ N : Nat, ∀ fuel pfuel : Nat, N ≤ fuel → N ≤ pfuel →
      ∃ mB mA : Maze,
        maze_solve_bfs neverCancel fuel pfuel mazeC = SolveRes.ok mB ∧
        maze_solve_a_star neverCancel fuel mazeC = SolveRes.ok mA ∧
        mB.path_len = ((4 : Nat) : Int) + 1 ∧ mA.path_len = ((4 : Nat) : Int) + 1 := by
  have hr : C1Ready mazeC = true := by decide
  have hw : Walk mazeC (0, 0) (2, 2) 4 :=
    Walk.cons (0, 0) (0, 1) (2, 2) 3 (by decide) ⟨(0, 1), by decide, by decide⟩
      (Walk.cons (0, 1) (0, 2) (2, 2) 2 (by decide) ⟨(0, 1), by decide, by decide⟩
        (Walk.cons (0, 2) (1, 2) (2, 2) 1 (by decide) ⟨(1, 0), by decide, by decide⟩
          (Walk.cons (1, 2) (2, 2) (2, 2) 0 (by decide) ⟨(1, 0), by decide, by decide⟩
            (Walk.nil (2, 2) (by decide)))))
  have hm : IsMinWalk mazeC mazeC.start_cell mazeC.end_cell 4 := by
    refine ⟨hw, ?_⟩
    intro j hj
    have h1 := walk_manhattan_le hj
    have h2 : cell_distance mazeC.start_cell mazeC.end_cell = 4 := by decide
    omega
  exact ⟨hr, hm, c1_bfs_astar_shortest_path mazeC 4 hr hm⟩
